import Mathlib

/-!
# Wannier initialisation in `WannierMinimizer::saveMLWF(int iSpin)`

A shallow embedding of `src/jdftx/wannier/WannierMinimizer_save.cpp`:

* the band-range selection at one mesh point (source lines 68-97),
* the initial rotations `U1`, `U2` (lines 99-140),
* the overlap pass with reverse-edge reuse (lines 31-65),
* the Wannier-basis Hamiltonian accumulation (lines 230-243),

and of the site list built by the constructor of `Molecule` in
`src/fluid1D/fluid/Molecule.h` (namespace `Fluid1D`).

Eigenvalues live in an arbitrary linear order `α` (the source uses `double`), matrix
entries in an arbitrary commutative star ring `K` (the source uses `complex`).  Band
indices and counts are `int` in the source and never negative there; they are natural
numbers here, and every subtraction in the source is between ordered operands
(`bandRanges_ordered`), so truncated subtraction agrees with the source's.
-/

set_option linter.unusedSectionVars false

namespace WannierMinimizer

/-! ## Band ranges (lines 68-97) -/

/-- The fields of `wannier` read by the band-range selection. -/
structure Wannier (α : Type) where
  outerWindow : Bool
  innerWindow : Bool
  eOuterMin : α
  eOuterMax : α
  eInnerMin : α
  eInnerMax : α
  bStart : Nat

/-- The four band indices `bStart, bStop, bFixedStart, bFixedStop` of line 68. -/
structure BandRange where
  bStart : Nat
  bStop : Nat
  bFixedStart : Nat
  bFixedStop : Nat
deriving DecidableEq, Repr

/-- The ways the selection can leave the normal path: the two `die` calls (lines 78 and
89), and a read of `eigs[b]` beyond the end of the vector. -/
inductive Abort where
  | outerDie (nFound nCenters : Nat)
  | innerDie (nFound nCenters : Nat)
  | readPastEnd
deriving DecidableEq, Repr

/-- The loop `while(b<stop && cond(eigs[b])) b++;` run for at most `n` iterations from
`b`.  A read `eigs[b]` past the end of the vector yields `none`. -/
def scanFrom {α : Type} (cond : α → Bool) (eigs : List α) (stop : Nat) : Nat → Nat → Option Nat
  | 0, b => some b
  | n + 1, b =>
    if b < stop then
      match eigs[b]? with
      | none => none
      | some x => if cond x then scanFrom cond eigs stop n (b + 1) else some b
    else some b

/-- The loop `while(b<stop && cond(eigs[b])) b++;` started at `b`: the counter only moves
up to `stop`, so `stop - b` iterations exhaust it (`scanFrom_fuel`). -/
def scan {α : Type} (cond : α → Bool) (eigs : List α) (stop b : Nat) : Option Nat :=
  scanFrom cond eigs stop (stop - b) b

/-- Lines 71-76: the two scans of the outer window, giving `(bStart, bStop)`. -/
def outerScan {α : Type} [LinearOrder α] (w : Wannier α) (nBands : Nat) (eigs : List α) :
    Option (Nat × Nat) :=
  match scan (fun x => decide (x < w.eOuterMin)) eigs nBands 0 with
  | none => none
  | some bStart =>
    match scan (fun x => decide (x ≤ w.eOuterMax)) eigs nBands bStart with
    | none => none
    | some bStop => some (bStart, bStop)

/-- Lines 82-87: the two scans of the inner window within `[bStart, bStop)`, giving
`(bFixedStart, bFixedStop)`. -/
def innerScan {α : Type} [LinearOrder α] (w : Wannier α) (eigs : List α) (bStart bStop : Nat) :
    Option (Nat × Nat) :=
  match scan (fun x => decide (x < w.eInnerMin)) eigs bStop bStart with
  | none => none
  | some bFixedStart =>
    match scan (fun x => decide (x ≤ w.eInnerMax)) eigs bStop bFixedStart with
    | none => none
    | some bFixedStop => some (bFixedStart, bFixedStop)

/-- Lines 68-97: the band ranges at one mesh point, or the way the selection aborted. -/
def bandRanges {α : Type} [LinearOrder α] (w : Wannier α) (nBands nCenters : Nat)
    (eigs : List α) : Except Abort BandRange :=
  if w.outerWindow then
    match outerScan w nBands eigs with
    | none => .error .readPastEnd
    | some (bStart, bStop) =>
      if bStop - bStart < nCenters then .error (.outerDie (bStop - bStart) nCenters)
      else if w.innerWindow then
        match innerScan w eigs bStart bStop with
        | none => .error .readPastEnd
        | some (bFixedStart, bFixedStop) =>
          if bFixedStop - bFixedStart > nCenters then
            .error (.innerDie (bFixedStop - bFixedStart) nCenters)
          else .ok ⟨bStart, bStop, bFixedStart, bFixedStop⟩
      else .ok ⟨bStart, bStop, bStart, bStart⟩
  else .ok ⟨w.bStart, w.bStart + nCenters, w.bStart, w.bStart + nCenters⟩

/-- Line 101: `ke.nFixed = bFixedStop - bFixedStart`. -/
def BandRange.nFixed (r : BandRange) : Nat := r.bFixedStop - r.bFixedStart

/-- Line 102: `nFree = nCenters - ke.nFixed`, a signed quantity. -/
def BandRange.nFree (r : BandRange) (nCenters : Nat) : Int := (nCenters : Int) - (r.nFixed : Int)

/-- Line 103: `ke.nIn = (nFree>0) ? (bStop-bStart) : nCenters`. -/
def BandRange.nIn (r : BandRange) (nCenters : Nat) : Nat :=
  if r.nFree nCenters > 0 then r.bStop - r.bStart else nCenters

/-- The selection fatally aborts (`die`) at this mesh point. -/
def dies {α : Type} [LinearOrder α] (w : Wannier α) (nBands nCenters : Nat) (eigs : List α) :
    Bool :=
  match bandRanges w nBands nCenters eigs with
  | .error (.outerDie _ _) => true
  | .error (.innerDie _ _) => true
  | _ => false

/-- The eigenvalues of the testable properties, `[-1, 0, 0.5, 1.2, 2.0]`. -/
def eigsEx : List ℚ := [-1, 0, 1/2, 6/5, 2]

/-- Outer window `[-0.5, 1.5]`, no inner window. -/
def wOuterEx : Wannier ℚ :=
  { outerWindow := true, innerWindow := false, eOuterMin := -1/2, eOuterMax := 3/2,
    eInnerMin := 0, eInnerMax := 0, bStart := 0 }

/-- Outer window `[-0.5, 1.5]`, inner window `[-0.1, 0.1]`. -/
def wInnerEx : Wannier ℚ :=
  { outerWindow := true, innerWindow := true, eOuterMin := -1/2, eOuterMax := 3/2,
    eInnerMin := -1/10, eInnerMax := 1/10, bStart := 0 }

/-- No windows, fixed bands starting at `bStart = 0`. -/
def wFixedEx : Wannier ℚ :=
  { outerWindow := false, innerWindow := false, eOuterMin := 0, eOuterMax := 0,
    eInnerMin := 0, eInnerMax := 0, bStart := 0 }

/-- No windows, fixed bands starting at `bStart = 1`. -/
def wShiftEx : Wannier ℚ :=
  { outerWindow := false, innerWindow := false, eOuterMin := 0, eOuterMax := 0,
    eInnerMin := 0, eInnerMax := 0, bStart := 1 }

/-! ## Dense matrices

The array library's `matrix` (its header is not among the sources) is a dense block of
entries with a row and a column count. -/

/-- Modelled from the spec: the dense `matrix` of the array library, given by its row and
column counts and its entries.  Entries are a total function of the two indices; only
those with `i < nRows` and `j < nCols` are meaningful. -/
structure matrix (K : Type) where
  nRows : Nat
  nCols : Nat
  data : Nat → Nat → K

section MatrixOps

variable {K : Type} [CommRing K] [StarRing K]

/-- Modelled from the spec: `zeroes(nRows, nCols)`, the zero matrix of that shape. -/
def zeroes (nRows nCols : Nat) : matrix K := ⟨nRows, nCols, fun _ _ => 0⟩

/-- Modelled from the spec: `eye(n)`, the `n × n` identity. -/
def eye (n : Nat) : matrix K := ⟨n, n, fun i j => if i = j then 1 else 0⟩

/-- Modelled from the spec: `m.set(iStart,iStop, jStart,jStop, x)` overwrites the block of
rows `[iStart,iStop)` and columns `[jStart,jStop)` of `m` with `x`. -/
def matrix.set (m : matrix K) (iStart iStop jStart jStop : Nat) (x : matrix K) : matrix K :=
  ⟨m.nRows, m.nCols, fun i j =>
    if iStart ≤ i ∧ i < iStop ∧ jStart ≤ j ∧ j < jStop then x.data (i - iStart) (j - jStart)
    else m.data i j⟩

/-- Modelled from the spec: `m(iStart,iStop, jStart,jStop)`, the block of rows
`[iStart,iStop)` and columns `[jStart,jStop)` of `m` as a matrix of its own. -/
def matrix.sub (m : matrix K) (iStart iStop jStart jStop : Nat) : matrix K :=
  ⟨iStop - iStart, jStop - jStart, fun i j => m.data (iStart + i) (jStart + j)⟩

/-- Modelled from the spec: the matrix product `a * b`. -/
def matrix.mul (a b : matrix K) : matrix K :=
  ⟨a.nRows, b.nCols, fun i j => ∑ k in Finset.range a.nCols, a.data i k * b.data k j⟩

/-- Modelled from the spec: `dagger(m)`, the conjugate transpose. -/
def dagger (m : matrix K) : matrix K := ⟨m.nCols, m.nRows, fun i j => star (m.data j i)⟩

/-- Modelled from the spec: the two unitary factors written by `m.svd(U, S, Vdag)`: `U` is
`nRows × nRows` and `Vdag` is `nCols × nCols`.  The singular values `S` are never read by
`saveMLWF` and are left out. -/
structure SvdFactors (K : Type) where
  U : matrix K
  Vdag : matrix K

/-- The matrix `m`, of shape `n × n`, is unitary: `dagger(m) * m` and `m * dagger(m)` are
both the identity. -/
def IsUnitary (m : matrix K) (n : Nat) : Prop :=
  m.nRows = n ∧ m.nCols = n ∧
  (∀ i j, i < n → j < n → ((dagger m).mul m).data i j = if i = j then 1 else 0) ∧
  (∀ i j, i < n → j < n → (m.mul (dagger m)).data i j = if i = j then 1 else 0)

/-- The columns of `m` are orthonormal: `dagger(m) * m` is the identity of size `nCols`. -/
def HasOrthonormalColumns (m : matrix K) : Prop :=
  ∀ i j, i < m.nCols → j < m.nCols → ((dagger m).mul m).data i j = if i = j then 1 else 0

/-- The entries of `m` as a matrix over the index types `Fin r` and `Fin c`. -/
def matrix.toMatrix (m : matrix K) (r c : Nat) : Matrix (Fin r) (Fin c) K :=
  fun i j => m.data i.val j.val

/-! ## Initial rotations (lines 99-140) -/

/-- The fields of `KmeshEntry` written by lines 101-140. -/
structure KmeshEntry (K : Type) where
  nFixed : Nat
  nIn : Nat
  U1 : matrix K
  U2 : matrix K

/-- Lines 110-119: the trial overlap with the contribution of the fixed bands projected
out. -/
def CdagGFree (svd : matrix K → SvdFactors K) (nCenters : Nat) (r : BandRange)
    (CdagG : matrix K) : matrix K :=
  if r.nFixed > 0 then
    CdagG.mul (dagger (((svd (CdagG.sub r.bFixedStart r.bFixedStop 0 nCenters)).Vdag).sub
      r.nFixed nCenters 0 nCenters))
  else CdagG

/-- Lines 121-126: `CdagGFreeNZ`, the rows of `CdagGFree` below and above the fixed
bands. -/
def CdagGFreeNZ (svd : matrix K → SvdFactors K) (nCenters : Nat) (r : BandRange)
    (CdagG : matrix K) : matrix K :=
  let nFree := (r.nFree nCenters).toNat
  let nLo := r.bFixedStart - r.bStart
  let nHi := r.bStop - r.bFixedStop
  let nOuter := nLo + nHi
  let free := CdagGFree svd nCenters r CdagG
  let m0 : matrix K := zeroes nOuter nOuter
  let m1 := if nLo > 0 then m0.set 0 nLo 0 nFree (free.sub r.bStart r.bFixedStart 0 nFree) else m0
  if nHi > 0 then m1.set nLo nOuter 0 nFree (free.sub r.bFixedStop r.bStop 0 nFree) else m1

/-- Lines 131-133: `Upad`, the left singular vectors `U` spread back over all bands. -/
def Upad (nBands : Nat) (r : BandRange) (U : matrix K) : matrix K :=
  let nLo := r.bFixedStart - r.bStart
  let nHi := r.bStop - r.bFixedStop
  let nOuter := nLo + nHi
  let m0 : matrix K := zeroes nBands nOuter
  let m1 := if nLo > 0 then m0.set r.bStart r.bFixedStart 0 nOuter (U.sub 0 nLo 0 nOuter) else m0
  if nHi > 0 then m1.set r.bFixedStop r.bStop 0 nOuter (U.sub nLo nOuter 0 nOuter) else m1

/-- Lines 104-136: the initial `U1` for the band ranges `r`, with the block writes of lines
107 and 135 taken without their range checks.  This is the `U1` of the source whenever
every block read and write is in range (`initU1Checked`, which returns this matrix then);
when the fixed range does not fit, `bFixedStop > nBands`, the source's write of line 107 is
out of range and there is no `U1`, while this function returns a value of no meaning. -/
def initU1 (svd : matrix K → SvdFactors K) (nBands nCenters : Nat) (r : BandRange)
    (CdagG : matrix K) : matrix K :=
  let nFixed := r.nFixed
  let nIn := r.nIn nCenters
  let u0 : matrix K := zeroes nBands nIn
  let u1 := if nFixed > 0 then u0.set r.bFixedStart r.bFixedStop 0 nFixed (eye nFixed) else u0
  if r.nFree nCenters > 0 then
    let f := svd (CdagGFreeNZ svd nCenters r CdagG)
    u1.set 0 nBands nFixed nIn ((Upad nBands r f.U).mul f.Vdag)
  else u1

/-- Line 139: `WdagG = dagger(ke.U1(0,nBands, 0,nCenters)) * CdagG`. -/
def WdagG (nBands nCenters : Nat) (U1 CdagG : matrix K) : matrix K :=
  (dagger (U1.sub 0 nBands 0 nCenters)).mul CdagG

/-- Line 140: `ke.U2 = WdagG * invsqrt(dagger(WdagG) * WdagG)`. -/
def initU2 (invsqrt : matrix K → matrix K) (nBands nCenters : Nat) (U1 CdagG : matrix K) :
    matrix K :=
  let W := WdagG nBands nCenters U1 CdagG
  W.mul (invsqrt ((dagger W).mul W))

/-- Lines 99-140: the counts and initial rotations of a mesh point with band ranges `r`
and trial overlap `CdagG = Ci ^ trialWfns(ke.point)`. -/
def initRotations (svd : matrix K → SvdFactors K) (invsqrt : matrix K → matrix K)
    (nBands nCenters : Nat) (r : BandRange) (CdagG : matrix K) : KmeshEntry K :=
  let U1 := initU1 svd nBands nCenters r CdagG
  { nFixed := r.nFixed
    nIn := r.nIn nCenters
    U1 := U1
    U2 := initU2 invsqrt nBands nCenters U1 CdagG }

/-- Lines 68-140 at one mesh point: band ranges, then counts and initial rotations; or the
way the selection aborted. -/
def initKmeshEntry {α : Type} [LinearOrder α] (w : Wannier α)
    (svd : matrix K → SvdFactors K) (invsqrt : matrix K → matrix K)
    (nBands nCenters : Nat) (eigs : List α) (CdagG : matrix K) : Except Abort (KmeshEntry K) :=
  match bandRanges w nBands nCenters eigs with
  | .error a => .error a
  | .ok r => .ok (initRotations svd invsqrt nBands nCenters r CdagG)

/-- Lines 156-161 on a worker that does not own the point: `U1` and `U2` are allocated as
`zeroes(nBands, ke.nIn)` and `zeroes(nCenters, nCenters)` and then overwritten entrywise
by the broadcast from the owner. -/
def receiveRotations (nBands nCenters : Nat) (owner : KmeshEntry K) : KmeshEntry K :=
  let U1 : matrix K := zeroes nBands owner.nIn
  let U2 : matrix K := zeroes nCenters nCenters
  { nFixed := owner.nFixed
    nIn := owner.nIn
    U1 := ⟨U1.nRows, U1.nCols, owner.U1.data⟩
    U2 := ⟨U2.nRows, U2.nCols, owner.U2.data⟩ }

/-! ## Range-checked block access

The same initialisation with every sub-block read and write checked: a block must be
non-empty and lie within the shape of its matrix, and a written block must have the shape
of its source. -/

/-- The block of rows `[iStart,iStop)` and columns `[jStart,jStop)` is non-empty and within
the shape of `m`. -/
def matrix.inRange (m : matrix K) (iStart iStop jStart jStop : Nat) : Bool :=
  decide (iStart < iStop ∧ iStop ≤ m.nRows ∧ jStart < jStop ∧ jStop ≤ m.nCols)

/-- Modelled from the spec: `m(iStart,iStop, jStart,jStop)` with its range check; `none`
when the block is not within `m`. -/
def matrix.subChecked (m : matrix K) (iStart iStop jStart jStop : Nat) : Option (matrix K) :=
  if m.inRange iStart iStop jStart jStop then some (m.sub iStart iStop jStart jStop) else none

/-- Modelled from the spec: `m.set(iStart,iStop, jStart,jStop, x)` with its range and shape
checks; `none` when the block is not within `m` or `x` does not have the shape of the
block. -/
def matrix.setChecked (m : matrix K) (iStart iStop jStart jStop : Nat) (x : matrix K) :
    Option (matrix K) :=
  if m.inRange iStart iStop jStart jStop ∧ x.nRows = iStop - iStart ∧ x.nCols = jStop - jStart
  then some (m.set iStart iStop jStart jStop x) else none

/-- Lines 110-119 with checked block reads. -/
def CdagGFreeChecked (svd : matrix K → SvdFactors K) (nCenters : Nat) (r : BandRange)
    (CdagG : matrix K) : Option (matrix K) :=
  if r.nFixed > 0 then
    match CdagG.subChecked r.bFixedStart r.bFixedStop 0 nCenters with
    | none => none
    | some fixedRows =>
      match (svd fixedRows).Vdag.subChecked r.nFixed nCenters 0 nCenters with
      | none => none
      | some nullRows => some (CdagG.mul (dagger nullRows))
  else some CdagG

/-- Lines 121-126 with checked block reads and writes. -/
def CdagGFreeNZChecked (svd : matrix K → SvdFactors K) (nCenters : Nat) (r : BandRange)
    (CdagG : matrix K) : Option (matrix K) :=
  let nFree := (r.nFree nCenters).toNat
  let nLo := r.bFixedStart - r.bStart
  let nHi := r.bStop - r.bFixedStop
  let nOuter := nLo + nHi
  match CdagGFreeChecked svd nCenters r CdagG with
  | none => none
  | some free =>
    let m0 : matrix K := zeroes nOuter nOuter
    match (if nLo > 0 then
        match free.subChecked r.bStart r.bFixedStart 0 nFree with
        | none => none
        | some src => m0.setChecked 0 nLo 0 nFree src
      else some m0) with
    | none => none
    | some m1 =>
      if nHi > 0 then
        match free.subChecked r.bFixedStop r.bStop 0 nFree with
        | none => none
        | some src => m1.setChecked nLo nOuter 0 nFree src
      else some m1

/-- Lines 131-133 with checked block reads and writes. -/
def UpadChecked (nBands : Nat) (r : BandRange) (U : matrix K) : Option (matrix K) :=
  let nLo := r.bFixedStart - r.bStart
  let nHi := r.bStop - r.bFixedStop
  let nOuter := nLo + nHi
  let m0 : matrix K := zeroes nBands nOuter
  match (if nLo > 0 then
      match U.subChecked 0 nLo 0 nOuter with
      | none => none
      | some src => m0.setChecked r.bStart r.bFixedStart 0 nOuter src
    else some m0) with
  | none => none
  | some m1 =>
    if nHi > 0 then
      match U.subChecked nLo nOuter 0 nOuter with
      | none => none
      | some src => m1.setChecked r.bFixedStop r.bStop 0 nOuter src
    else some m1

/-- Lines 104-136 with checked block reads and writes. -/
def initU1Checked (svd : matrix K → SvdFactors K) (nBands nCenters : Nat) (r : BandRange)
    (CdagG : matrix K) : Option (matrix K) :=
  let nFixed := r.nFixed
  let nIn := r.nIn nCenters
  let u0 : matrix K := zeroes nBands nIn
  match (if nFixed > 0 then u0.setChecked r.bFixedStart r.bFixedStop 0 nFixed (eye nFixed)
    else some u0) with
  | none => none
  | some u1 =>
    if r.nFree nCenters > 0 then
      match CdagGFreeNZChecked svd nCenters r CdagG with
      | none => none
      | some nz =>
        match UpadChecked nBands r (svd nz).U with
        | none => none
        | some upad => u1.setChecked 0 nBands nFixed nIn (upad.mul (svd nz).Vdag)
    else some u1

end MatrixOps

/-- A stand-in for `svd` whose factors are identities of the right sizes. -/
def svdEye {K : Type} [CommRing K] (m : matrix K) : SvdFactors K := ⟨eye m.nRows, eye m.nCols⟩

/-- A trial overlap `CdagG` of shape `5 × 3` with rational entries. -/
def cdagEx : matrix ℚ := ⟨5, 3, fun i j => (i : ℚ) + 2 * (j : ℚ) + 1⟩

/-- A trial overlap `CdagG` of shape `5 × 2` with rational entries. -/
def cdagEx2 : matrix ℚ := ⟨5, 2, fun i j => (i : ℚ) + 2 * (j : ℚ) + 1⟩

/-- A trial overlap `CdagG` of shape `2 × 1` with rational entries `3` and `4`. -/
def cdagEx1 : matrix ℚ := ⟨2, 1, fun i _ => (i : ℚ) + 3⟩

/-- A trial overlap `CdagG` of shape `2 × 2` with rational entries. -/
def cdagEx22 : matrix ℚ := ⟨2, 2, fun i j => (i : ℚ) + 2 * (j : ℚ) + 1⟩

/-- A trial overlap `CdagG` of shape `2 × 3` with rational entries. -/
def cdagEx23 : matrix ℚ := ⟨2, 3, fun i j => (i : ℚ) + 2 * (j : ℚ) + 1⟩

/-- A trial overlap `CdagG` of shape `2 × 1` with entries `i` and `5`. -/
def cdagCEx : matrix ℂ := ⟨2, 1, fun i _ => if i = 0 then Complex.I else 5⟩

/-- A stand-in for `invsqrt` that is right on the `1 × 1` identity. -/
def invsqrtEx (_ : matrix ℂ) : matrix ℂ := ⟨1, 1, fun _ _ => 1⟩

/-- The entries of a matrix as a list of rows. -/
def matrix.rows {K : Type} (m : matrix K) : List (List K) :=
  (List.range m.nRows).map (fun i => (List.range m.nCols).map (fun j => m.data i j))

/-! ## Overlap pass (lines 31-65) and broadcast of the overlaps (lines 147-152) -/

namespace Overlap

/-- The fields of `EdgeFD` used by the overlap pass: the neighbour index `ik`, the
neighbour `point`, and the overlap `M0`. -/
structure EdgeFD (P M : Type) where
  ik : Nat
  point : P
  M0 : M
deriving DecidableEq, Repr

/-- The fields of `KmeshEntry` used by the overlap pass: the `point` and its outward
edges. -/
structure KmeshEntry (P M : Type) where
  point : P
  edge : List (EdgeFD P M)
deriving DecidableEq, Repr

/-- Modelled from the spec: the collaborators of the overlap pass that are declared outside
the sources: `getWfns` (Bloch functions at a point), the `overlap` primitive, `dagger` on
overlap matrices, the owner `whose_q` of each mesh point, and the number of processes.
`isMine_q(ik)` is `whose_q(ik) == iProcess`. -/
structure Collaborators (P C M : Type) where
  getWfns : P → C
  overlap : C → C → M
  dagger : M → M
  whose_q : Nat → Nat
  nProcesses : Nat

section Pass

variable {P C M : Type}

/-- Lines 54-60: the first `reverseEdge` of `kMesh[edge.ik].edge` with
`reverseEdge.ik == ik`, if any, gives `dagger(reverseEdge.M0)`. -/
def findReverse (env : Collaborators P C M) (kMesh : List (KmeshEntry P M)) (ik : Nat)
    (edge : EdgeFD P M) : Option M :=
  match kMesh[edge.ik]? with
  | none => none
  | some neighbour =>
    (neighbour.edge.find? (fun reverseEdge => reverseEdge.ik == ik)).map
      (fun reverseEdge => env.dagger reverseEdge.M0)

/-- Lines 50-65: the body of the loop over the edges of point `ik` in round `jProcess` on
worker `iProcess`, with `Ci = getWfns(ke.point)`. -/
def updateEdge (env : Collaborators P C M) (iProcess jProcess : Nat)
    (kMesh : List (KmeshEntry P M)) (ik : Nat) (Ci : C) (edge : EdgeFD P M) : EdgeFD P M :=
  if env.whose_q edge.ik = jProcess then
    match (if jProcess = iProcess ∧ edge.ik < ik then findReverse env kMesh ik edge
      else none) with
    | some m => { edge with M0 := m }
    | none => { edge with M0 := env.overlap Ci (env.getWfns edge.point) }
  else edge

/-- Lines 45-65: the body of the loop over mesh points.  The reverse-edge lookup reads a
point `edge.ik < ik`, never the point whose edges are being written, so the edges of `ik`
are rewritten against the mesh as it was when the loop body was entered. -/
def updatePoint (env : Collaborators P C M) (iProcess jProcess : Nat)
    (kMesh : List (KmeshEntry P M)) (ik : Nat) : List (KmeshEntry P M) :=
  match kMesh[ik]? with
  | none => kMesh
  | some ke =>
    if env.whose_q ik = iProcess then
      kMesh.set ik { ke with
        edge := ke.edge.map (updateEdge env iProcess jProcess kMesh ik (env.getWfns ke.point)) }
    else kMesh

/-- Lines 45-65: one round `jProcess` of the overlap pass on worker `iProcess`. -/
def overlapRound (env : Collaborators P C M) (iProcess jProcess : Nat)
    (kMesh : List (KmeshEntry P M)) : List (KmeshEntry P M) :=
  (List.range kMesh.length).foldl (fun km ik => updatePoint env iProcess jProcess km ik) kMesh

/-- Lines 31-65: the overlap pass on worker `iProcess`, one round per process. -/
def overlapPass (env : Collaborators P C M) (iProcess : Nat)
    (kMesh : List (KmeshEntry P M)) : List (KmeshEntry P M) :=
  (List.range env.nProcesses).foldl (fun km jProcess => overlapRound env iProcess jProcess km)
    kMesh

/-- Lines 147-152: after `edge.M0.bcast(whose_q(ik))` every worker holds, for edge number
`t` of point `ik`, the overlap computed by the owner of `ik`. -/
def broadcastM0 (env : Collaborators P C M) (kMesh : List (KmeshEntry P M)) (ik t : Nat) :
    Option M :=
  match (overlapPass env (env.whose_q ik) kMesh)[ik]? with
  | none => none
  | some ke =>
    match ke.edge[t]? with
    | none => none
    | some edge => some edge.M0

/-- The value line 57 or line 64 assigns to `edge.M0` when the edge of point `ik` is
processed on worker `iProcess` with the mesh in state `kMesh`. -/
def assignedM0 (env : Collaborators P C M) (iProcess : Nat) (kMesh : List (KmeshEntry P M))
    (ik : Nat) (Ci : C) (edge : EdgeFD P M) : M :=
  match (if env.whose_q edge.ik = iProcess ∧ edge.ik < ik then findReverse env kMesh ik edge
    else none) with
  | some m => m
  | none => env.overlap Ci (env.getWfns edge.point)

/-- The edge of point `i` has been processed once rounds `< R` are complete and round `R`
has handled the points `< n`. -/
def Processed (env : Collaborators P C M) (R n i : Nat) (edge : EdgeFD P M) : Prop :=
  env.whose_q edge.ik < R ∨ (env.whose_q edge.ik = R ∧ i < n)

/-- Every processed edge of a point owned by `iProcess` holds the value its assignment
computes in the current state. -/
def PassInvariant (env : Collaborators P C M) (iProcess R n : Nat)
    (kMesh : List (KmeshEntry P M)) : Prop :=
  ∀ i ke, kMesh[i]? = some ke → env.whose_q i = iProcess → ∀ edge ∈ ke.edge,
    Processed env R n i edge →
      edge.M0 = assignedM0 env iProcess kMesh i (env.getWfns ke.point) edge

/-- The mesh on worker `iProcess` at the moment the loop of round `jProcess` reaches point
`ik`: the rounds `< jProcess` are complete and the points `< ik` of round `jProcess` have
been handled. -/
def stateAt (env : Collaborators P C M) (iProcess jProcess ik : Nat)
    (kMesh : List (KmeshEntry P M)) : List (KmeshEntry P M) :=
  (List.range ik).foldl (fun km n => updatePoint env iProcess jProcess km n)
    ((List.range jProcess).foldl (fun km jp => overlapRound env iProcess jp km) kMesh)

/-- An edge of point `i`, initially `edge`, as it stands when the loop of round `R` reaches
point `n`: rewritten by `updateEdge` in the round of the owner of its neighbour, at the
moment that round reached `i`, if that moment has passed; the initial edge otherwise. -/
def tracedEdge (env : Collaborators P C M) (iProcess : Nat) (kMesh : List (KmeshEntry P M))
    (i : Nat) (Ci : C) (R n : Nat) (edge : EdgeFD P M) : EdgeFD P M :=
  if env.whose_q edge.ik < R ∨ (env.whose_q edge.ik = R ∧ i < n) then
    updateEdge env iProcess (env.whose_q edge.ik)
      (stateAt env iProcess (env.whose_q edge.ik) i kMesh) i Ci edge
  else edge

end Pass

/-- Two mesh points joined by one edge in each direction; all overlaps start at `0`. -/
def meshEx : List (KmeshEntry Nat Int) :=
  [⟨10, [⟨1, 11, 0⟩]⟩, ⟨11, [⟨0, 10, 0⟩]⟩]

/-- Collaborators, one worker per point, whose overlap primitive `overlap(a, b) = a - 2 b`
on integers is not symmetric under `dagger = id`. -/
def envSplitEx : Collaborators Nat Int Int :=
  { getWfns := fun p => (p : Int), overlap := fun a b => a - 2 * b, dagger := id,
    whose_q := fun ik => ik, nProcesses := 2 }

/-- The same collaborators with both points on the single worker `0`. -/
def envLocalEx : Collaborators Nat Int Int :=
  { getWfns := fun p => (p : Int), overlap := fun a b => a - 2 * b, dagger := id,
    whose_q := fun _ => 0, nProcesses := 1 }

end Overlap

/-! ## Hamiltonian in the Wannier basis (lines 230-243) -/

namespace Hamiltonian

/-- The fields of `kMesh[i]` read by the interpolation: `point.k`, `point.weight`, the
rotation `U`, and the eigenvalues `Hsub_eigs[point.iReduced + iSpin*qCount]`. -/
structure KmeshEntry (K V : Type) where
  k : V
  weight : K
  U : matrix K
  Hsub_eigs : List K

/-- Modelled from the spec: the collaborators of the interpolation declared outside the
sources: `phase k R` stands for `cis(2*M_PI*dot(k, R))`, `iCellMap` lists the entries
`(cell.first, cell.second)` of the cell map in iteration order, `whose_q` gives the owner
of each mesh point, and `nProcesses` is the number of workers. -/
structure Collaborators (K V R : Type) where
  phase : V → R → K
  iCellMap : List (R × K)
  whose_q : Nat → Nat
  nProcesses : Nat

section Interpolation

variable {K V R : Type} [CommRing K] [StarRing K]

/-- Modelled from the spec: the default-constructed `matrix()`, empty, all of whose entries
count as zero. -/
def emptyMatrix : matrix K := ⟨0, 0, fun _ _ => 0⟩

/-- Modelled from the spec: the diagonal matrix of a list of eigenvalues. -/
def diagOf (d : List K) : matrix K :=
  ⟨d.length, d.length, fun i j => if i = j then d.getD i 0 else 0⟩

/-- Modelled from the spec: the scalar multiple `c * m`. -/
def scale (c : K) (m : matrix K) : matrix K := ⟨m.nRows, m.nCols, fun i j => c * m.data i j⟩

/-- Modelled from the spec: `m1 += m2`, which adds entrywise into a non-empty `m1` and
treats an empty `m1` as the zero matrix, making it a copy of `m2`. -/
def addAssign (m1 m2 : matrix K) : matrix K :=
  if m1.nRows * m1.nCols ≠ 0 then ⟨m1.nRows, m1.nCols, fun i j => m1.data i j + m2.data i j⟩
  else m2

/-- Lines 234-236: `Hsub = dagger(U) * Hsub_eigs * U`. -/
def Hsub (ke : KmeshEntry K V) : matrix K :=
  ((dagger ke.U).mul (diagOf ke.Hsub_eigs)).mul ke.U

/-- Line 241: the block that point `ke` adds to the accumulator of `cell`. -/
def cellTerm (env : Collaborators K V R) (ke : KmeshEntry K V) (cell : R × K) : matrix K :=
  scale (cell.2 * ke.weight * env.phase ke.k cell.1) (Hsub ke)

/-- Lines 239-241: the loop over `iCellMap` with the iterator `HwannierIter` advancing in
step. -/
def accumulatePoint (env : Collaborators K V R) (Hwannier : List (matrix K))
    (ke : KmeshEntry K V) : List (matrix K) :=
  List.zipWith (fun H cell => addAssign H (cellTerm env ke cell)) Hwannier env.iCellMap

/-- One iteration of the loop of line 232 on worker `iProcess`. -/
def accumulateStep (env : Collaborators K V R) (iProcess : Nat) (kMesh : List (KmeshEntry K V))
    (Hwannier : List (matrix K)) (i : Nat) : List (matrix K) :=
  if env.whose_q i = iProcess then
    match kMesh[i]? with
    | some ke => accumulatePoint env Hwannier ke
    | none => Hwannier
  else Hwannier

/-- Lines 231-242: the accumulators of worker `iProcess` before the all-reduce. -/
def localHwannier (env : Collaborators K V R) (iProcess : Nat) (kMesh : List (KmeshEntry K V)) :
    List (matrix K) :=
  (List.range kMesh.length).foldl (accumulateStep env iProcess kMesh)
    (List.replicate env.iCellMap.length emptyMatrix)

/-- Modelled from the spec: `H.allReduce(MPIUtil::ReduceSum)` on the worker whose buffer is
`mine`: a collective over the buffers `parts p` of all workers, which replaces each buffer by
the elementwise sum of all of them.  Every worker passes its buffer with its own element
count, so the collective is defined only when all buffers have one and the same shape (the
other collectives of this file are given that shape on every worker beforehand: lines 150
and 157-158 before `bcast`, lines 193-194 before `Csuper.allReduce`); `none` when the
buffer of some worker has another shape than `mine`. -/
def allReduce (nProcesses : Nat) (parts : Nat → matrix K) (mine : matrix K) :
    Option (matrix K) :=
  if (List.range nProcesses).all
      (fun p => decide ((parts p).nRows = mine.nRows ∧ (parts p).nCols = mine.nCols)) then
    some ⟨mine.nRows, mine.nCols, fun a b => ∑ p in Finset.range nProcesses, (parts p).data a b⟩
  else none

/-- Line 243: the all-reduce of the accumulator of cell number `c`, as seen by worker
`iProcess`. -/
def reduceCell (env : Collaborators K V R) (iProcess : Nat) (kMesh : List (KmeshEntry K V))
    (c : Nat) : Option (matrix K) :=
  allReduce env.nProcesses (fun p => (localHwannier env p kMesh).getD c emptyMatrix)
    ((localHwannier env iProcess kMesh).getD c emptyMatrix)

/-- Lines 231-243: `Hwannier` on worker `iProcess` after the all-reduce of every block, in
the order of the blocks; `none` when one of the collectives is undefined. -/
def Hwannier (env : Collaborators K V R) (iProcess : Nat) (kMesh : List (KmeshEntry K V)) :
    Option (List (matrix K)) :=
  (List.range (localHwannier env iProcess kMesh).length).mapM (reduceCell env iProcess kMesh)

/-- The entry `(a, b)` that mesh point number `i` contributes to the block of `cell`. -/
def termEntry (env : Collaborators K V R) (kMesh : List (KmeshEntry K V)) (cell : R × K)
    (a b i : Nat) : K :=
  match kMesh[i]? with
  | some ke => (cellTerm env ke cell).data a b
  | none => 0

end Interpolation

/-- Three mesh points with `1 × 1` rotations `(1)`, `(2)`, `(3)`, eigenvalue lists `[5]`,
`[7]`, `[11]` and weights `1`, `2`, `1`. -/
def meshEx : List (KmeshEntry ℤ ℤ) :=
  [⟨0, 1, ⟨1, 1, fun _ _ => 1⟩, [5]⟩, ⟨1, 2, ⟨1, 1, fun _ _ => 2⟩, [7]⟩,
    ⟨2, 1, ⟨1, 1, fun _ _ => 3⟩, [11]⟩]

/-- Two cells and two workers, the points dealt out alternately. -/
def envEx : Collaborators ℤ ℤ ℤ :=
  { phase := fun k R => 1 + k * R, iCellMap := [(0, 1), (1, 2)],
    whose_q := fun i => i % 2, nProcesses := 2 }

/-- The same two cells and two workers, with every mesh point owned by worker `1`, as in
the pass for one spin channel when worker `0` holds only states of the other channel. -/
def envIdleEx : Collaborators ℤ ℤ ℤ :=
  { phase := fun k R => 1 + k * R, iCellMap := [(0, 1), (1, 2)],
    whose_q := fun _ => 1, nProcesses := 2 }

end Hamiltonian

end WannierMinimizer

/-! ## Molecule sites (`src/fluid1D/fluid/Molecule.h`) -/

namespace Fluid1D

/-- The struct `Site`: the site density `index` (an `int` that starts at 0 and is only
ever incremented), the site properties pointer `prop`, and the position `pos`. -/
structure Site (P V : Type) where
  index : Nat
  prop : P
  pos : V
deriving DecidableEq, Repr

/-- One argument of the variadic constructor after `name`: a `SiteProperties*` or a
`vector3<>`. -/
inductive Arg (P V : Type) where
  | prop (p : P)
  | pos (v : V)
deriving DecidableEq, Repr

/-- The three overloads of `add_site` (lines 103-116), chosen by the types of the leading
arguments; `none` when no overload applies to the remaining arguments, or when
`site.back()` is called on an empty vector. -/
def add_site {P V : Type} : List (Site P V) → List (Arg P V) → Option (List (Site P V))
  | site, [] => some site
  | site, .prop prop :: .pos pos :: args =>
    match site.getLast? with
    | some back => add_site (site ++ [⟨back.index + 1, prop, pos⟩]) args
    | none => none
  | site, .pos pos :: args =>
    match site.getLast? with
    | some back => add_site (site ++ [⟨back.index, back.prop, pos⟩]) args
    | none => none
  | _, .prop _ :: _ => none

/-- The recursion entry point `make_site` (lines 96-101). -/
def make_site {P V : Type} : List (Arg P V) → Option (List (Site P V))
  | .prop prop :: .pos pos :: args => add_site [⟨0, prop, pos⟩] args
  | _ => none

/-- The data members of `Molecule`. -/
structure Molecule (P V : Type) where
  name : String
  site : List (Site P V)
  nSites : Nat
  nIndices : Nat
deriving DecidableEq, Repr

/-- The constructor of lines 80-83: `site(make_site(args...))`, `nSites(site.size())`,
`nIndices(site.back().index+1)`. -/
def Molecule.construct {P V : Type} (name : String) (args : List (Arg P V)) :
    Option (Molecule P V) :=
  match make_site args with
  | none => none
  | some site =>
    match site.getLast? with
    | none => none
    | some back => some ⟨name, site, site.length, back.index + 1⟩

/-- An argument list of the form `prop_1, pos_{1,1..m_1}, ..., prop_k, pos_{k,1..m_k}`,
given by its groups `(prop_c, pos_{c,1}, [pos_{c,2}, ..., pos_{c,m_c}])`. -/
def groupArgs {P V : Type} (groups : List (P × V × List V)) : List (Arg P V) :=
  (groups.map (fun g => Arg.prop g.1 :: Arg.pos g.2.1 :: g.2.2.map Arg.pos)).flatten

/-- The sites of one group, all with index `c` and the properties of the group. -/
def groupSites {P V : Type} (c : Nat) (g : P × V × List V) : List (Site P V) :=
  ⟨c, g.1, g.2.1⟩ :: g.2.2.map (fun v => ⟨c, g.1, v⟩)

/-- The sites of the groups in argument order, the groups numbered from `c`. -/
def groupedSites {P V : Type} : Nat → List (P × V × List V) → List (Site P V)
  | _, [] => []
  | c, g :: groups => groupSites c g ++ groupedSites (c + 1) groups

/-- The bonded-void geometry of the constructor comment,
`Molecule(&siteO,posO, &siteH,posH1,posH2, &siteV,posV1,posV2)`, with the properties
numbered `0, 1, 2` and the positions `10, ..., 14`. -/
def bondedVoidGroups : List (Nat × Nat × List Nat) :=
  [(0, 10, []), (1, 11, [12]), (2, 13, [14])]

end Fluid1D

namespace WannierMinimizer

/-! ## Scan lemmas -/

section ScanLemmas

variable {α : Type}

/-- Extra iterations beyond `stop - b` change nothing: the loop has already exited. -/
theorem scanFrom_fuel (cond : α → Bool) (eigs : List α) (stop : Nat) :
    ∀ (n b : Nat), stop - b ≤ n → scanFrom cond eigs stop n b = scan cond eigs stop b := by
  intro n
  induction n with
  | zero =>
    intro b h
    have h0 : stop - b = 0 := by omega
    simp [scan, h0]
  | succ n ih =>
    intro b h
    by_cases hb : b < stop
    · have hs : stop - b = (stop - (b + 1)) + 1 := by omega
      have e1 : scan cond eigs stop b
          = scanFrom cond eigs stop ((stop - (b + 1)) + 1) b := by
        unfold scan; rw [← hs]
      rw [e1]
      simp only [scanFrom, hb, if_true]
      cases eigs[b]? with
      | none => rfl
      | some x =>
        by_cases hc : cond x = true
        · simp only [hc, if_true]
          rw [ih (b + 1) (by omega)]
          rfl
        · simp [hc]
    · have h0 : stop - b = 0 := by omega
      simp [scan, h0, scanFrom, hb]

/-- One unfolding of the loop. -/
theorem scan_step (cond : α → Bool) (eigs : List α) (stop b : Nat) :
    scan cond eigs stop b =
      if b < stop then
        match eigs[b]? with
        | none => none
        | some x => if cond x then scan cond eigs stop (b + 1) else some b
      else some b := by
  by_cases hb : b < stop
  · have hs : stop - b = (stop - (b + 1)) + 1 := by omega
    have e1 : scan cond eigs stop b
        = scanFrom cond eigs stop ((stop - (b + 1)) + 1) b := by
      unfold scan; rw [← hs]
    rw [e1]
    simp only [scanFrom, hb, if_true]
    rfl
  · have h0 : stop - b = 0 := by omega
    simp [scan, h0, scanFrom, hb]

/-- When every index below `stop` is readable, the loop returns: the exit index `r` lies
in `[b, stop]`, every index in `[b, r)` satisfied the condition, and `r` is either `stop`
or an index whose eigenvalue fails the condition. -/
theorem scan_spec (cond : α → Bool) (eigs : List α) (stop : Nat) (hlen : stop ≤ eigs.length) :
    ∀ (n b : Nat), stop - b = n → b ≤ stop →
      ∃ r, scan cond eigs stop b = some r ∧ b ≤ r ∧ r ≤ stop ∧
        (∀ i (hi : i < eigs.length), b ≤ i → i < r → cond (eigs.get ⟨i, hi⟩) = true) ∧
        (∀ (hr : r < eigs.length), r < stop → cond (eigs.get ⟨r, hr⟩) = false) := by
  intro n
  induction n with
  | zero =>
    intro b h hb
    refine ⟨b, ?_, le_refl _, hb, ?_, ?_⟩
    · rw [scan_step]; simp; omega
    · intro i _ h1 h2; omega
    · intro _ h1; omega
  | succ n ih =>
    intro b h hb
    have hbs : b < stop := by omega
    have hbl : b < eigs.length := by omega
    rw [scan_step]
    simp only [hbs, if_true, List.getElem?_eq_getElem hbl]
    by_cases hc : cond eigs[b] = true
    · simp only [hc, if_true]
      obtain ⟨r, hr, h1, h2, h3, h4⟩ := ih (b + 1) (by omega) (by omega)
      refine ⟨r, hr, by omega, h2, ?_, h4⟩
      intro i hi hbi hir
      by_cases hib : i = b
      · subst hib; simpa using hc
      · exact h3 i hi (by omega) hir
    · refine ⟨b, by simp [hc], le_refl _, hb, ?_, ?_⟩
      · intro i _ h1 h2; omega
      · intro hr _; simpa using hc

/-- In a non-decreasing list, the two scans of a window `[eMin, eMax]` over the index range
`[lo, hi)` return `(s, e)` with `lo ≤ s ≤ e ≤ hi`, and `[s, e)` is exactly the set of
indices of `[lo, hi)` whose eigenvalue lies in the window. -/
theorem window_scan_spec [LinearOrder α] (eigs : List α) (eMin eMax : α) (lo hi : Nat)
    (hlen : hi ≤ eigs.length) (hlo : lo ≤ hi) (hs : eigs.Sorted (· ≤ ·)) :
    ∃ s e, scan (fun x => decide (x < eMin)) eigs hi lo = some s ∧
      scan (fun x => decide (x ≤ eMax)) eigs hi s = some e ∧
      lo ≤ s ∧ s ≤ e ∧ e ≤ hi ∧
      ∀ b (hb : b < eigs.length), (s ≤ b ∧ b < e) ↔
        (lo ≤ b ∧ b < hi ∧ eMin ≤ eigs.get ⟨b, hb⟩ ∧ eigs.get ⟨b, hb⟩ ≤ eMax) := by
  obtain ⟨s, hscan1, h1, h2, h3, h4⟩ :=
    scan_spec (fun x => decide (x < eMin)) eigs hi hlen (hi - lo) lo rfl hlo
  obtain ⟨e, hscan2, g1, g2, g3, g4⟩ :=
    scan_spec (fun x => decide (x ≤ eMax)) eigs hi hlen (hi - s) s rfl h2
  refine ⟨s, e, hscan1, hscan2, h1, g1, g2, ?_⟩
  intro b hb
  constructor
  · rintro ⟨hsb, hbe⟩
    refine ⟨by omega, by omega, ?_, ?_⟩
    · have hsl : s < eigs.length := by omega
      have hfail := h4 hsl (by omega)
      have hmin : eMin ≤ eigs.get ⟨s, hsl⟩ := by simpa using hfail
      have hmono : eigs.get ⟨s, hsl⟩ ≤ eigs.get ⟨b, hb⟩ :=
        hs.rel_get_of_le (by simpa using hsb)
      exact le_trans hmin hmono
    · simpa using g3 b hb hsb hbe
  · rintro ⟨hlob, hbhi, hmin, hmax⟩
    constructor
    · by_contra hcon
      have hlt := h3 b hb hlob (by omega)
      have : eigs.get ⟨b, hb⟩ < eMin := by simpa using hlt
      exact absurd hmin (not_le.mpr this)
    · by_contra hcon
      have hel : e < eigs.length := by omega
      have hfail := g4 hel (by omega)
      have hgt : eMax < eigs.get ⟨e, hel⟩ := by simpa using hfail
      have hmono : eigs.get ⟨e, hel⟩ ≤ eigs.get ⟨b, hb⟩ :=
        hs.rel_get_of_le (by simp; omega)
      exact absurd (le_trans hmono hmax) (not_le.mpr hgt)

/-- With `nBands` readable eigenvalues both window scans return, whatever the order of the
eigenvalues, and the indices are ordered `lo ≤ s ≤ e ≤ hi`. -/
theorem window_scan_total [LinearOrder α] (eigs : List α) (eMin eMax : α) (lo hi : Nat)
    (hlen : hi ≤ eigs.length) (hlo : lo ≤ hi) :
    ∃ s e, scan (fun x => decide (x < eMin)) eigs hi lo = some s ∧
      scan (fun x => decide (x ≤ eMax)) eigs hi s = some e ∧ lo ≤ s ∧ s ≤ e ∧ e ≤ hi := by
  obtain ⟨s, hscan1, h1, h2, _, _⟩ :=
    scan_spec (fun x => decide (x < eMin)) eigs hi hlen (hi - lo) lo rfl hlo
  obtain ⟨e, hscan2, g1, g2, _, _⟩ :=
    scan_spec (fun x => decide (x ≤ eMax)) eigs hi hlen (hi - s) s rfl h2
  exact ⟨s, e, hscan1, hscan2, h1, g1, g2⟩

end ScanLemmas

/-! ## Band-range theorems -/

section BandRangeTheorems

variable {α : Type} [LinearOrder α]

/-- The outer scan returns, with `bStart ≤ bStop ≤ nBands`. -/
theorem outerScan_total (w : Wannier α) (nBands : Nat) (eigs : List α)
    (hlen : eigs.length = nBands) :
    ∃ bStart bStop, outerScan w nBands eigs = some (bStart, bStop) ∧
      bStart ≤ bStop ∧ bStop ≤ nBands := by
  obtain ⟨s, e, h1, h2, _, h4, h5⟩ :=
    window_scan_total eigs w.eOuterMin w.eOuterMax 0 nBands (by omega) (by omega)
  exact ⟨s, e, by simp [outerScan, h1, h2], h4, h5⟩

/-- The inner scan returns, with `bStart ≤ bFixedStart ≤ bFixedStop ≤ bStop`. -/
theorem innerScan_total (w : Wannier α) (eigs : List α) (bStart bStop : Nat)
    (hlen : bStop ≤ eigs.length) (hle : bStart ≤ bStop) :
    ∃ bFixedStart bFixedStop, innerScan w eigs bStart bStop = some (bFixedStart, bFixedStop) ∧
      bStart ≤ bFixedStart ∧ bFixedStart ≤ bFixedStop ∧ bFixedStop ≤ bStop := by
  obtain ⟨s, e, h1, h2, h3, h4, h5⟩ :=
    window_scan_total eigs w.eInnerMin w.eInnerMax bStart bStop hlen hle
  exact ⟨s, e, by simp [innerScan, h1, h2], h3, h4, h5⟩

/-- Every subtraction of band indices in the source is between ordered operands: on a
normal return with an outer window, `bStart ≤ bFixedStart ≤ bFixedStop ≤ bStop ≤ nBands`;
with no window the same chain holds up to `bStop = wannier.bStart + nCenters`. -/
theorem bandRanges_ordered (w : Wannier α) (nBands nCenters : Nat) (eigs : List α)
    (hlen : eigs.length = nBands) (r : BandRange)
    (hr : bandRanges w nBands nCenters eigs = .ok r) :
    r.bStart ≤ r.bFixedStart ∧ r.bFixedStart ≤ r.bFixedStop ∧ r.bFixedStop ≤ r.bStop ∧
      (w.outerWindow = true → r.bStop ≤ nBands) := by
  unfold bandRanges at hr
  by_cases hw : w.outerWindow = true
  · obtain ⟨s, e, ho, hse, he⟩ := outerScan_total w nBands eigs hlen
    simp only [hw, if_true, ho] at hr
    by_cases hd : e - s < nCenters
    · simp [hd] at hr
    · simp only [hd, if_false] at hr
      by_cases hi : w.innerWindow = true
      · obtain ⟨fs, fe, hin, h1, h2, h3⟩ := innerScan_total w eigs s e (by omega) hse
        simp only [hi, if_true, hin] at hr
        by_cases hd2 : fe - fs > nCenters
        · simp [hd2] at hr
        · simp only [hd2, if_false] at hr
          cases hr
          exact ⟨h1, h2, h3, fun _ => he⟩
      · simp only [hi] at hr
        cases hr
        exact ⟨le_refl _, le_refl _, hse, fun _ => he⟩
  · simp only [hw] at hr
    cases hr
    exact ⟨le_refl _, by simp, le_refl _, fun h => absurd h hw⟩

/-- C1. Outer-window band selection: for a non-decreasing eigenvalue list of length
`nBands` the two scans of lines 71-76 return `bStart` and `bStop`, a band index `b` lies
in `[bStart, bStop)` exactly when `eOuterMin ≤ eigs[b] ≤ eOuterMax`, and these are the
`bStart`, `bStop` the selection goes on with when an outer window is configured. -/
theorem outer_window_band_selection (w : Wannier α) (nBands nCenters : Nat) (eigs : List α)
    (hlen : eigs.length = nBands) (hs : eigs.Sorted (· ≤ ·)) :
    ∃ bStart bStop, outerScan w nBands eigs = some (bStart, bStop) ∧
      (∀ b (hb : b < eigs.length), (bStart ≤ b ∧ b < bStop) ↔
        (w.eOuterMin ≤ eigs.get ⟨b, hb⟩ ∧ eigs.get ⟨b, hb⟩ ≤ w.eOuterMax)) ∧
      (w.outerWindow = true → ∀ r, bandRanges w nBands nCenters eigs = .ok r →
        r.bStart = bStart ∧ r.bStop = bStop) := by
  obtain ⟨s, e, h1, h2, _, _, _, hiff⟩ :=
    window_scan_spec eigs w.eOuterMin w.eOuterMax 0 nBands (by omega) (by omega) hs
  have ho : outerScan w nBands eigs = some (s, e) := by simp [outerScan, h1, h2]
  refine ⟨s, e, ho, ?_, ?_⟩
  · intro b hb
    rw [hiff b hb]
    constructor
    · rintro ⟨_, _, h3, h4⟩; exact ⟨h3, h4⟩
    · rintro ⟨h3, h4⟩; exact ⟨by omega, by omega, h3, h4⟩
  · intro hw r hr
    unfold bandRanges at hr
    simp only [hw, if_true, ho] at hr
    by_cases hd : e - s < nCenters
    · simp [hd] at hr
    · simp only [hd, if_false] at hr
      by_cases hi : w.innerWindow = true
      · simp only [hi, if_true] at hr
        cases hin : innerScan w eigs s e with
        | none => simp [hin] at hr
        | some p =>
          obtain ⟨fs, fe⟩ := p
          simp only [hin] at hr
          by_cases hd2 : fe - fs > nCenters
          · simp [hd2] at hr
          · simp only [hd2, if_false] at hr
            cases hr
            exact ⟨rfl, rfl⟩
      · simp only [hi] at hr
        cases hr
        exact ⟨rfl, rfl⟩

/-- C1 at `eigs = [-1, 0, 0.5, 1.2, 2.0]`, outer window `[-0.5, 1.5]`, no inner window,
`nCenters = 3`: the scan gives `bStart = 1`, `bStop = 4`, and `nFixed = 0`, `nIn = 3`. -/
theorem outer_window_band_selection_witness :
    eigsEx.length = 5 ∧ eigsEx.Sorted (· ≤ ·) ∧
    (∃ bStart bStop, outerScan wOuterEx 5 eigsEx = some (bStart, bStop) ∧
      (∀ b (hb : b < eigsEx.length), (bStart ≤ b ∧ b < bStop) ↔
        (wOuterEx.eOuterMin ≤ eigsEx.get ⟨b, hb⟩ ∧ eigsEx.get ⟨b, hb⟩ ≤ wOuterEx.eOuterMax)) ∧
      (wOuterEx.outerWindow = true → ∀ r, bandRanges wOuterEx 5 3 eigsEx = .ok r →
        r.bStart = bStart ∧ r.bStop = bStop)) ∧
    bandRanges wOuterEx 5 3 eigsEx = .ok ⟨1, 4, 1, 1⟩ ∧
    BandRange.nFixed ⟨1, 4, 1, 1⟩ = 0 ∧ BandRange.nIn ⟨1, 4, 1, 1⟩ 3 = 3 :=
  ⟨rfl, by norm_num [eigsEx],
    outer_window_band_selection wOuterEx 5 3 eigsEx rfl (by norm_num [eigsEx]),
    by norm_num [bandRanges, outerScan, scan, scanFrom, wOuterEx, eigsEx],
    by decide, by decide⟩

/-- C2. Abort condition: with `nBands` eigenvalues (in any order) the selection either
dies or returns band ranges; it dies exactly when an outer window is configured and either
`bStop - bStart < nCenters`, or an inner window is also configured and
`bFixedStop - bFixedStart > nCenters`; with no outer window it never dies. -/
theorem selection_dies_iff (w : Wannier α) (nBands nCenters : Nat) (eigs : List α)
    (hlen : eigs.length = nBands) :
    (dies w nBands nCenters eigs = true ∨ ∃ r, bandRanges w nBands nCenters eigs = .ok r) ∧
    (dies w nBands nCenters eigs = true ↔
      (w.outerWindow = true ∧ ∃ bStart bStop, outerScan w nBands eigs = some (bStart, bStop) ∧
        (bStop - bStart < nCenters ∨
          (w.innerWindow = true ∧ ∃ bFixedStart bFixedStop,
            innerScan w eigs bStart bStop = some (bFixedStart, bFixedStop) ∧
            bFixedStop - bFixedStart > nCenters)))) ∧
    (w.outerWindow = false → dies w nBands nCenters eigs = false) := by
  by_cases hw : w.outerWindow = true
  · obtain ⟨s, e, ho, hse, he⟩ := outerScan_total w nBands eigs hlen
    by_cases hd : e - s < nCenters
    · have hdie : dies w nBands nCenters eigs = true := by
        simp [dies, bandRanges, hw, ho, hd]
      refine ⟨Or.inl hdie, ?_, fun h => by simp [hw] at h⟩
      simp only [hdie, true_iff]
      exact ⟨hw, s, e, ho, Or.inl hd⟩
    · by_cases hi : w.innerWindow = true
      · obtain ⟨fs, fe, hin, _, _, _⟩ := innerScan_total w eigs s e (by omega) hse
        by_cases hd2 : fe - fs > nCenters
        · have hdie : dies w nBands nCenters eigs = true := by
            simp [dies, bandRanges, hw, ho, hd, hi, hin, hd2]
          refine ⟨Or.inl hdie, ?_, fun h => by simp [hw] at h⟩
          simp only [hdie, true_iff]
          exact ⟨hw, s, e, ho, Or.inr ⟨hi, fs, fe, hin, hd2⟩⟩
        · have hok : bandRanges w nBands nCenters eigs = .ok ⟨s, e, fs, fe⟩ := by
            simp [bandRanges, hw, ho, hd, hi, hin, hd2]
          have hdie : dies w nBands nCenters eigs = false := by simp [dies, hok]
          refine ⟨Or.inr ⟨_, hok⟩, ?_, fun h => by simp [hw] at h⟩
          simp only [hdie, Bool.false_eq_true, false_iff]
          rintro ⟨_, s', e', ho', hor⟩
          rw [ho] at ho'
          cases ho'
          rcases hor with h | ⟨_, fs', fe', hin', h⟩
          · exact hd h
          · rw [hin] at hin'
            cases hin'
            exact hd2 h
      · have hok : bandRanges w nBands nCenters eigs = .ok ⟨s, e, s, s⟩ := by
          simp [bandRanges, hw, ho, hd, hi]
        have hdie : dies w nBands nCenters eigs = false := by simp [dies, hok]
        refine ⟨Or.inr ⟨_, hok⟩, ?_, fun h => by simp [hw] at h⟩
        simp only [hdie, Bool.false_eq_true, false_iff]
        rintro ⟨_, s', e', ho', hor⟩
        rw [ho] at ho'
        cases ho'
        rcases hor with h | ⟨h, _⟩
        · exact hd h
        · exact hi h
  · have hok : bandRanges w nBands nCenters eigs
        = .ok ⟨w.bStart, w.bStart + nCenters, w.bStart, w.bStart + nCenters⟩ := by
      simp [bandRanges, hw]
    have hdie : dies w nBands nCenters eigs = false := by simp [dies, hok]
    refine ⟨Or.inr ⟨_, hok⟩, ?_, fun _ => hdie⟩
    simp only [hdie, Bool.false_eq_true, false_iff]
    rintro ⟨h, _⟩
    exact hw h

/-- C2 at `eigs = [-1, 0, 0.5, 1.2, 2.0]`, outer window `[-0.5, 1.5]`, `nCenters = 4`:
the selection dies, only 3 bands being in the window. -/
theorem selection_dies_iff_witness :
    eigsEx.length = 5 ∧
    ((dies wOuterEx 5 4 eigsEx = true ∨ ∃ r, bandRanges wOuterEx 5 4 eigsEx = .ok r) ∧
    (dies wOuterEx 5 4 eigsEx = true ↔
      (wOuterEx.outerWindow = true ∧
        ∃ bStart bStop, outerScan wOuterEx 5 eigsEx = some (bStart, bStop) ∧
        (bStop - bStart < 4 ∨
          (wOuterEx.innerWindow = true ∧ ∃ bFixedStart bFixedStop,
            innerScan wOuterEx eigsEx bStart bStop = some (bFixedStart, bFixedStop) ∧
            bFixedStop - bFixedStart > 4)))) ∧
    (wOuterEx.outerWindow = false → dies wOuterEx 5 4 eigsEx = false)) ∧
    bandRanges wOuterEx 5 4 eigsEx = .error (.outerDie 3 4) ∧
    dies wOuterEx 5 4 eigsEx = true :=
  ⟨rfl, selection_dies_iff wOuterEx 5 4 eigsEx rfl,
    by norm_num [bandRanges, outerScan, scan, scanFrom, wOuterEx, eigsEx],
    by norm_num [dies, bandRanges, outerScan, scan, scanFrom, wOuterEx, eigsEx]⟩

/-- The number of indices of a list of length `n` lying in `[s, e)`, for `e ≤ n`. -/
theorem card_index_interval (n s e : Nat) (he : e ≤ n) :
    (Finset.univ.filter (fun b : Fin n => s ≤ b.val ∧ b.val < e)).card = e - s := by
  have hmap : (Finset.univ.filter (fun b : Fin n => s ≤ b.val ∧ b.val < e)).map
      Fin.valEmbedding = Finset.Ico s e := by
    ext x
    simp only [Finset.mem_map, Finset.mem_filter, Finset.mem_univ, true_and,
      Fin.valEmbedding_apply, Finset.mem_Ico]
    constructor
    · rintro ⟨b, hb, rfl⟩; exact hb
    · intro hx; exact ⟨⟨x, by omega⟩, hx, rfl⟩
  rw [← Finset.card_map Fin.valEmbedding, hmap, Nat.card_Ico]

/-- C3. Inner-window (frozen) band selection: for a non-decreasing eigenvalue list of
length `nBands`, an outer window and a normal return.  With an inner window, `b` lies in
`[bFixedStart, bFixedStop)` exactly when it lies in `[bStart, bStop)` and
`eInnerMin ≤ eigs[b] ≤ eInnerMax`, and `nFixed` is the number of such bands; with no
inner window the frozen interval is empty and `nFixed = 0`. -/
theorem inner_window_band_selection (w : Wannier α) (nBands nCenters : Nat) (eigs : List α)
    (hlen : eigs.length = nBands) (hs : eigs.Sorted (· ≤ ·)) (hw : w.outerWindow = true)
    (r : BandRange) (hr : bandRanges w nBands nCenters eigs = .ok r) :
    (w.innerWindow = true →
      (∀ b (hb : b < eigs.length), (r.bFixedStart ≤ b ∧ b < r.bFixedStop) ↔
        (r.bStart ≤ b ∧ b < r.bStop ∧
          w.eInnerMin ≤ eigs.get ⟨b, hb⟩ ∧ eigs.get ⟨b, hb⟩ ≤ w.eInnerMax)) ∧
      r.nFixed = (Finset.univ.filter (fun b : Fin eigs.length =>
        r.bStart ≤ b.val ∧ b.val < r.bStop ∧
          w.eInnerMin ≤ eigs.get b ∧ eigs.get b ≤ w.eInnerMax)).card) ∧
    (w.innerWindow = false → r.bFixedStart = r.bFixedStop ∧ r.nFixed = 0) := by
  obtain ⟨s, e, ho, hse, he⟩ := outerScan_total w nBands eigs hlen
  unfold bandRanges at hr
  simp only [hw, if_true, ho] at hr
  by_cases hd : e - s < nCenters
  · simp [hd] at hr
  simp only [hd, if_false] at hr
  by_cases hi : w.innerWindow = true
  · obtain ⟨fs, fe, h1, h2, _, _, hfe, hiff⟩ :=
      window_scan_spec eigs w.eInnerMin w.eInnerMax s e (by omega) hse hs
    have hin : innerScan w eigs s e = some (fs, fe) := by simp [innerScan, h1, h2]
    simp only [hi, if_true, hin] at hr
    by_cases hd2 : fe - fs > nCenters
    · simp [hd2] at hr
    simp only [hd2, if_false] at hr
    cases hr
    refine ⟨fun _ => ⟨hiff, ?_⟩, fun h => by simp [hi] at h⟩
    have hset : (Finset.univ.filter (fun b : Fin eigs.length =>
        s ≤ b.val ∧ b.val < e ∧ w.eInnerMin ≤ eigs.get b ∧ eigs.get b ≤ w.eInnerMax))
        = Finset.univ.filter (fun b : Fin eigs.length => fs ≤ b.val ∧ b.val < fe) := by
      ext b
      simp only [Finset.mem_filter, Finset.mem_univ, true_and]
      exact (hiff b.val b.isLt).symm
    show fe - fs = _
    rw [hset, card_index_interval eigs.length fs fe (by omega)]
  · simp only [hi] at hr
    cases hr
    refine ⟨fun h => absurd h hi, fun _ => ⟨rfl, by simp [BandRange.nFixed]⟩⟩

/-- C3 at `eigs = [-1, 0, 0.5, 1.2, 2.0]`, outer window `[-0.5, 1.5]`, inner window
`[-0.1, 0.1]`, `nCenters = 3`: `bFixedStart = 1`, `bFixedStop = 2`, `nFixed = 1`. -/
theorem inner_window_band_selection_witness :
    eigsEx.length = 5 ∧ eigsEx.Sorted (· ≤ ·) ∧ wInnerEx.outerWindow = true ∧
    bandRanges wInnerEx 5 3 eigsEx = .ok ⟨1, 4, 1, 2⟩ ∧
    BandRange.nFixed ⟨1, 4, 1, 2⟩ = 1 ∧
    ((wInnerEx.innerWindow = true →
      (∀ b (hb : b < eigsEx.length),
        ((⟨1, 4, 1, 2⟩ : BandRange).bFixedStart ≤ b ∧ b < (⟨1, 4, 1, 2⟩ : BandRange).bFixedStop) ↔
        ((⟨1, 4, 1, 2⟩ : BandRange).bStart ≤ b ∧ b < (⟨1, 4, 1, 2⟩ : BandRange).bStop ∧
          wInnerEx.eInnerMin ≤ eigsEx.get ⟨b, hb⟩ ∧ eigsEx.get ⟨b, hb⟩ ≤ wInnerEx.eInnerMax)) ∧
      BandRange.nFixed ⟨1, 4, 1, 2⟩ = (Finset.univ.filter (fun b : Fin eigsEx.length =>
        (⟨1, 4, 1, 2⟩ : BandRange).bStart ≤ b.val ∧ b.val < (⟨1, 4, 1, 2⟩ : BandRange).bStop ∧
          wInnerEx.eInnerMin ≤ eigsEx.get b ∧ eigsEx.get b ≤ wInnerEx.eInnerMax)).card) ∧
    (wInnerEx.innerWindow = false →
      (⟨1, 4, 1, 2⟩ : BandRange).bFixedStart = (⟨1, 4, 1, 2⟩ : BandRange).bFixedStop ∧
      BandRange.nFixed ⟨1, 4, 1, 2⟩ = 0)) :=
  ⟨rfl, by norm_num [eigsEx], rfl,
    by norm_num [bandRanges, outerScan, innerScan, scan, scanFrom, wInnerEx, eigsEx],
    by decide,
    inner_window_band_selection wInnerEx 5 3 eigsEx rfl (by norm_num [eigsEx]) rfl ⟨1, 4, 1, 2⟩
      (by norm_num [bandRanges, outerScan, innerScan, scan, scanFrom, wInnerEx, eigsEx])⟩

/-- On a normal return `nFixed ≤ nCenters ≤ bStop - bStart`. -/
theorem subspace_size_bounds (w : Wannier α) (nBands nCenters : Nat) (eigs : List α)
    (hlen : eigs.length = nBands) (r : BandRange)
    (hr : bandRanges w nBands nCenters eigs = .ok r) :
    r.nFixed ≤ nCenters ∧ nCenters ≤ r.bStop - r.bStart := by
  unfold bandRanges at hr
  by_cases hw : w.outerWindow = true
  · obtain ⟨s, e, ho, hse, he⟩ := outerScan_total w nBands eigs hlen
    simp only [hw, if_true, ho] at hr
    by_cases hd : e - s < nCenters
    · simp [hd] at hr
    simp only [hd, if_false] at hr
    by_cases hi : w.innerWindow = true
    · obtain ⟨fs, fe, hin, h1, h2, h3⟩ := innerScan_total w eigs s e (by omega) hse
      simp only [hi, if_true, hin] at hr
      by_cases hd2 : fe - fs > nCenters
      · simp [hd2] at hr
      simp only [hd2, if_false] at hr
      cases hr
      simp only [BandRange.nFixed]
      omega
    · simp only [hi] at hr
      cases hr
      simp only [BandRange.nFixed]
      omega
  · simp only [hw] at hr
    cases hr
    simp only [BandRange.nFixed]
    omega

/-- C4 as stated fails: with `eigs = [-1, 0, 0.5, 1.2, 2.0]`, outer window `[-0.5, 1.5]`,
no inner window and `nCenters = 2`, the selection returns normally with `nIn = 3`, which
exceeds `nCenters`. -/
theorem subspace_size_chain_fails :
    ∃ r, bandRanges wOuterEx 5 2 eigsEx = .ok r ∧ r.nFixed = 0 ∧ r.nIn 2 = 3 ∧
      ¬ (r.nFixed ≤ r.nIn 2 ∧ r.nIn 2 ≤ 2 ∧ 2 ≤ 5) :=
  ⟨⟨1, 4, 1, 1⟩, by norm_num [bandRanges, outerScan, scan, scanFrom, wOuterEx, eigsEx],
    by decide, by decide, by decide⟩

/-- C4, amended. On a normal return the counts satisfy `nFixed ≤ nCenters ≤ nIn`; and
`nIn ≤ nBands` when an outer window is configured (with `nBands` eigenvalues) or when the
fixed band range fits, `wannier.bStart + nCenters ≤ nBands`.  With no outer window
`nFixed = nIn = nCenters`. -/
theorem subspace_size_chain (w : Wannier α) (nBands nCenters : Nat) (eigs : List α)
    (hlen : eigs.length = nBands) (r : BandRange)
    (hr : bandRanges w nBands nCenters eigs = .ok r) :
    r.nFixed ≤ nCenters ∧ nCenters ≤ r.nIn nCenters ∧
    (w.outerWindow = true ∨ w.bStart + nCenters ≤ nBands → r.nIn nCenters ≤ nBands) ∧
    (w.outerWindow = false → r.nFixed = nCenters ∧ r.nIn nCenters = nCenters) := by
  have hord := bandRanges_ordered w nBands nCenters eigs hlen r hr
  unfold bandRanges at hr
  by_cases hw : w.outerWindow = true
  · obtain ⟨s, e, ho, hse, he⟩ := outerScan_total w nBands eigs hlen
    simp only [hw, if_true, ho] at hr
    by_cases hd : e - s < nCenters
    · simp [hd] at hr
    simp only [hd, if_false] at hr
    by_cases hi : w.innerWindow = true
    · obtain ⟨fs, fe, hin, h1, h2, h3⟩ := innerScan_total w eigs s e (by omega) hse
      simp only [hi, if_true, hin] at hr
      by_cases hd2 : fe - fs > nCenters
      · simp [hd2] at hr
      simp only [hd2, if_false] at hr
      cases hr
      simp only [BandRange.nIn, BandRange.nFree, BandRange.nFixed]
      refine ⟨by omega, ?_, ?_, fun h => by simp [hw] at h⟩
      · split <;> omega
      · intro _; split <;> omega
    · simp only [hi] at hr
      cases hr
      simp only [BandRange.nIn, BandRange.nFree, BandRange.nFixed]
      refine ⟨by omega, ?_, ?_, fun h => by simp [hw] at h⟩
      · split <;> omega
      · intro _; split <;> omega
  · simp only [hw] at hr
    cases hr
    simp only [BandRange.nIn, BandRange.nFree, BandRange.nFixed]
    refine ⟨by omega, ?_, ?_, fun _ => ⟨by omega, ?_⟩⟩
    · split <;> omega
    · rintro (h | h)
      · exact absurd h hw
      · split <;> omega
    · split <;> omega

/-- C4 (amended) at `eigs = [-1, 0, 0.5, 1.2, 2.0]`, outer window `[-0.5, 1.5]`,
`nCenters = 2`: `nFixed = 0 ≤ 2 ≤ nIn = 3 ≤ 5`. -/
theorem subspace_size_chain_witness :
    eigsEx.length = 5 ∧ bandRanges wOuterEx 5 2 eigsEx = .ok ⟨1, 4, 1, 1⟩ ∧
    (BandRange.nFixed ⟨1, 4, 1, 1⟩ ≤ 2 ∧ 2 ≤ BandRange.nIn ⟨1, 4, 1, 1⟩ 2 ∧
    (wOuterEx.outerWindow = true ∨ wOuterEx.bStart + 2 ≤ 5 → BandRange.nIn ⟨1, 4, 1, 1⟩ 2 ≤ 5) ∧
    (wOuterEx.outerWindow = false →
      BandRange.nFixed ⟨1, 4, 1, 1⟩ = 2 ∧ BandRange.nIn ⟨1, 4, 1, 1⟩ 2 = 2)) :=
  ⟨rfl, by norm_num [bandRanges, outerScan, scan, scanFrom, wOuterEx, eigsEx],
    subspace_size_chain wOuterEx 5 2 eigsEx rfl ⟨1, 4, 1, 1⟩
      (by norm_num [bandRanges, outerScan, scan, scanFrom, wOuterEx, eigsEx])⟩

end BandRangeTheorems

/-! ## Matrix lemmas -/

section MatrixLemmas

variable {K : Type} [CommRing K] [StarRing K]

@[simp]
theorem zeroes_nRows (r c : Nat) : (zeroes r c : matrix K).nRows = r := rfl

@[simp]
theorem zeroes_nCols (r c : Nat) : (zeroes r c : matrix K).nCols = c := rfl

@[simp]
theorem zeroes_data (r c i j : Nat) : (zeroes r c : matrix K).data i j = 0 := rfl

@[simp]
theorem set_nRows (m x : matrix K) (a b c d : Nat) : (m.set a b c d x).nRows = m.nRows :=
  rfl

@[simp]
theorem set_nCols (m x : matrix K) (a b c d : Nat) : (m.set a b c d x).nCols = m.nCols :=
  rfl

@[simp]
theorem mul_nRows (a b : matrix K) : (a.mul b).nRows = a.nRows := rfl

@[simp]
theorem mul_nCols (a b : matrix K) : (a.mul b).nCols = b.nCols := rfl

@[simp]
theorem dagger_nRows (m : matrix K) : (dagger m).nRows = m.nCols := rfl

@[simp]
theorem dagger_nCols (m : matrix K) : (dagger m).nCols = m.nRows := rfl

@[simp]
theorem sub_nRows (m : matrix K) (a b c d : Nat) : (m.sub a b c d).nRows = b - a := rfl

@[simp]
theorem sub_nCols (m : matrix K) (a b c d : Nat) : (m.sub a b c d).nCols = d - c := rfl

theorem gram_data (m : matrix K) (i j : Nat) :
    ((dagger m).mul m).data i j = ∑ b in Finset.range m.nRows, star (m.data b i) * m.data b j :=
  rfl

theorem toMatrix_mul (a b : matrix K) (r c : Nat) :
    (a.mul b).toMatrix r c = a.toMatrix r a.nCols * b.toMatrix a.nCols c := by
  ext i j
  simp only [matrix.toMatrix, matrix.mul, Matrix.mul_apply]
  exact (Fin.sum_univ_eq_sum_range (fun k => a.data i.val k * b.data k j.val) a.nCols).symm

theorem toMatrix_dagger (a : matrix K) (r c : Nat) :
    (dagger a).toMatrix r c = (a.toMatrix c r).conjTranspose := by
  ext i j
  rfl

theorem toMatrix_mul_of_nCols (a b : matrix K) (r n c : Nat) (h : a.nCols = n) :
    (a.mul b).toMatrix r c = a.toMatrix r n * b.toMatrix n c := by
  subst h
  exact toMatrix_mul a b r c

/-- The Gram entries of `m` (with `r` rows) are those of the identity exactly when the
Gram matrix over `Fin` indices is `1`. -/
theorem gram_eq_one_iff (m : matrix K) (r c : Nat) (hr : m.nRows = r) :
    (∀ i j, i < c → j < c → ((dagger m).mul m).data i j = if i = j then 1 else 0) ↔
      (m.toMatrix r c).conjTranspose * m.toMatrix r c = 1 := by
  subst hr
  constructor
  · intro h
    ext i j
    have := h i.val j.val i.isLt j.isLt
    rw [gram_data] at this
    simp only [Matrix.mul_apply, Matrix.conjTranspose_apply, matrix.toMatrix, Matrix.one_apply,
      Fin.ext_iff]
    rw [← this]
    exact Fin.sum_univ_eq_sum_range (fun k => star (m.data k i.val) * m.data k j.val) m.nRows
  · intro h i j hi hj
    have := congrFun (congrFun h ⟨i, hi⟩) ⟨j, hj⟩
    simp only [Matrix.mul_apply, Matrix.conjTranspose_apply, matrix.toMatrix, Matrix.one_apply,
      Fin.ext_iff] at this
    rw [gram_data, ← this]
    exact (Fin.sum_univ_eq_sum_range (fun k => star (m.data k i) * m.data k j) m.nRows).symm

/-- A sum over `range n` of a summand supported on `[lo, hi)`, `hi ≤ n`. -/
theorem sum_range_interval (n lo hi : Nat) (hhi : hi ≤ n) (F : Nat → K) :
    (∑ b in Finset.range n, if lo ≤ b ∧ b < hi then F b else 0)
      = ∑ t in Finset.range (hi - lo), F (lo + t) := by
  rw [← Finset.sum_filter]
  have hf : (Finset.range n).filter (fun b => lo ≤ b ∧ b < hi) = Finset.Ico lo hi := by
    ext b
    simp only [Finset.mem_filter, Finset.mem_range, Finset.mem_Ico]
    omega
  rw [hf, Finset.sum_Ico_eq_sum_range]

/-- Entries of `Upad`: row `b` of the lower free block `[bStart, bFixedStart)` carries row
`b - bStart` of `U`, row `b` of the upper free block `[bFixedStop, bStop)` carries row
`nLo + (b - bFixedStop)`, every other row is zero. -/
theorem Upad_data (nBands : Nat) (r : BandRange) (U : matrix K) (b k : Nat)
    (h2 : r.bFixedStart ≤ r.bFixedStop)
    (hk : k < (r.bFixedStart - r.bStart) + (r.bStop - r.bFixedStop)) :
    (Upad nBands r U).data b k =
      (if r.bStart ≤ b ∧ b < r.bFixedStart then U.data (b - r.bStart) k else 0) +
      (if r.bFixedStop ≤ b ∧ b < r.bStop then
        U.data ((r.bFixedStart - r.bStart) + (b - r.bFixedStop)) k else 0) := by
  unfold Upad
  by_cases hlo : r.bFixedStart - r.bStart > 0 <;> by_cases hhi : r.bStop - r.bFixedStop > 0 <;>
    by_cases c1 : r.bStart ≤ b ∧ b < r.bFixedStart <;>
    by_cases c2 : r.bFixedStop ≤ b ∧ b < r.bStop <;>
    simp [matrix.set, matrix.sub, hlo, hhi, c1, c2, hk] <;> omega

@[simp]
theorem Upad_nRows (nBands : Nat) (r : BandRange) (U : matrix K) :
    (Upad nBands r U).nRows = nBands := by
  unfold Upad
  by_cases hlo : r.bFixedStart - r.bStart > 0 <;> by_cases hhi : r.bStop - r.bFixedStop > 0 <;>
    simp [hlo, hhi]

@[simp]
theorem Upad_nCols (nBands : Nat) (r : BandRange) (U : matrix K) :
    (Upad nBands r U).nCols = (r.bFixedStart - r.bStart) + (r.bStop - r.bFixedStop) := by
  unfold Upad
  by_cases hlo : r.bFixedStart - r.bStart > 0 <;> by_cases hhi : r.bStop - r.bFixedStop > 0 <;>
    simp [hlo, hhi]

/-- The columns of `Upad` inherit the Gram entries of `U`. -/
theorem Upad_gram (nBands : Nat) (r : BandRange) (U : matrix K)
    (h2 : r.bFixedStart ≤ r.bFixedStop) (h3 : r.bFixedStop ≤ r.bStop) (h4 : r.bStop ≤ nBands)
    (hU : U.nRows = (r.bFixedStart - r.bStart) + (r.bStop - r.bFixedStop))
    (k k' : Nat) (hk : k < (r.bFixedStart - r.bStart) + (r.bStop - r.bFixedStop))
    (hk' : k' < (r.bFixedStart - r.bStart) + (r.bStop - r.bFixedStop)) :
    ((dagger (Upad nBands r U)).mul (Upad nBands r U)).data k k'
      = ((dagger U).mul U).data k k' := by
  rw [gram_data, gram_data, Upad_nRows, hU, Finset.sum_range_add]
  have hpt : ∀ b, star ((Upad nBands r U).data b k) * (Upad nBands r U).data b k' =
      (if r.bStart ≤ b ∧ b < r.bFixedStart then
        star (U.data (b - r.bStart) k) * U.data (b - r.bStart) k' else 0) +
      (if r.bFixedStop ≤ b ∧ b < r.bStop then
        star (U.data ((r.bFixedStart - r.bStart) + (b - r.bFixedStop)) k) *
          U.data ((r.bFixedStart - r.bStart) + (b - r.bFixedStop)) k' else 0) := by
    intro b
    rw [Upad_data nBands r U b k h2 hk, Upad_data nBands r U b k' h2 hk']
    by_cases c1 : r.bStart ≤ b ∧ b < r.bFixedStart <;>
      by_cases c2 : r.bFixedStop ≤ b ∧ b < r.bStop <;> simp [c1, c2]
    omega
  simp only [hpt, Finset.sum_add_distrib]
  rw [sum_range_interval nBands r.bStart r.bFixedStart (by omega),
    sum_range_interval nBands r.bFixedStop r.bStop h4]
  congr 1
  · apply Finset.sum_congr rfl
    intro t _
    simp
  · apply Finset.sum_congr rfl
    intro t _
    simp

/-- The columns of `Upad * Vdag` are orthonormal when `U` and `Vdag` are unitary of size
`nOuter = nLo + nHi`. -/
theorem Upad_mul_Vdag_gram (nBands : Nat) (r : BandRange) (U Vdag : matrix K)
    (h2 : r.bFixedStart ≤ r.bFixedStop) (h3 : r.bFixedStop ≤ r.bStop) (h4 : r.bStop ≤ nBands)
    (hU : IsUnitary U ((r.bFixedStart - r.bStart) + (r.bStop - r.bFixedStop)))
    (hV : IsUnitary Vdag ((r.bFixedStart - r.bStart) + (r.bStop - r.bFixedStop)))
    (c c' : Nat) (hc : c < (r.bFixedStart - r.bStart) + (r.bStop - r.bFixedStop))
    (hc' : c' < (r.bFixedStart - r.bStart) + (r.bStop - r.bFixedStop)) :
    ((dagger ((Upad nBands r U).mul Vdag)).mul ((Upad nBands r U).mul Vdag)).data c c'
      = if c = c' then 1 else 0 := by
  obtain ⟨hUr, _, hUg, _⟩ := hU
  obtain ⟨hVr, _, hVg, _⟩ := hV
  have hP : ((Upad nBands r U).toMatrix nBands
      ((r.bFixedStart - r.bStart) + (r.bStop - r.bFixedStop))).conjTranspose *
      (Upad nBands r U).toMatrix nBands
        ((r.bFixedStart - r.bStart) + (r.bStop - r.bFixedStop)) = 1 := by
    rw [← gram_eq_one_iff _ _ _ (Upad_nRows nBands r U)]
    intro i j hi hj
    rw [Upad_gram nBands r U h2 h3 h4 hUr i j hi hj]
    exact hUg i j hi hj
  have hVm := (gram_eq_one_iff Vdag _ _ hVr).mp hVg
  have hPV := (gram_eq_one_iff ((Upad nBands r U).mul Vdag) nBands
    ((r.bFixedStart - r.bStart) + (r.bStop - r.bFixedStop))
    (by simp)).mpr
  apply hPV _ c c' hc hc'
  rw [toMatrix_mul_of_nCols _ _ _ _ _ (Upad_nCols nBands r U), Matrix.conjTranspose_mul,
    Matrix.mul_assoc, ← Matrix.mul_assoc _ _ (Vdag.toMatrix _ _), hP, Matrix.one_mul, hVm]

/-- Rows of `Upad * Vdag` outside the two free blocks are zero; in particular the frozen
rows `[bFixedStart, bFixedStop)`. -/
theorem Upad_mul_Vdag_frozen_row (nBands : Nat) (r : BandRange) (U Vdag : matrix K)
    (h2 : r.bFixedStart ≤ r.bFixedStop) (b c : Nat)
    (hb : ¬ (r.bStart ≤ b ∧ b < r.bFixedStart)) (hb' : ¬ (r.bFixedStop ≤ b ∧ b < r.bStop)) :
    ((Upad nBands r U).mul Vdag).data b c = 0 := by
  show ∑ k in Finset.range (Upad nBands r U).nCols, _ = 0
  apply Finset.sum_eq_zero
  intro k hk
  rw [Upad_nCols, Finset.mem_range] at hk
  rw [Upad_data nBands r U b k h2 hk]
  simp [hb, hb']

/-- Entries of the initial `U1`: columns `[nFixed, nIn)` carry `Upad * Vdag` when free
bands remain; otherwise the entry is that of the identity block of the frozen bands. -/
theorem initU1_data (svd : matrix K → SvdFactors K) (nBands nCenters : Nat) (r : BandRange)
    (CdagG : matrix K) (b j : Nat) :
    (initU1 svd nBands nCenters r CdagG).data b j =
      if r.nFree nCenters > 0 ∧ b < nBands ∧ r.nFixed ≤ j ∧ j < r.nIn nCenters then
        ((Upad nBands r (svd (CdagGFreeNZ svd nCenters r CdagG)).U).mul
          (svd (CdagGFreeNZ svd nCenters r CdagG)).Vdag).data b (j - r.nFixed)
      else if r.bFixedStart ≤ b ∧ b < r.bFixedStop ∧ j < r.nFixed ∧ b - r.bFixedStart = j
        then 1 else 0 := by
  unfold initU1
  by_cases hfree : r.nFree nCenters > 0 <;> by_cases hfix : r.nFixed > 0 <;>
    by_cases c1 : (b < nBands ∧ r.nFixed ≤ j ∧ j < r.nIn nCenters) <;>
    by_cases c2 : (r.bFixedStart ≤ b ∧ b < r.bFixedStop ∧ j < r.nFixed ∧ b - r.bFixedStart = j) <;>
    simp [matrix.set, eye, hfree, hfix, c1, c2] <;> omega

@[simp]
theorem initU1_nRows (svd : matrix K → SvdFactors K) (nBands nCenters : Nat)
    (r : BandRange) (CdagG : matrix K) :
    (initU1 svd nBands nCenters r CdagG).nRows = nBands := by
  unfold initU1
  by_cases hfree : r.nFree nCenters > 0 <;> by_cases hfix : r.nFixed > 0 <;> simp [hfree, hfix]

@[simp]
theorem initU1_nCols (svd : matrix K → SvdFactors K) (nBands nCenters : Nat)
    (r : BandRange) (CdagG : matrix K) :
    (initU1 svd nBands nCenters r CdagG).nCols = r.nIn nCenters := by
  unfold initU1
  by_cases hfree : r.nFree nCenters > 0 <;> by_cases hfix : r.nFixed > 0 <;> simp [hfree, hfix]

@[simp]
theorem CdagGFreeNZ_nRows (svd : matrix K → SvdFactors K) (nCenters : Nat)
    (r : BandRange) (CdagG : matrix K) :
    (CdagGFreeNZ svd nCenters r CdagG).nRows
      = (r.bFixedStart - r.bStart) + (r.bStop - r.bFixedStop) := by
  unfold CdagGFreeNZ
  by_cases hlo : r.bFixedStart - r.bStart > 0 <;> by_cases hhi : r.bStop - r.bFixedStop > 0 <;>
    simp [hlo, hhi]

@[simp]
theorem CdagGFreeNZ_nCols (svd : matrix K → SvdFactors K) (nCenters : Nat)
    (r : BandRange) (CdagG : matrix K) :
    (CdagGFreeNZ svd nCenters r CdagG).nCols
      = (r.bFixedStart - r.bStart) + (r.bStop - r.bFixedStop) := by
  unfold CdagGFreeNZ
  by_cases hlo : r.bFixedStart - r.bStart > 0 <;> by_cases hhi : r.bStop - r.bFixedStop > 0 <;>
    simp [hlo, hhi]

/-- Summing against column `i` of the frozen identity block picks out row
`bFixedStart + i`. -/
theorem sum_frozen_column (nBands : Nat) (r : BandRange) (i : Nat) (hi : i < r.nFixed)
    (hfe : r.bFixedStop ≤ nBands) (F : Nat → K) :
    (∑ b in Finset.range nBands,
      (if r.bFixedStart ≤ b ∧ b < r.bFixedStop ∧ i < r.nFixed ∧ b - r.bFixedStart = i
        then (1 : K) else 0) * F b) = F (r.bFixedStart + i) := by
  unfold BandRange.nFixed at hi
  rw [Finset.sum_eq_single (r.bFixedStart + i)]
  · have hc : r.bFixedStart ≤ r.bFixedStart + i ∧ r.bFixedStart + i < r.bFixedStop ∧
        i < r.nFixed ∧ r.bFixedStart + i - r.bFixedStart = i := by
      unfold BandRange.nFixed; omega
    simp [hc]
  · intro b _ hne
    have hc : ¬ (r.bFixedStart ≤ b ∧ b < r.bFixedStop ∧ i < r.nFixed ∧
        b - r.bFixedStart = i) := by omega
    simp [hc]
  · intro hnot
    exact absurd (Finset.mem_range.mpr (by omega)) hnot

/-- Orthonormality of the initial `U1` from the index facts of the band ranges: ordered
indices within `nBands`, `nFixed ≤ nCenters ≤ bStop - bStart`, and unitary SVD factors. -/
theorem initU1_orthonormal_of_ordered (svd : matrix K → SvdFactors K) (nBands nCenters : Nat)
    (r : BandRange) (CdagG : matrix K)
    (h1 : r.bStart ≤ r.bFixedStart) (h2 : r.bFixedStart ≤ r.bFixedStop)
    (h3 : r.bFixedStop ≤ r.bStop) (h4 : r.bStop ≤ nBands)
    (h5 : r.nFixed ≤ nCenters) (h6 : nCenters ≤ r.bStop - r.bStart)
    (hsvd : ∀ m : matrix K, IsUnitary (svd m).U m.nRows ∧ IsUnitary (svd m).Vdag m.nCols) :
    HasOrthonormalColumns (initU1 svd nBands nCenters r CdagG) := by
  intro i j hi hj
  rw [initU1_nCols] at hi hj
  rw [gram_data, initU1_nRows]
  have hUV := hsvd (CdagGFreeNZ svd nCenters r CdagG)
  rw [CdagGFreeNZ_nRows, CdagGFreeNZ_nCols] at hUV
  obtain ⟨hU, hV⟩ := hUV
  have hzero : ∀ t c, t < r.nFixed →
      ((Upad nBands r (svd (CdagGFreeNZ svd nCenters r CdagG)).U).mul
        (svd (CdagGFreeNZ svd nCenters r CdagG)).Vdag).data (r.bFixedStart + t) c = 0 := by
    intro t c ht
    unfold BandRange.nFixed at ht
    exact Upad_mul_Vdag_frozen_row nBands r _ _ h2 _ c (by omega) (by omega)
  by_cases hfree : r.nFree nCenters > 0
  · have hnIn : r.nIn nCenters = r.bStop - r.bStart := by simp [BandRange.nIn, hfree]
    rw [hnIn] at hi hj
    by_cases hif : i < r.nFixed
    · -- column `i` is a frozen band
      have hci : ¬ (r.nFixed ≤ i) := by omega
      simp only [initU1_data, hci, false_and, and_false, if_false]
      simp only [apply_ite star, star_one, star_zero]
      rw [sum_frozen_column nBands r i hif (by omega)]
      by_cases hjf : j < r.nFixed
      · have hcj : ¬ (r.nFixed ≤ j) := by omega
        have e1 : r.bFixedStart + i - r.bFixedStart = i := by omega
        have e2 : r.bFixedStart + i < r.bFixedStop := by
          unfold BandRange.nFixed at hif; omega
        simp only [hcj, false_and, and_false, if_false, e1, e2, hjf, true_and,
          Nat.le_add_right]
      · have hcj : (r.nFree nCenters > 0 ∧ r.bFixedStart + i < nBands ∧ r.nFixed ≤ j ∧
            j < r.nIn nCenters) := by
          refine ⟨hfree, ?_, by omega, by omega⟩
          unfold BandRange.nFixed at hif; omega
        have hne : ¬ (i = j) := by omega
        simp only [hcj, and_self, if_true, hne, if_false]
        exact hzero i _ hif
    · by_cases hjf : j < r.nFixed
      · -- column `j` is a frozen band, column `i` is not
        have hcj : ¬ (r.nFixed ≤ j) := by omega
        simp only [initU1_data, hcj, false_and, and_false, if_false]
        have hcomm : ∀ b, star ((initU1 svd nBands nCenters r CdagG).data b i) *
            (if r.bFixedStart ≤ b ∧ b < r.bFixedStop ∧ j < r.nFixed ∧ b - r.bFixedStart = j
              then (1 : K) else 0) =
            (if r.bFixedStart ≤ b ∧ b < r.bFixedStop ∧ j < r.nFixed ∧ b - r.bFixedStart = j
              then (1 : K) else 0) * star ((initU1 svd nBands nCenters r CdagG).data b i) :=
          fun b => mul_comm _ _
        simp only [← initU1_data]
        simp only [hcomm]
        rw [sum_frozen_column nBands r j hjf (by omega)
          (fun b => star ((initU1 svd nBands nCenters r CdagG).data b i))]
        have hci : (r.nFree nCenters > 0 ∧ r.bFixedStart + j < nBands ∧ r.nFixed ≤ i ∧
            i < r.nIn nCenters) := by
          refine ⟨hfree, ?_, by omega, by omega⟩
          unfold BandRange.nFixed at hjf; omega
        have hne : ¬ (i = j) := by omega
        simp only [initU1_data, hci, and_self, if_true, hne, if_false]
        rw [hzero j _ hjf, star_zero]
      · -- both columns come from `Upad * Vdag`
        have hgram := Upad_mul_Vdag_gram nBands r _ _ h2 h3 h4 hU hV
          (i - r.nFixed) (j - r.nFixed)
          (by unfold BandRange.nFixed at *; omega) (by unfold BandRange.nFixed at *; omega)
        rw [gram_data] at hgram
        simp only [mul_nRows, Upad_nRows] at hgram
        have hsum : ∀ b ∈ Finset.range nBands,
            star ((initU1 svd nBands nCenters r CdagG).data b i) *
              (initU1 svd nBands nCenters r CdagG).data b j =
            star (((Upad nBands r (svd (CdagGFreeNZ svd nCenters r CdagG)).U).mul
              (svd (CdagGFreeNZ svd nCenters r CdagG)).Vdag).data b (i - r.nFixed)) *
            ((Upad nBands r (svd (CdagGFreeNZ svd nCenters r CdagG)).U).mul
              (svd (CdagGFreeNZ svd nCenters r CdagG)).Vdag).data b (j - r.nFixed) := by
          intro b hb
          rw [Finset.mem_range] at hb
          have ci : (r.nFree nCenters > 0 ∧ b < nBands ∧ r.nFixed ≤ i ∧ i < r.nIn nCenters) :=
            ⟨hfree, hb, by omega, by omega⟩
          have cj : (r.nFree nCenters > 0 ∧ b < nBands ∧ r.nFixed ≤ j ∧ j < r.nIn nCenters) :=
            ⟨hfree, hb, by omega, by omega⟩
          rw [initU1_data, initU1_data, if_pos ci, if_pos cj]
        rw [Finset.sum_congr rfl hsum, hgram]
        by_cases hij : i = j
        · simp [hij]
        · have : ¬ (i - r.nFixed = j - r.nFixed) := by omega
          simp [hij, this]
  · -- no free bands: `nIn = nCenters = nFixed`
    have hnIn : r.nIn nCenters = nCenters := by simp [BandRange.nIn, hfree]
    rw [hnIn] at hi hj
    have hfix : r.nFixed = nCenters := by
      unfold BandRange.nFree at hfree; omega
    have hif : i < r.nFixed := by omega
    have hjf : j < r.nFixed := by omega
    simp only [initU1_data, hfree, false_and, if_false]
    simp only [apply_ite star, star_one, star_zero]
    rw [sum_frozen_column nBands r i hif (by omega)]
    have e1 : r.bFixedStart + i - r.bFixedStart = i := by omega
    have e2 : r.bFixedStart + i < r.bFixedStop := by
      unfold BandRange.nFixed at hif; omega
    simp only [e1, e2, hjf, true_and, Nat.le_add_right]

/-- The identity is unitary. -/
theorem eye_isUnitary (n : Nat) : IsUnitary (eye n : matrix K) n := by
  refine ⟨rfl, rfl, ?_, ?_⟩
  · intro i j hi _
    show (∑ k in Finset.range n, star (if k = i then (1 : K) else 0) * (if k = j then 1 else 0))
      = _
    rw [Finset.sum_eq_single i]
    · by_cases hij : i = j <;> simp [hij]
    · intro b _ hb; simp [hb]
    · intro h; exact absurd (Finset.mem_range.mpr hi) h
  · intro i j hi _
    show (∑ k in Finset.range n, (if i = k then (1 : K) else 0) * star (if j = k then 1 else 0))
      = _
    rw [Finset.sum_eq_single i]
    · by_cases hij : i = j
      · simp [hij]
      · have : ¬ (j = i) := fun h => hij h.symm
        simp [hij, this]
    · intro b _ hb
      have : ¬ (i = b) := fun h => hb h.symm
      simp [this]
    · intro h; exact absurd (Finset.mem_range.mpr hi) h

/-- The stand-in `svdEye` returns unitary factors of the right sizes. -/
theorem svdEye_isUnitary (m : matrix K) :
    IsUnitary (svdEye m).U m.nRows ∧ IsUnitary (svdEye m).Vdag m.nCols :=
  ⟨eye_isUnitary _, eye_isUnitary _⟩

/-- C5. Orthonormality of the initial `U1`: at a mesh point where the selection returns
normally (with `nBands` eigenvalues), if every SVD call returns unitary factors and, in the
no-window case, `wannier.bStart + nCenters ≤ nBands`, then `U1` has shape `nBands × nIn`
and `dagger(U1) * U1` is the `nIn × nIn` identity. -/
theorem initial_U1_orthonormal {α : Type} [LinearOrder α] (w : Wannier α)
    (svd : matrix K → SvdFactors K) (invsqrt : matrix K → matrix K)
    (nBands nCenters : Nat) (eigs : List α) (CdagG : matrix K)
    (hlen : eigs.length = nBands)
    (hfit : w.outerWindow = false → w.bStart + nCenters ≤ nBands)
    (hsvd : ∀ m : matrix K, IsUnitary (svd m).U m.nRows ∧ IsUnitary (svd m).Vdag m.nCols)
    (ke : KmeshEntry K)
    (hke : initKmeshEntry w svd invsqrt nBands nCenters eigs CdagG = .ok ke) :
    ke.U1.nRows = nBands ∧ ke.U1.nCols = ke.nIn ∧ HasOrthonormalColumns ke.U1 := by
  unfold initKmeshEntry at hke
  cases hr : bandRanges w nBands nCenters eigs with
  | error a => simp [hr] at hke
  | ok r =>
    simp only [hr] at hke
    cases hke
    have hord := bandRanges_ordered w nBands nCenters eigs hlen r hr
    have hsize := subspace_size_bounds w nBands nCenters eigs hlen r hr
    have hstop : r.bStop ≤ nBands := by
      by_cases hw : w.outerWindow = true
      · exact hord.2.2.2 hw
      · have hw' : w.outerWindow = false := by simpa using hw
        have := hfit hw'
        unfold bandRanges at hr
        simp only [hw'] at hr
        cases hr
        exact this
    refine ⟨by simp [initRotations], by simp [initRotations], ?_⟩
    exact initU1_orthonormal_of_ordered svd nBands nCenters r CdagG hord.1 hord.2.1 hord.2.2.1
      hstop hsize.1 hsize.2 hsvd

/-- C5 at `eigs = [-1, 0, 0.5, 1.2, 2.0]`, outer window `[-0.5, 1.5]`, inner window
`[-0.1, 0.1]`, `nCenters = 3`: one frozen and two free bands. -/
theorem initial_U1_orthonormal_witness :
    eigsEx.length = 5 ∧ (wInnerEx.outerWindow = false → wInnerEx.bStart + 3 ≤ 5) ∧
    (∀ m : matrix ℚ, IsUnitary (svdEye m).U m.nRows ∧ IsUnitary (svdEye m).Vdag m.nCols) ∧
    initKmeshEntry wInnerEx svdEye id 5 3 eigsEx cdagEx
      = .ok (initRotations svdEye id 5 3 ⟨1, 4, 1, 2⟩ cdagEx) ∧
    (initRotations svdEye id 5 3 ⟨1, 4, 1, 2⟩ cdagEx).U1.nRows = 5 ∧
    (initRotations svdEye id 5 3 ⟨1, 4, 1, 2⟩ cdagEx).U1.nCols
      = (initRotations svdEye id 5 3 ⟨1, 4, 1, 2⟩ cdagEx).nIn ∧
    HasOrthonormalColumns (initRotations svdEye id 5 3 ⟨1, 4, 1, 2⟩ cdagEx).U1 :=
  have hke : initKmeshEntry wInnerEx svdEye id 5 3 eigsEx cdagEx
      = .ok (initRotations svdEye id 5 3 ⟨1, 4, 1, 2⟩ cdagEx) := by
    norm_num [initKmeshEntry, bandRanges, outerScan, innerScan, scan, scanFrom, wInnerEx, eigsEx]
  ⟨rfl, by decide, svdEye_isUnitary, hke,
    initial_U1_orthonormal wInnerEx svdEye id 5 3 eigsEx cdagEx rfl (by decide)
      svdEye_isUnitary _ hke⟩

/-- A matrix of shape `n × n` is unitary when both products of its `Fin`-indexed form with
its conjugate transpose are `1`. -/
theorem isUnitary_of_toMatrix (m : matrix K) (n : Nat) (hr : m.nRows = n) (hc : m.nCols = n)
    (h1 : (m.toMatrix n n).conjTranspose * m.toMatrix n n = 1)
    (h2 : m.toMatrix n n * (m.toMatrix n n).conjTranspose = 1) : IsUnitary m n := by
  refine ⟨hr, hc, (gram_eq_one_iff m n n hr).mpr h1, ?_⟩
  intro i j hi hj
  have e : (m.mul (dagger m)).toMatrix n n = m.toMatrix n n * (m.toMatrix n n).conjTranspose := by
    rw [toMatrix_mul_of_nCols m (dagger m) n n n hc, toMatrix_dagger]
  have := congrFun (congrFun (e.trans h2) ⟨i, hi⟩) ⟨j, hj⟩
  simpa [matrix.toMatrix, Matrix.one_apply, Fin.ext_iff] using this

/-- C10 as stated fails: with `eigs = [-1, 0, 0.5, 1.2, 2.0]`, outer window `[-0.5, 1.5]`,
no inner window, `nCenters = 2` and a `5 × 2` trial overlap, `nIn = 3` and `U1` is `5 × 3`,
but `U2` is `2 × 2`, not `nIn × nCenters`; the product `U1 * U2` is not well-formed. -/
theorem rotation_shapes_fail :
    ∃ ke, initKmeshEntry wOuterEx svdEye id 5 2 eigsEx cdagEx2 = .ok ke ∧
      ke.nIn = 3 ∧ ke.U1.nRows = 5 ∧ ke.U1.nCols = 3 ∧ ke.U2.nRows = 2 ∧ ke.U2.nCols = 2 ∧
      ¬ (ke.U2.nRows = ke.nIn) ∧ ¬ (ke.U1.nCols = ke.U2.nRows) ∧
      (receiveRotations 5 2 ke).U2.nRows = 2 :=
  ⟨initRotations svdEye id 5 2 ⟨1, 4, 1, 1⟩ cdagEx2,
    by norm_num [initKmeshEntry, bandRanges, outerScan, scan, scanFrom, wOuterEx, eigsEx],
    by decide, by simp [initRotations], by simp [initRotations]; decide,
    by simp [initRotations, initU2, WdagG],
    by simp [initRotations, initU2, WdagG, cdagEx2],
    by simp [initRotations, initU2, WdagG]; decide,
    by simp [initRotations, initU2, WdagG]; decide,
    by simp [receiveRotations]⟩

/-- C10, amended. After the initialisation of a mesh point that returns normally (with
`nBands` eigenvalues, a trial overlap of `nCenters` columns and a shape-preserving
`invsqrt`), on the owner and on every worker that receives the broadcast: `U1` has shape
`nBands × nIn`, `U2` has shape `nCenters × nCenters`, and `nCenters ≤ nIn`, so that the
product `U1(0,nBands, 0,nCenters) * U2` is well-formed of shape `nBands × nCenters`; the
inner dimensions of `U1 * U2` agree exactly when `nIn = nCenters`. -/
theorem rotation_shapes {α : Type} [LinearOrder α] (w : Wannier α)
    (svd : matrix K → SvdFactors K) (invsqrt : matrix K → matrix K)
    (nBands nCenters : Nat) (eigs : List α) (CdagG : matrix K)
    (hlen : eigs.length = nBands) (hC : CdagG.nCols = nCenters)
    (hshape : ∀ m : matrix K, (invsqrt m).nRows = m.nRows ∧ (invsqrt m).nCols = m.nCols)
    (ke : KmeshEntry K)
    (hke : initKmeshEntry w svd invsqrt nBands nCenters eigs CdagG = .ok ke) :
    (ke.U1.nRows = nBands ∧ ke.U1.nCols = ke.nIn ∧
      ke.U2.nRows = nCenters ∧ ke.U2.nCols = nCenters) ∧
    ((receiveRotations nBands nCenters ke).U1.nRows = nBands ∧
      (receiveRotations nBands nCenters ke).U1.nCols = ke.nIn ∧
      (receiveRotations nBands nCenters ke).nIn = ke.nIn ∧
      (receiveRotations nBands nCenters ke).U2.nRows = nCenters ∧
      (receiveRotations nBands nCenters ke).U2.nCols = nCenters) ∧
    nCenters ≤ ke.nIn ∧
    (ke.U1.sub 0 nBands 0 nCenters).nCols = ke.U2.nRows ∧
    ((ke.U1.sub 0 nBands 0 nCenters).mul ke.U2).nRows = nBands ∧
    ((ke.U1.sub 0 nBands 0 nCenters).mul ke.U2).nCols = nCenters ∧
    (ke.U1.nCols = ke.U2.nRows ↔ ke.nIn = nCenters) := by
  unfold initKmeshEntry at hke
  cases hr : bandRanges w nBands nCenters eigs with
  | error a => simp [hr] at hke
  | ok r =>
    simp only [hr] at hke
    cases hke
    have hsize := subspace_size_bounds w nBands nCenters eigs hlen r hr
    have hge : nCenters ≤ r.nIn nCenters := by
      unfold BandRange.nIn
      split
      · exact hsize.2
      · exact le_refl _
    have hU2r : (initU2 invsqrt nBands nCenters (initU1 svd nBands nCenters r CdagG)
        CdagG).nRows = nCenters := by simp [initU2, WdagG]
    have hU2c : (initU2 invsqrt nBands nCenters (initU1 svd nBands nCenters r CdagG)
        CdagG).nCols = nCenters := by simp [initU2, WdagG, (hshape _).2, hC]
    refine ⟨⟨by simp [initRotations], by simp [initRotations], hU2r, hU2c⟩,
      ⟨rfl, rfl, rfl, rfl, rfl⟩, hge, ?_, ?_, ?_, ?_⟩
    · simp [initRotations, hU2r]
    · simp
    · simp [initRotations, hU2c]
    · simp only [initRotations, initU1_nCols, hU2r]

/-- C10 (amended) at `eigs = [-1, 0, 0.5, 1.2, 2.0]`, outer window `[-0.5, 1.5]`,
`nCenters = 2`: `U1` is `5 × 3`, `U2` is `2 × 2`. -/
theorem rotation_shapes_witness :
    eigsEx.length = 5 ∧ cdagEx2.nCols = 2 ∧
    (∀ m : matrix ℚ, (id m).nRows = m.nRows ∧ (id m).nCols = m.nCols) ∧
    initKmeshEntry wOuterEx svdEye id 5 2 eigsEx cdagEx2
      = .ok (initRotations svdEye id 5 2 ⟨1, 4, 1, 1⟩ cdagEx2) ∧
    (initRotations svdEye id 5 2 ⟨1, 4, 1, 1⟩ cdagEx2).U1.nCols
      = (initRotations svdEye id 5 2 ⟨1, 4, 1, 1⟩ cdagEx2).nIn ∧
    (initRotations svdEye id 5 2 ⟨1, 4, 1, 1⟩ cdagEx2).U2.nRows = 2 ∧
    (initRotations svdEye id 5 2 ⟨1, 4, 1, 1⟩ cdagEx2).U2.nCols = 2 ∧
    2 ≤ (initRotations svdEye id 5 2 ⟨1, 4, 1, 1⟩ cdagEx2).nIn :=
  have hke : initKmeshEntry wOuterEx svdEye id 5 2 eigsEx cdagEx2
      = .ok (initRotations svdEye id 5 2 ⟨1, 4, 1, 1⟩ cdagEx2) := by
    norm_num [initKmeshEntry, bandRanges, outerScan, scan, scanFrom, wOuterEx, eigsEx]
  have h := rotation_shapes wOuterEx svdEye id 5 2 eigsEx cdagEx2 rfl rfl
    (fun _ => ⟨rfl, rfl⟩) _ hke
  ⟨rfl, rfl, fun _ => ⟨rfl, rfl⟩, hke, h.1.2.1, h.1.2.2.1, h.1.2.2.2, h.2.2.1⟩

end MatrixLemmas

section Whitening

variable {K : Type} [RCLike K]

open scoped ComplexOrder

/-- The Gram matrix of a nonsingular square matrix is positive definite. -/
theorem posDef_gram_of_isUnit_det {n : Nat} (W : Matrix (Fin n) (Fin n) K)
    (hW : IsUnit W.det) : (W.conjTranspose * W).PosDef := by
  refine ⟨Matrix.isHermitian_transpose_mul_self _, fun x hx => ?_⟩
  rw [← Matrix.mulVec_mulVec, Matrix.dotProduct_mulVec, Matrix.vecMul_conjTranspose, star_star]
  apply Matrix.dotProduct_star_self_pos_iff.mpr
  intro h0
  have hinj : Function.Injective W.mulVec :=
    Matrix.mulVec_injective_iff_isUnit.mpr ((Matrix.isUnit_iff_isUnit_det W).mpr hW)
  apply hx
  apply hinj
  rw [h0, Matrix.mulVec_zero]

/-- C6. Unitarity of the initial `U2`: at a mesh point with band ranges `r` and trial
overlap `CdagG` of `nCenters` columns, let `WdagG = dagger(U1(0,nBands, 0,nCenters)) * CdagG`
for the initial `U1`.  If `WdagG` is nonsingular and `invsqrt` returns, for the (then
positive-definite) Gram matrix `G = dagger(WdagG) * WdagG`, a Hermitian `nCenters × nCenters`
matrix `S` with `S * S * G = 1`, then `U2 = WdagG * invsqrt(G)` is `nCenters × nCenters`
with `dagger(U2) * U2 = 1` and `U2 * dagger(U2) = 1`. -/
theorem initial_U2_unitary (svd : matrix K → SvdFactors K) (invsqrt : matrix K → matrix K)
    (nBands nCenters : Nat) (r : BandRange) (CdagG : matrix K)
    (hC : CdagG.nCols = nCenters)
    (hW : IsUnit ((WdagG nBands nCenters (initU1 svd nBands nCenters r CdagG) CdagG).toMatrix
      nCenters nCenters).det)
    (hinv : (((dagger (WdagG nBands nCenters (initU1 svd nBands nCenters r CdagG) CdagG)).mul
        (WdagG nBands nCenters (initU1 svd nBands nCenters r CdagG) CdagG)).toMatrix
          nCenters nCenters).PosDef →
      (invsqrt ((dagger (WdagG nBands nCenters (initU1 svd nBands nCenters r CdagG) CdagG)).mul
        (WdagG nBands nCenters (initU1 svd nBands nCenters r CdagG) CdagG))).nRows = nCenters ∧
      (invsqrt ((dagger (WdagG nBands nCenters (initU1 svd nBands nCenters r CdagG) CdagG)).mul
        (WdagG nBands nCenters (initU1 svd nBands nCenters r CdagG) CdagG))).nCols = nCenters ∧
      ((invsqrt ((dagger (WdagG nBands nCenters (initU1 svd nBands nCenters r CdagG) CdagG)).mul
        (WdagG nBands nCenters (initU1 svd nBands nCenters r CdagG) CdagG))).toMatrix
          nCenters nCenters).IsHermitian ∧
      (invsqrt ((dagger (WdagG nBands nCenters (initU1 svd nBands nCenters r CdagG) CdagG)).mul
        (WdagG nBands nCenters (initU1 svd nBands nCenters r CdagG) CdagG))).toMatrix
          nCenters nCenters *
        (invsqrt ((dagger (WdagG nBands nCenters (initU1 svd nBands nCenters r CdagG) CdagG)).mul
          (WdagG nBands nCenters (initU1 svd nBands nCenters r CdagG) CdagG))).toMatrix
            nCenters nCenters *
        ((dagger (WdagG nBands nCenters (initU1 svd nBands nCenters r CdagG) CdagG)).mul
          (WdagG nBands nCenters (initU1 svd nBands nCenters r CdagG) CdagG)).toMatrix
            nCenters nCenters = 1) :
    IsUnitary (initRotations svd invsqrt nBands nCenters r CdagG).U2 nCenters := by
  show IsUnitary ((WdagG nBands nCenters (initU1 svd nBands nCenters r CdagG) CdagG).mul
    (invsqrt ((dagger (WdagG nBands nCenters (initU1 svd nBands nCenters r CdagG) CdagG)).mul
      (WdagG nBands nCenters (initU1 svd nBands nCenters r CdagG) CdagG)))) nCenters
  generalize hWdef : WdagG nBands nCenters (initU1 svd nBands nCenters r CdagG) CdagG = W
    at hW hinv ⊢
  have hWr : W.nRows = nCenters := by rw [← hWdef]; simp [WdagG]
  have hWc : W.nCols = nCenters := by rw [← hWdef]; simp [WdagG, hC]
  have hG : ((dagger W).mul W).toMatrix nCenters nCenters
      = (W.toMatrix nCenters nCenters).conjTranspose * W.toMatrix nCenters nCenters := by
    rw [toMatrix_mul_of_nCols (dagger W) W nCenters nCenters nCenters (by simp [hWr]),
      toMatrix_dagger]
  obtain ⟨hSr, hSc, hSh, hSS⟩ := hinv (by rw [hG]; exact posDef_gram_of_isUnit_det _ hW)
  generalize invsqrt ((dagger W).mul W) = S at hSr hSc hSh hSS ⊢
  have hU2 : (W.mul S).toMatrix nCenters nCenters
      = W.toMatrix nCenters nCenters * S.toMatrix nCenters nCenters :=
    toMatrix_mul_of_nCols W S nCenters nCenters nCenters hWc
  have hone : (S.toMatrix nCenters nCenters * ((dagger W).mul W).toMatrix nCenters nCenters)
      * S.toMatrix nCenters nCenters = 1 := by
    rw [Matrix.mul_assoc] at hSS
    exact Matrix.mul_eq_one_comm.mp hSS
  have h1 : ((W.mul S).toMatrix nCenters nCenters).conjTranspose
      * (W.mul S).toMatrix nCenters nCenters = 1 := by
    rw [hU2, Matrix.conjTranspose_mul, hSh.eq, Matrix.mul_assoc,
      ← Matrix.mul_assoc _ (W.toMatrix nCenters nCenters) _, ← hG, ← Matrix.mul_assoc]
    exact hone
  exact isUnitary_of_toMatrix _ nCenters (by simp [hWr]) (by simp [hSc]) h1
    (Matrix.mul_eq_one_comm.mp h1)

/-- In the two-band example with `nCenters = 1` and no windows, `WdagG` is the `1 × 1`
matrix `(i)`. -/
theorem WdagG_example :
    (WdagG 2 1 (initU1 svdEye 2 1 ⟨0, 1, 0, 1⟩ cdagCEx) cdagCEx).toMatrix 1 1
      = fun _ _ => Complex.I := by
  ext i j
  fin_cases i
  fin_cases j
  simp [WdagG, matrix.toMatrix, matrix.mul, dagger, matrix.sub, initU1, cdagCEx,
    BandRange.nFixed, BandRange.nFree, BandRange.nIn, matrix.set, eye, zeroes,
    Finset.sum_range_succ]

/-- In the two-band example the Gram matrix of `WdagG` is the `1 × 1` identity. -/
theorem gram_example :
    ((dagger (WdagG 2 1 (initU1 svdEye 2 1 ⟨0, 1, 0, 1⟩ cdagCEx) cdagCEx)).mul
      (WdagG 2 1 (initU1 svdEye 2 1 ⟨0, 1, 0, 1⟩ cdagCEx) cdagCEx)).toMatrix 1 1 = 1 := by
  ext i j
  fin_cases i
  fin_cases j
  simp [WdagG, matrix.toMatrix, matrix.mul, dagger, matrix.sub, initU1, cdagCEx,
    BandRange.nFixed, BandRange.nFree, BandRange.nIn, matrix.set, eye, zeroes,
    Finset.sum_range_succ]

/-- C6 in a two-band system with `nCenters = 1` and no windows (band range `[0, 1)`), with
trial overlap `(i, 5)`: `WdagG = (i)` is nonsingular and `U2` is the `1 × 1` unitary `(i)`,
a scalar of modulus 1. -/
theorem initial_U2_unitary_witness :
    bandRanges wFixedEx 2 1 ([0, 1] : List ℚ) = .ok ⟨0, 1, 0, 1⟩ ∧
    cdagCEx.nCols = 1 ∧
    IsUnit ((WdagG 2 1 (initU1 svdEye 2 1 ⟨0, 1, 0, 1⟩ cdagCEx) cdagCEx).toMatrix 1 1).det ∧
    IsUnitary (initRotations svdEye invsqrtEx 2 1 ⟨0, 1, 0, 1⟩ cdagCEx).U2 1 ∧
    (initRotations svdEye invsqrtEx 2 1 ⟨0, 1, 0, 1⟩ cdagCEx).U2.data 0 0 = Complex.I ∧
    Complex.abs ((initRotations svdEye invsqrtEx 2 1 ⟨0, 1, 0, 1⟩ cdagCEx).U2.data 0 0) = 1 :=
  have hdet : IsUnit ((WdagG 2 1 (initU1 svdEye 2 1 ⟨0, 1, 0, 1⟩ cdagCEx) cdagCEx).toMatrix
      1 1).det := by
    rw [WdagG_example, Matrix.det_fin_one]
    exact isUnit_iff_ne_zero.mpr Complex.I_ne_zero
  have hentry : (initRotations svdEye invsqrtEx 2 1 ⟨0, 1, 0, 1⟩ cdagCEx).U2.data 0 0
      = Complex.I := by
    simp [initRotations, initU2, invsqrtEx, WdagG, matrix.mul, dagger, matrix.sub, initU1,
      cdagCEx, BandRange.nFixed, BandRange.nFree, BandRange.nIn, matrix.set, eye, zeroes,
      Finset.sum_range_succ]
  ⟨by simp [bandRanges, wFixedEx], rfl, hdet,
    initial_U2_unitary svdEye invsqrtEx 2 1 ⟨0, 1, 0, 1⟩ cdagCEx rfl hdet
      (fun _ => ⟨rfl, rfl, by
        ext i j
        simp [Matrix.conjTranspose_apply, matrix.toMatrix, invsqrtEx], by
        rw [gram_example]
        ext i j
        fin_cases i
        fin_cases j
        simp [matrix.toMatrix, invsqrtEx, Matrix.mul_apply]⟩),
    hentry, by rw [hentry]; exact Complex.abs_I⟩

end Whitening

/-! ## Overlap pass theorems -/

namespace Overlap

section PassLemmas

variable {P C M : Type}

@[simp]
theorem updateEdge_ik (env : Collaborators P C M) (iProcess jProcess : Nat)
    (kMesh : List (KmeshEntry P M)) (ik : Nat) (Ci : C) (edge : EdgeFD P M) :
    (updateEdge env iProcess jProcess kMesh ik Ci edge).ik = edge.ik := by
  unfold updateEdge
  split
  · split <;> rfl
  · rfl

@[simp]
theorem updateEdge_point (env : Collaborators P C M) (iProcess jProcess : Nat)
    (kMesh : List (KmeshEntry P M)) (ik : Nat) (Ci : C) (edge : EdgeFD P M) :
    (updateEdge env iProcess jProcess kMesh ik Ci edge).point = edge.point := by
  unfold updateEdge
  split
  · split <;> rfl
  · rfl

/-- An edge whose neighbour is owned by the broadcasting process gets the assigned value. -/
theorem updateEdge_M0 (env : Collaborators P C M) (iProcess jProcess : Nat)
    (kMesh : List (KmeshEntry P M)) (ik : Nat) (Ci : C) (edge : EdgeFD P M)
    (h : env.whose_q edge.ik = jProcess) :
    (updateEdge env iProcess jProcess kMesh ik Ci edge).M0
      = assignedM0 env iProcess kMesh ik Ci edge := by
  unfold updateEdge assignedM0
  simp only [h, if_true]
  split <;> rename_i heq <;> simp only [heq]

/-- An edge whose neighbour is owned by another process is left alone in this round. -/
theorem updateEdge_of_ne (env : Collaborators P C M) (iProcess jProcess : Nat)
    (kMesh : List (KmeshEntry P M)) (ik : Nat) (Ci : C) (edge : EdgeFD P M)
    (h : env.whose_q edge.ik ≠ jProcess) :
    updateEdge env iProcess jProcess kMesh ik Ci edge = edge := by
  unfold updateEdge
  simp [h]

theorem length_updatePoint (env : Collaborators P C M) (iProcess jProcess : Nat)
    (kMesh : List (KmeshEntry P M)) (n : Nat) :
    (updatePoint env iProcess jProcess kMesh n).length = kMesh.length := by
  unfold updatePoint
  split
  · rfl
  · split <;> simp

theorem getElem?_updatePoint_ne (env : Collaborators P C M) (iProcess jProcess : Nat)
    (kMesh : List (KmeshEntry P M)) (n i : Nat) (h : i ≠ n) :
    (updatePoint env iProcess jProcess kMesh n)[i]? = kMesh[i]? := by
  unfold updatePoint
  split
  · rfl
  · split
    · rw [List.getElem?_set]
      simp [Ne.symm h]
    · rfl

theorem getElem?_updatePoint_self (env : Collaborators P C M) (iProcess jProcess : Nat)
    (kMesh : List (KmeshEntry P M)) (n : Nat) (ke : KmeshEntry P M)
    (hget : kMesh[n]? = some ke) (hown : env.whose_q n = iProcess) :
    (updatePoint env iProcess jProcess kMesh n)[n]? = some { ke with
      edge := ke.edge.map (updateEdge env iProcess jProcess kMesh n (env.getWfns ke.point)) } := by
  unfold updatePoint
  simp only [hget, hown, if_true]
  rw [List.getElem?_set]
  have hn : n < kMesh.length := by
    by_contra hcon
    rw [List.getElem?_eq_none (by omega)] at hget
    cases hget
  simp [hn]

/-- The reverse-edge lookup only depends on the neighbour index of the edge. -/
theorem findReverse_congr (env : Collaborators P C M) (kMesh : List (KmeshEntry P M))
    (i : Nat) (e e' : EdgeFD P M) (h : e'.ik = e.ik) :
    findReverse env kMesh i e' = findReverse env kMesh i e := by
  unfold findReverse
  rw [h]

/-- Updating point `n` in round `jProcess` does not change a reverse-edge lookup made for
point `i`, unless the lookup reads point `n` and the edges of `n` towards `i` are being
written in this round. -/
theorem findReverse_updatePoint (env : Collaborators P C M) (iProcess jProcess : Nat)
    (kMesh : List (KmeshEntry P M)) (n i : Nat) (e : EdgeFD P M)
    (h : e.ik ≠ n ∨ env.whose_q i ≠ jProcess) :
    findReverse env (updatePoint env iProcess jProcess kMesh n) i e
      = findReverse env kMesh i e := by
  by_cases hne : e.ik = n
  · have hw : env.whose_q i ≠ jProcess := by
      rcases h with h | h
      · exact absurd hne h
      · exact h
    unfold findReverse
    rw [hne]
    cases hget : kMesh[n]? with
    | none => simp [updatePoint, hget]
    | some ke =>
      by_cases hown : env.whose_q n = iProcess
      · rw [getElem?_updatePoint_self env iProcess jProcess kMesh n ke hget hown]
        simp only [List.find?_map]
        have hcomp : ((fun reverseEdge : EdgeFD P M => reverseEdge.ik == i) ∘
            updateEdge env iProcess jProcess kMesh n (env.getWfns ke.point))
            = (fun reverseEdge : EdgeFD P M => reverseEdge.ik == i) := by
          funext x
          simp
        rw [hcomp]
        cases hfind : ke.edge.find? (fun reverseEdge => reverseEdge.ik == i) with
        | none => rfl
        | some re =>
          have hre : re.ik = i := by simpa using List.find?_some hfind
          have : updateEdge env iProcess jProcess kMesh n (env.getWfns ke.point) re = re :=
            updateEdge_of_ne env iProcess jProcess kMesh n _ re (by rw [hre]; exact hw)
          simp [this]
      · simp [updatePoint, hget, hown]
  · unfold findReverse
    rw [getElem?_updatePoint_ne env iProcess jProcess kMesh n e.ik hne]

/-- The assigned value is unchanged when the reverse-edge lookup is. -/
theorem assignedM0_congr (env : Collaborators P C M) (iProcess : Nat)
    (kMesh kMesh' : List (KmeshEntry P M)) (i : Nat) (Ci : C) (e e' : EdgeFD P M)
    (hik : e'.ik = e.ik) (hpt : e'.point = e.point)
    (hrev : env.whose_q e.ik = iProcess → e.ik < i →
      findReverse env kMesh' i e = findReverse env kMesh i e) :
    assignedM0 env iProcess kMesh' i Ci e' = assignedM0 env iProcess kMesh i Ci e := by
  unfold assignedM0
  rw [hik, hpt, findReverse_congr env kMesh' i e e' hik]
  by_cases hc : env.whose_q e.ik = iProcess ∧ e.ik < i
  · simp only [hc, and_self, if_true, hrev hc.1 hc.2]
  · simp only [hc, if_false]

/-- Processing point `n` in round `R` keeps the invariant. -/
theorem passInvariant_step (env : Collaborators P C M) (iProcess R n : Nat)
    (kMesh : List (KmeshEntry P M)) (hinv : PassInvariant env iProcess R n kMesh) :
    PassInvariant env iProcess R (n + 1) (updatePoint env iProcess R kMesh n) := by
  intro i ke' hget hown e' he' hproc
  by_cases hin : i = n
  · subst hin
    cases hkn : kMesh[i]? with
    | none =>
      simp only [updatePoint, hkn] at hget
      cases hget
    | some ke =>
      rw [getElem?_updatePoint_self env iProcess R kMesh i ke hkn hown] at hget
      cases hget
      simp only [List.mem_map] at he'
      obtain ⟨e, he, rfl⟩ := he'
      have hstable : ∀ x : EdgeFD P M, x.ik = e.ik → x.point = e.point →
          assignedM0 env iProcess (updatePoint env iProcess R kMesh i) i
            (env.getWfns ke.point) x
          = assignedM0 env iProcess kMesh i (env.getWfns ke.point) e := by
        intro x hx1 hx2
        apply assignedM0_congr env iProcess _ _ i _ e x hx1 hx2
        intro _ hlt
        exact findReverse_updatePoint env iProcess R kMesh i i e (Or.inl (by omega))
      by_cases hw : env.whose_q e.ik = R
      · rw [updateEdge_M0 env iProcess R kMesh i _ e hw]
        exact (hstable _ (by simp) (by simp)).symm
      · rw [updateEdge_of_ne env iProcess R kMesh i _ e hw] at hproc ⊢
        have hp : Processed env R i i e := by
          rcases hproc with h | ⟨h, _⟩
          · exact Or.inl h
          · exact absurd h hw
        rw [hinv i ke hkn hown e he hp]
        exact (hstable e rfl rfl).symm
  · rw [getElem?_updatePoint_ne env iProcess R kMesh n i hin] at hget
    have hp : Processed env R n i e' := by
      rcases hproc with h | ⟨h, hlt⟩
      · exact Or.inl h
      · exact Or.inr ⟨h, by omega⟩
    rw [hinv i ke' hget hown e' he' hp]
    symm
    apply assignedM0_congr env iProcess _ _ i _ e' e' rfl rfl
    intro hwe hlt
    apply findReverse_updatePoint
    by_cases hen : e'.ik = n
    · right
      rcases hp with h | ⟨h, hlt2⟩
      · rw [hown]; rw [hwe] at h; omega
      · omega
    · exact Or.inl hen

/-- Handling the points `< n` of round `R` keeps the mesh length and the invariant. -/
theorem passInvariant_points (env : Collaborators P C M) (iProcess R : Nat)
    (kMesh : List (KmeshEntry P M)) (hinv : PassInvariant env iProcess R 0 kMesh) (n : Nat) :
    ((List.range n).foldl (fun km ik => updatePoint env iProcess R km ik) kMesh).length
      = kMesh.length ∧
    PassInvariant env iProcess R n
      ((List.range n).foldl (fun km ik => updatePoint env iProcess R km ik) kMesh) := by
  induction n with
  | zero => exact ⟨rfl, hinv⟩
  | succ n ih =>
    rw [List.range_succ, List.foldl_append]
    simp only [List.foldl_cons, List.foldl_nil]
    exact ⟨by rw [length_updatePoint]; exact ih.1, passInvariant_step env iProcess R n _ ih.2⟩

/-- A complete round `R` makes every edge towards a point of process `R` processed. -/
theorem passInvariant_round (env : Collaborators P C M) (iProcess R : Nat)
    (kMesh : List (KmeshEntry P M)) (hinv : PassInvariant env iProcess R 0 kMesh) :
    PassInvariant env iProcess (R + 1) 0 (overlapRound env iProcess R kMesh) := by
  obtain ⟨hlen, h⟩ := passInvariant_points env iProcess R kMesh hinv kMesh.length
  intro i ke hget hown e he hproc
  apply h i ke hget hown e he
  have hi : i < kMesh.length := by
    by_contra hcon
    have hnone : ((List.range kMesh.length).foldl
        (fun km ik => updatePoint env iProcess R km ik) kMesh)[i]? = none :=
      List.getElem?_eq_none (by rw [hlen]; omega)
    have hget' : ((List.range kMesh.length).foldl
        (fun km ik => updatePoint env iProcess R km ik) kMesh)[i]? = some ke := hget
    rw [hnone] at hget'
    cases hget'
  rcases hproc with h1 | ⟨_, h2⟩
  · by_cases hlt : env.whose_q e.ik < R
    · exact Or.inl hlt
    · exact Or.inr ⟨by omega, hi⟩
  · omega

/-- After `R` rounds every edge towards a point of a process `< R` is processed. -/
theorem passInvariant_rounds (env : Collaborators P C M) (iProcess : Nat)
    (kMesh : List (KmeshEntry P M)) (R : Nat) :
    PassInvariant env iProcess R 0
      ((List.range R).foldl (fun km jProcess => overlapRound env iProcess jProcess km) kMesh) := by
  induction R with
  | zero =>
    intro i ke _ _ e _ hproc
    rcases hproc with h | ⟨_, h⟩ <;> omega
  | succ R ih =>
    rw [List.range_succ, List.foldl_append]
    simp only [List.foldl_cons, List.foldl_nil]
    exact passInvariant_round env iProcess R _ ih

/-- C7 as stated fails: with one worker per point, two points joined by an edge in each
direction, and an overlap primitive that is not symmetric under `dagger`, the overlap
stored for edge `1 → 0` is not the `dagger` of the one stored for edge `0 → 1`: both
directions are computed independently by the primitive. -/
theorem reverse_edge_symmetry_fails :
    broadcastM0 envSplitEx meshEx 0 0 = some (-12) ∧
    broadcastM0 envSplitEx meshEx 1 0 = some (-9) ∧
    broadcastM0 envSplitEx meshEx 0 0
      = some (envSplitEx.overlap (envSplitEx.getWfns 10) (envSplitEx.getWfns 11)) ∧
    broadcastM0 envSplitEx meshEx 1 0
      = some (envSplitEx.overlap (envSplitEx.getWfns 11) (envSplitEx.getWfns 10)) ∧
    broadcastM0 envSplitEx meshEx 1 0
      ≠ (broadcastM0 envSplitEx meshEx 0 0).map envSplitEx.dagger := by
  decide

/-- C7, amended. On the worker owning point `i`, after the overlap pass, for every edge of
`i` whose neighbour is owned by some process: if the neighbour `j = edge.ik` is owned by
the same worker, `j < i`, and `j` has an edge towards `i`, then `edge.M0` is the `dagger`
of the `M0` of the first such edge of `j`, which itself is the directly computed
`overlap(C_j, getWfns(reverseEdge.point))` (one computation, one copy, whatever the overlap
primitive); in every other case, in particular when the neighbour is owned by another
worker, `edge.M0` is the directly computed `overlap(C_i, getWfns(edge.point))`. -/
theorem reverse_edge_reuse (env : Collaborators P C M) (kMesh : List (KmeshEntry P M))
    (i : Nat) (ke : KmeshEntry P M)
    (hget : (overlapPass env (env.whose_q i) kMesh)[i]? = some ke)
    (edge : EdgeFD P M) (hedge : edge ∈ ke.edge)
    (hproc : env.whose_q edge.ik < env.nProcesses) :
    (∀ neighbour reverseEdge, env.whose_q edge.ik = env.whose_q i → edge.ik < i →
      (overlapPass env (env.whose_q i) kMesh)[edge.ik]? = some neighbour →
      neighbour.edge.find? (fun x => x.ik == i) = some reverseEdge →
        edge.M0 = env.dagger reverseEdge.M0 ∧
        reverseEdge.M0
          = env.overlap (env.getWfns neighbour.point) (env.getWfns reverseEdge.point)) ∧
    (¬ (env.whose_q edge.ik = env.whose_q i ∧ edge.ik < i ∧
        ∃ neighbour reverseEdge,
          (overlapPass env (env.whose_q i) kMesh)[edge.ik]? = some neighbour ∧
          neighbour.edge.find? (fun x => x.ik == i) = some reverseEdge) →
      edge.M0 = env.overlap (env.getWfns ke.point) (env.getWfns edge.point)) := by
  have hinv : PassInvariant env (env.whose_q i) env.nProcesses 0
      (overlapPass env (env.whose_q i) kMesh) :=
    passInvariant_rounds env (env.whose_q i) kMesh env.nProcesses
  have hM0 := hinv i ke hget rfl edge hedge (Or.inl hproc)
  constructor
  · intro nb re hw hlt hnb hfind
    have hrev : findReverse env (overlapPass env (env.whose_q i) kMesh) i edge
        = some (env.dagger re.M0) := by
      unfold findReverse
      rw [hnb]
      simp [hfind]
    have h1 : edge.M0 = env.dagger re.M0 := by
      rw [hM0]
      unfold assignedM0
      have hc : env.whose_q edge.ik = env.whose_q i ∧ edge.ik < i := ⟨hw, hlt⟩
      rw [if_pos hc]
      simp only [hrev]
    refine ⟨h1, ?_⟩
    have hre : re.ik = i := by simpa using List.find?_some hfind
    have hmem : re ∈ nb.edge := List.mem_of_find?_eq_some hfind
    have hM0re := hinv edge.ik nb hnb hw re hmem (Or.inl (by rw [hre, ← hw]; exact hproc))
    rw [hM0re]
    unfold assignedM0
    have hc : ¬ (env.whose_q re.ik = env.whose_q i ∧ re.ik < edge.ik) := by omega
    rw [if_neg hc]
  · intro hnot
    rw [hM0]
    unfold assignedM0
    by_cases hc : env.whose_q edge.ik = env.whose_q i ∧ edge.ik < i
    · rw [if_pos hc]
      cases hrev : findReverse env (overlapPass env (env.whose_q i) kMesh) i edge with
      | none => simp only [hrev]
      | some m =>
        exfalso
        apply hnot
        refine ⟨hc.1, hc.2, ?_⟩
        unfold findReverse at hrev
        cases hnb : (overlapPass env (env.whose_q i) kMesh)[edge.ik]? with
        | none => simp [hnb] at hrev
        | some nb =>
          simp only [hnb] at hrev
          cases hfind : nb.edge.find? (fun x => x.ik == i) with
          | none => simp [hfind] at hrev
          | some re => exact ⟨nb, re, rfl, hfind⟩
    · rw [if_neg hc]

/-- C7 (amended) on one worker owning both points of a two-point mesh: the overlap of edge
`1 → 0` is the `dagger` of the directly computed overlap of edge `0 → 1`. -/
theorem reverse_edge_reuse_witness :
    (overlapPass envLocalEx (envLocalEx.whose_q 1) meshEx)[1]?
      = some ⟨11, [⟨0, 10, -12⟩]⟩ ∧
    envLocalEx.whose_q 0 < envLocalEx.nProcesses ∧
    (overlapPass envLocalEx (envLocalEx.whose_q 1) meshEx)[0]?
      = some ⟨10, [⟨1, 11, -12⟩]⟩ ∧
    ((-12 : Int) = envLocalEx.dagger (-12) ∧
      (-12 : Int) = envLocalEx.overlap (envLocalEx.getWfns 10) (envLocalEx.getWfns 11)) :=
  ⟨by decide, by decide, by decide,
    (reverse_edge_reuse envLocalEx meshEx 1 ⟨11, [⟨0, 10, -12⟩]⟩ (by decide)
      ⟨0, 10, -12⟩ (by simp) (by decide)).1 ⟨10, [⟨1, 11, -12⟩]⟩ ⟨1, 11, -12⟩
      (by decide) (by decide) (by decide) (by decide)⟩

end PassLemmas

section Trace

variable {P C M : Type}

theorem stateAt_zero_zero (env : Collaborators P C M) (iProcess : Nat)
    (kMesh : List (KmeshEntry P M)) : stateAt env iProcess 0 0 kMesh = kMesh := rfl

/-- Handling point `n` of round `R` takes the state at `(R, n)` to the state at
`(R, n + 1)`. -/
theorem stateAt_succ (env : Collaborators P C M) (iProcess R n : Nat)
    (kMesh : List (KmeshEntry P M)) :
    stateAt env iProcess R (n + 1) kMesh
      = updatePoint env iProcess R (stateAt env iProcess R n kMesh) n := by
  unfold stateAt
  rw [List.range_succ, List.foldl_append]
  rfl

theorem length_stateAt_points (env : Collaborators P C M) (iProcess R : Nat)
    (km : List (KmeshEntry P M)) (n : Nat) :
    ((List.range n).foldl (fun km n => updatePoint env iProcess R km n) km).length
      = km.length := by
  induction n with
  | zero => rfl
  | succ n ih =>
    rw [List.range_succ, List.foldl_append]
    simp only [List.foldl_cons, List.foldl_nil]
    rw [length_updatePoint, ih]

theorem length_overlapRound (env : Collaborators P C M) (iProcess R : Nat)
    (km : List (KmeshEntry P M)) : (overlapRound env iProcess R km).length = km.length :=
  length_stateAt_points env iProcess R km km.length

theorem length_stateAt (env : Collaborators P C M) (iProcess : Nat)
    (kMesh : List (KmeshEntry P M)) (R n : Nat) :
    (stateAt env iProcess R n kMesh).length = kMesh.length := by
  unfold stateAt
  rw [length_stateAt_points]
  induction R with
  | zero => rfl
  | succ R ih =>
    rw [List.range_succ, List.foldl_append]
    simp only [List.foldl_cons, List.foldl_nil]
    rw [length_overlapRound, ih]

/-- Completing round `R` gives the state at the start of round `R + 1`. -/
theorem stateAt_round (env : Collaborators P C M) (iProcess R : Nat)
    (kMesh : List (KmeshEntry P M)) :
    stateAt env iProcess (R + 1) 0 kMesh = stateAt env iProcess R kMesh.length kMesh := by
  have hlen := length_stateAt env iProcess kMesh R 0
  unfold stateAt at hlen ⊢
  simp only [List.range_zero, List.foldl_nil] at hlen ⊢
  rw [List.range_succ, List.foldl_append]
  simp only [List.foldl_cons, List.foldl_nil]
  generalize (List.range R).foldl (fun km jp => overlapRound env iProcess jp km) kMesh = S0
    at hlen ⊢
  unfold overlapRound
  rw [hlen]

/-- The overlap pass ends in the state at the start of round `nProcesses`. -/
theorem overlapPass_eq_stateAt (env : Collaborators P C M) (iProcess : Nat)
    (kMesh : List (KmeshEntry P M)) :
    overlapPass env iProcess kMesh = stateAt env iProcess env.nProcesses 0 kMesh := rfl

@[simp]
theorem tracedEdge_ik (env : Collaborators P C M) (iProcess : Nat)
    (kMesh : List (KmeshEntry P M)) (i : Nat) (Ci : C) (R n : Nat) (edge : EdgeFD P M) :
    (tracedEdge env iProcess kMesh i Ci R n edge).ik = edge.ik := by
  unfold tracedEdge
  split
  · exact updateEdge_ik _ _ _ _ _ _ _
  · rfl

/-- The traced edge only changes at the moment its own round reaches point `i`. -/
theorem tracedEdge_congr (env : Collaborators P C M) (iProcess : Nat)
    (kMesh : List (KmeshEntry P M)) (i : Nat) (Ci : C) (R n R' n' : Nat) (edge : EdgeFD P M)
    (h : (env.whose_q edge.ik < R ∨ (env.whose_q edge.ik = R ∧ i < n)) ↔
      (env.whose_q edge.ik < R' ∨ (env.whose_q edge.ik = R' ∧ i < n'))) :
    tracedEdge env iProcess kMesh i Ci R n edge = tracedEdge env iProcess kMesh i Ci R' n' edge := by
  unfold tracedEdge
  by_cases hc : env.whose_q edge.ik < R ∨ (env.whose_q edge.ik = R ∧ i < n)
  · rw [if_pos hc, if_pos (h.mp hc)]
  · rw [if_neg hc, if_neg (fun h' => hc (h.mpr h'))]

/-- One step of the loop over mesh points, seen from point `i`. -/
theorem stateAt_getElem_step (env : Collaborators P C M) (iProcess : Nat)
    (kMesh : List (KmeshEntry P M)) (i : Nat) (ke0 : KmeshEntry P M)
    (hown : env.whose_q i = iProcess) (R n : Nat)
    (h : (stateAt env iProcess R n kMesh)[i]? = some { ke0 with
      edge := ke0.edge.map (tracedEdge env iProcess kMesh i (env.getWfns ke0.point) R n) }) :
    (stateAt env iProcess R (n + 1) kMesh)[i]? = some { ke0 with
      edge := ke0.edge.map
        (tracedEdge env iProcess kMesh i (env.getWfns ke0.point) R (n + 1)) } := by
  rw [stateAt_succ]
  by_cases hni : n = i
  · subst hni
    rw [getElem?_updatePoint_self env iProcess R _ n _ h hown]
    simp only [List.map_map, Option.some.injEq, KmeshEntry.mk.injEq, true_and]
    apply List.map_congr_left
    intro e0 _
    simp only [Function.comp]
    by_cases hw : env.whose_q e0.ik = R
    · have h1 : tracedEdge env iProcess kMesh n (env.getWfns ke0.point) R n e0 = e0 := by
        unfold tracedEdge
        rw [if_neg (by omega)]
      have h2 : tracedEdge env iProcess kMesh n (env.getWfns ke0.point) R (n + 1) e0
          = updateEdge env iProcess R (stateAt env iProcess R n kMesh) n
              (env.getWfns ke0.point) e0 := by
        unfold tracedEdge
        rw [if_pos (by omega), hw]
      rw [h1, h2]
    · rw [updateEdge_of_ne env iProcess R _ n _ _ (by rw [tracedEdge_ik]; exact hw)]
      apply tracedEdge_congr
      omega
  · rw [getElem?_updatePoint_ne env iProcess R _ n i (fun h' => hni h'.symm), h]
    simp only [Option.some.injEq, KmeshEntry.mk.injEq, true_and]
    apply List.map_congr_left
    intro e0 _
    apply tracedEdge_congr
    omega

/-- Closed form of the edges of an owned point `i` at every moment of the pass: each edge
is the initial edge, rewritten once by `updateEdge` if the round of its neighbour's owner has
already reached `i`. -/
theorem stateAt_getElem (env : Collaborators P C M) (iProcess : Nat)
    (kMesh : List (KmeshEntry P M)) (i : Nat) (ke0 : KmeshEntry P M)
    (hget : kMesh[i]? = some ke0) (hown : env.whose_q i = iProcess) :
    ∀ R n : Nat, (stateAt env iProcess R n kMesh)[i]? = some { ke0 with
      edge := ke0.edge.map (tracedEdge env iProcess kMesh i (env.getWfns ke0.point) R n) } := by
  have hi : i < kMesh.length := by
    by_contra hcon
    rw [List.getElem?_eq_none (by omega)] at hget
    cases hget
  have hinner : ∀ R : Nat,
      (stateAt env iProcess R 0 kMesh)[i]? = some { ke0 with
        edge := ke0.edge.map (tracedEdge env iProcess kMesh i (env.getWfns ke0.point) R 0) } →
      ∀ n : Nat, (stateAt env iProcess R n kMesh)[i]? = some { ke0 with
        edge := ke0.edge.map (tracedEdge env iProcess kMesh i (env.getWfns ke0.point) R n) } := by
    intro R h0 n
    induction n with
    | zero => exact h0
    | succ n ih => exact stateAt_getElem_step env iProcess kMesh i ke0 hown R n ih
  intro R
  induction R with
  | zero =>
    apply hinner
    rw [stateAt_zero_zero, hget]
    have hid : ke0.edge.map (tracedEdge env iProcess kMesh i (env.getWfns ke0.point) 0 0)
        = ke0.edge := by
      conv_rhs => rw [← List.map_id ke0.edge]
      apply List.map_congr_left
      intro e0 _
      unfold tracedEdge
      rw [if_neg (by omega)]
      rfl
    rw [hid]
  | succ R ih =>
    apply hinner
    rw [stateAt_round, ih kMesh.length]
    simp only [Option.some.injEq, KmeshEntry.mk.injEq, true_and]
    apply List.map_congr_left
    intro e0 _
    apply tracedEdge_congr
    omega

/-- The invariant of the pass holds at every moment of every round. -/
theorem passInvariant_stateAt (env : Collaborators P C M) (iProcess : Nat)
    (kMesh : List (KmeshEntry P M)) (R n : Nat) :
    PassInvariant env iProcess R n (stateAt env iProcess R n kMesh) :=
  (passInvariant_points env iProcess R _ (passInvariant_rounds env iProcess kMesh R) n).2

/-- C13. Local reverse-edge reuse rule, on worker `iProcess` for a point `i` it owns with
initial entry `ke0`.  Every edge of `i` is rewritten exactly once, by the loop body of the
round of its neighbour's owner at the moment that round reaches `i`, and is left alone by
every other round.  In the worker's own round, an edge `i -> j` with `j < i` whose
neighbour `j` has an edge towards `i` gets the `dagger` of the `M0` of the first such edge
of `j`; that reverse `M0` was written earlier in the same round, when the loop reached
`j`, by a direct overlap computation.  In every other case of the own round, and in the
round of any other worker, `M0` is the directly computed
`overlap(C_i, getWfns(edge.point))`. -/
theorem local_reverse_edge_rule (env : Collaborators P C M) (iProcess : Nat)
    (kMesh : List (KmeshEntry P M)) (i : Nat) (ke0 : KmeshEntry P M)
    (hget : kMesh[i]? = some ke0) (hown : env.whose_q i = iProcess) :
    (overlapPass env iProcess kMesh)[i]? = some { ke0 with
      edge := ke0.edge.map (fun edge =>
        if env.whose_q edge.ik < env.nProcesses then
          updateEdge env iProcess (env.whose_q edge.ik)
            (stateAt env iProcess (env.whose_q edge.ik) i kMesh) i (env.getWfns ke0.point) edge
        else edge) } ∧
    (∀ edge ∈ ke0.edge, env.whose_q edge.ik = iProcess →
      (∀ neighbour reverseEdge, edge.ik < i →
        (stateAt env iProcess iProcess i kMesh)[edge.ik]? = some neighbour →
        neighbour.edge.find? (fun x => x.ik == i) = some reverseEdge →
          (updateEdge env iProcess iProcess (stateAt env iProcess iProcess i kMesh) i
            (env.getWfns ke0.point) edge).M0 = env.dagger reverseEdge.M0 ∧
          reverseEdge.M0
            = env.overlap (env.getWfns neighbour.point) (env.getWfns reverseEdge.point) ∧
          ∃ neighbour0 reverseEdge0, kMesh[edge.ik]? = some neighbour0 ∧
            reverseEdge0 ∈ neighbour0.edge ∧
            reverseEdge = updateEdge env iProcess iProcess
              (stateAt env iProcess iProcess edge.ik kMesh) edge.ik
              (env.getWfns neighbour0.point) reverseEdge0) ∧
      (¬ (edge.ik < i ∧ ∃ neighbour reverseEdge,
          (stateAt env iProcess iProcess i kMesh)[edge.ik]? = some neighbour ∧
          neighbour.edge.find? (fun x => x.ik == i) = some reverseEdge) →
        (updateEdge env iProcess iProcess (stateAt env iProcess iProcess i kMesh) i
          (env.getWfns ke0.point) edge).M0
          = env.overlap (env.getWfns ke0.point) (env.getWfns edge.point))) ∧
    (∀ (R : Nat) (km : List (KmeshEntry P M)) (edge : EdgeFD P M),
      env.whose_q edge.ik = R → R ≠ iProcess →
        (updateEdge env iProcess R km i (env.getWfns ke0.point) edge).M0
          = env.overlap (env.getWfns ke0.point) (env.getWfns edge.point)) ∧
    (∀ (R : Nat) (km : List (KmeshEntry P M)) (edge : EdgeFD P M),
      env.whose_q edge.ik ≠ R →
        updateEdge env iProcess R km i (env.getWfns ke0.point) edge = edge) := by
  refine ⟨?_, ?_, ?_, ?_⟩
  · rw [overlapPass_eq_stateAt, stateAt_getElem env iProcess kMesh i ke0 hget hown]
    simp only [Option.some.injEq, KmeshEntry.mk.injEq, true_and]
    apply List.map_congr_left
    intro e0 _
    unfold tracedEdge
    by_cases hc : env.whose_q e0.ik < env.nProcesses
    · rw [if_pos (Or.inl hc), if_pos hc]
    · rw [if_neg (by omega), if_neg hc]
  · intro edge _ hw
    have hinv := passInvariant_stateAt env iProcess kMesh iProcess i
    rw [updateEdge_M0 env iProcess iProcess _ i _ edge hw]
    constructor
    · intro nb re hlt hnb hfind
      have hre : re.ik = i := by simpa using List.find?_some hfind
      have hmem : re ∈ nb.edge := List.mem_of_find?_eq_some hfind
      refine ⟨?_, ?_, ?_⟩
      · unfold assignedM0
        rw [if_pos ⟨hw, hlt⟩]
        unfold findReverse
        simp [hnb, hfind]
      · have hM0 := hinv edge.ik nb hnb hw re hmem
          (Or.inr ⟨by rw [hre]; exact hown, hlt⟩)
        rw [hM0]
        unfold assignedM0
        rw [if_neg (by omega)]
      · have hj : edge.ik < kMesh.length := by
          by_contra hcon
          rw [List.getElem?_eq_none
            (by rw [length_stateAt]; omega)] at hnb
          cases hnb
        have hnb0 : kMesh[edge.ik]? = some (kMesh.get ⟨edge.ik, hj⟩) := by
          simp [List.getElem?_eq_getElem hj]
        have htrace := stateAt_getElem env iProcess kMesh edge.ik _ hnb0 hw iProcess i
        rw [hnb] at htrace
        simp only [Option.some.injEq] at htrace
        subst htrace
        simp only [List.mem_map] at hmem
        obtain ⟨re0, hre0, hre0eq⟩ := hmem
        have hik0 : re0.ik = i := by rw [← hre, ← hre0eq, tracedEdge_ik]
        refine ⟨_, re0, hnb0, hre0, ?_⟩
        rw [← hre0eq]
        unfold tracedEdge
        have hwre0 : env.whose_q re0.ik = iProcess := by rw [hik0]; exact hown
        rw [if_pos (Or.inr ⟨hwre0, hlt⟩), hwre0]
    · intro hnot
      unfold assignedM0
      by_cases hlt : edge.ik < i
      · rw [if_pos ⟨hw, hlt⟩]
        cases hrev : findReverse env (stateAt env iProcess iProcess i kMesh) i edge with
        | none => rfl
        | some m =>
          exfalso
          apply hnot
          refine ⟨hlt, ?_⟩
          unfold findReverse at hrev
          cases hnb : (stateAt env iProcess iProcess i kMesh)[edge.ik]? with
          | none => simp [hnb] at hrev
          | some nb =>
            simp only [hnb] at hrev
            cases hfind : nb.edge.find? (fun x => x.ik == i) with
            | none => simp [hfind] at hrev
            | some re => exact ⟨nb, re, rfl, hfind⟩
      · rw [if_neg (fun h => hlt h.2)]
  · intro R km edge hw hne
    unfold updateEdge
    rw [if_pos hw]
    have hc : ¬ (R = iProcess ∧ edge.ik < i) := fun h => hne h.1
    simp only [hc, if_false]
  · intro R km edge hw
    exact updateEdge_of_ne env iProcess R km i _ edge hw

/-- C13 on one worker owning both points of a two-point mesh: in its own round the edge
`1 -> 0` gets the `dagger` of the overlap `-12` that the same round computed directly for
edge `0 -> 1`. -/
theorem local_reverse_edge_rule_witness :
    meshEx[1]? = some ⟨11, [⟨0, 10, 0⟩]⟩ ∧ envLocalEx.whose_q 1 = 0 ∧
    stateAt envLocalEx 0 0 1 meshEx = [⟨10, [⟨1, 11, -12⟩]⟩, ⟨11, [⟨0, 10, 0⟩]⟩] ∧
    overlapPass envLocalEx 0 meshEx = [⟨10, [⟨1, 11, -12⟩]⟩, ⟨11, [⟨0, 10, -12⟩]⟩] ∧
    (updateEdge envLocalEx 0 0 (stateAt envLocalEx 0 0 1 meshEx) 1
        (envLocalEx.getWfns 11) ⟨0, 10, 0⟩).M0 = envLocalEx.dagger (-12) ∧
    (-12 : Int) = envLocalEx.overlap (envLocalEx.getWfns 10) (envLocalEx.getWfns 11) :=
  have h := local_reverse_edge_rule envLocalEx 0 meshEx 1 ⟨11, [⟨0, 10, 0⟩]⟩ (by decide)
    (by decide)
  have h2 := (h.2.1 ⟨0, 10, 0⟩ (by simp) (by decide)).1 ⟨10, [⟨1, 11, -12⟩]⟩ ⟨1, 11, -12⟩
    (by decide) (by decide) (by decide)
  ⟨by decide, by decide, by decide, by decide, h2.1, h2.2.1⟩

end Trace

end Overlap

/-! ## Hamiltonian interpolation theorems -/

namespace Hamiltonian

section InterpolationLemmas

variable {K V R : Type} [CommRing K] [StarRing K]

theorem length_accumulateStep (env : Collaborators K V R) (iProcess : Nat)
    (kMesh : List (KmeshEntry K V)) (H : List (matrix K)) (i : Nat)
    (hH : H.length = env.iCellMap.length) :
    (accumulateStep env iProcess kMesh H i).length = env.iCellMap.length := by
  unfold accumulateStep
  split
  · split
    · simp [accumulatePoint, hH]
    · exact hH
  · exact hH

/-- The accumulators stay in step with `iCellMap` throughout the loop over mesh points. -/
theorem length_accumulate_fold (env : Collaborators K V R) (iProcess : Nat)
    (kMesh : List (KmeshEntry K V)) (n : Nat) :
    ((List.range n).foldl (accumulateStep env iProcess kMesh)
      (List.replicate env.iCellMap.length emptyMatrix)).length = env.iCellMap.length := by
  induction n with
  | zero => simp
  | succ n ih =>
    rw [List.range_succ, List.foldl_append]
    simp only [List.foldl_cons, List.foldl_nil]
    exact length_accumulateStep env iProcess kMesh _ n ih

theorem length_localHwannier (env : Collaborators K V R) (iProcess : Nat)
    (kMesh : List (KmeshEntry K V)) :
    (localHwannier env iProcess kMesh).length = env.iCellMap.length :=
  length_accumulate_fold env iProcess kMesh kMesh.length

theorem cellTerm_nRows (env : Collaborators K V R) (ke : KmeshEntry K V) (cell : R × K) :
    (cellTerm env ke cell).nRows = ke.U.nCols := rfl

theorem cellTerm_nCols (env : Collaborators K V R) (ke : KmeshEntry K V) (cell : R × K) :
    (cellTerm env ke cell).nCols = ke.U.nCols := rfl

/-- After the points `< n`, the accumulator of each cell on worker `iProcess` is either
still the empty matrix or of shape `nCenters × nCenters`, and its entries are the sums of
the contributions of the points `< n` owned by `iProcess`. -/
theorem accumulate_fold_spec (env : Collaborators K V R) (iProcess : Nat)
    (kMesh : List (KmeshEntry K V)) (nCenters : Nat) (hpos : 0 < nCenters)
    (hU : ∀ ke ∈ kMesh, ke.U.nCols = nCenters) (n c : Nat) (cell : R × K)
    (hcell : env.iCellMap[c]? = some cell) :
    ∃ acc, ((List.range n).foldl (accumulateStep env iProcess kMesh)
        (List.replicate env.iCellMap.length emptyMatrix))[c]? = some acc ∧
      (acc = emptyMatrix ∨ (acc.nRows = nCenters ∧ acc.nCols = nCenters)) ∧
      ∀ a b, acc.data a b = ∑ i in Finset.range n,
        if env.whose_q i = iProcess then termEntry env kMesh cell a b i else 0 := by
  have hc : c < env.iCellMap.length := by
    by_contra hcon
    rw [List.getElem?_eq_none (by omega)] at hcell
    cases hcell
  induction n with
  | zero =>
    refine ⟨emptyMatrix, ?_, Or.inl rfl, ?_⟩
    · simp [hc]
    · intro a b; simp [emptyMatrix]
  | succ n ih =>
    obtain ⟨acc, hacc, hshape, hdata⟩ := ih
    rw [List.range_succ, List.foldl_append]
    simp only [List.foldl_cons, List.foldl_nil]
    generalize (List.range n).foldl (accumulateStep env iProcess kMesh)
      (List.replicate env.iCellMap.length emptyMatrix) = S at hacc
    by_cases hown : env.whose_q n = iProcess
    · cases hget : kMesh[n]? with
      | none =>
        refine ⟨acc, by simp [accumulateStep, hown, hget, hacc], hshape, ?_⟩
        intro a b
        rw [Finset.sum_range_succ, ← hdata a b]
        simp [hown, termEntry, hget]
      | some ke =>
        have hke : ke ∈ kMesh := List.mem_iff_getElem?.mpr ⟨n, hget⟩
        have hcols := hU ke hke
        refine ⟨addAssign acc (cellTerm env ke cell), ?_, ?_, ?_⟩
        · simp [accumulateStep, hown, hget, accumulatePoint, List.getElem?_zipWith, hacc, hcell]
        · right
          rcases hshape with he | ⟨h1, h2⟩
          · subst he
            simp [addAssign, emptyMatrix, cellTerm_nRows, cellTerm_nCols, hcols]
          · have hne : acc.nRows * acc.nCols ≠ 0 := by
              rw [h1, h2]; exact Nat.mul_ne_zero (by omega) (by omega)
            unfold addAssign
            rw [if_pos hne]
            exact ⟨h1, h2⟩
        · intro a b
          rw [Finset.sum_range_succ, ← hdata a b]
          simp only [hown, if_true, termEntry, hget]
          rcases hshape with he | ⟨h1, h2⟩
          · subst he
            simp [addAssign, emptyMatrix]
          · have hne : acc.nRows * acc.nCols ≠ 0 := by
              rw [h1, h2]; exact Nat.mul_ne_zero (by omega) (by omega)
            unfold addAssign
            rw [if_pos hne]
    · refine ⟨acc, by simp [accumulateStep, hown, hacc], hshape, ?_⟩
      intro a b
      rw [Finset.sum_range_succ, ← hdata a b]
      simp [hown]

/-- Summing the per-worker sums over all workers gives the sum over all mesh points, as
every point is owned by exactly one worker. -/
theorem sum_over_workers (whose_q : Nat → Nat) (nProcesses n : Nat)
    (hown : ∀ i, i < n → whose_q i < nProcesses) (f : Nat → K) :
    (∑ p in Finset.range nProcesses, ∑ i in Finset.range n,
      if whose_q i = p then f i else 0) = ∑ i in Finset.range n, f i := by
  rw [Finset.sum_comm]
  apply Finset.sum_congr rfl
  intro i hi
  rw [Finset.mem_range] at hi
  rw [Finset.sum_ite_eq (Finset.range nProcesses) (whose_q i) (fun _ => f i)]
  simp [hown i hi]

/-- After the points `< n`, the accumulator of each cell on worker `iProcess` is still the
empty matrix when the worker owns none of these points, and of shape `nCenters × nCenters`
as soon as it owns one. -/
theorem accumulate_fold_shape (env : Collaborators K V R) (iProcess : Nat)
    (kMesh : List (KmeshEntry K V)) (nCenters : Nat)
    (hU : ∀ ke ∈ kMesh, ke.U.nCols = nCenters) (n c : Nat) (cell : R × K)
    (hcell : env.iCellMap[c]? = some cell) (hn : n ≤ kMesh.length) :
    ∃ acc, ((List.range n).foldl (accumulateStep env iProcess kMesh)
        (List.replicate env.iCellMap.length emptyMatrix))[c]? = some acc ∧
      ((∀ i, i < n → env.whose_q i ≠ iProcess) → acc = emptyMatrix) ∧
      ((∃ i, i < n ∧ env.whose_q i = iProcess) → acc.nRows = nCenters ∧ acc.nCols = nCenters) := by
  have hc : c < env.iCellMap.length := by
    by_contra hcon
    rw [List.getElem?_eq_none (by omega)] at hcell
    cases hcell
  induction n with
  | zero =>
    refine ⟨emptyMatrix, by simp [hc], fun _ => rfl, ?_⟩
    rintro ⟨i, hi, _⟩
    omega
  | succ n ih =>
    obtain ⟨acc, hacc, hidle, hbusy⟩ := ih (by omega)
    rw [List.range_succ, List.foldl_append]
    simp only [List.foldl_cons, List.foldl_nil]
    generalize (List.range n).foldl (accumulateStep env iProcess kMesh)
      (List.replicate env.iCellMap.length emptyMatrix) = S at hacc
    by_cases hown : env.whose_q n = iProcess
    · have hlt : n < kMesh.length := by omega
      have hget : kMesh[n]? = some kMesh[n] := List.getElem?_eq_getElem hlt
      have hcols := hU kMesh[n] (List.getElem_mem hlt)
      refine ⟨addAssign acc (cellTerm env kMesh[n] cell), ?_, ?_, ?_⟩
      · simp [accumulateStep, hown, hget, accumulatePoint, List.getElem?_zipWith, hacc, hcell]
      · intro h
        exact absurd hown (h n (by omega))
      · intro _
        unfold addAssign
        split
        · rename_i hne
          by_cases hprev : ∃ i, i < n ∧ env.whose_q i = iProcess
          · exact hbusy hprev
          · have he : acc = emptyMatrix := hidle (fun i hi hq => hprev ⟨i, hi, hq⟩)
            rw [he] at hne
            simp [emptyMatrix] at hne
        · exact ⟨hcols, hcols⟩
    · refine ⟨acc, by simp [accumulateStep, hown, hacc], ?_, ?_⟩
      · intro h
        exact hidle (fun i hi => h i (by omega))
      · rintro ⟨i, hi, hq⟩
        have hi' : i < n := by
          rcases Nat.lt_succ_iff_lt_or_eq.mp hi with h | h
          · exact h
          · rw [h] at hq; exact absurd hq hown
        exact hbusy ⟨i, hi', hq⟩

/-- A list of results that are all defined is collected in order. -/
theorem mapM_option_eq_some {α β : Type} (f : α → Option β) (g : α → β) (l : List α)
    (h : ∀ x ∈ l, f x = some (g x)) : l.mapM f = some (l.map g) := by
  induction l with
  | nil => rfl
  | cons x xs ih =>
    rw [List.mapM_cons, h x (List.mem_cons_self x xs),
      ih (fun y hy => h y (List.mem_cons_of_mem x hy))]
    rfl

/-- The all-reduce of buffers of one shape is the elementwise sum in that shape. -/
theorem allReduce_of_same_shape (nProcesses : Nat) (parts : Nat → matrix K) (mine : matrix K)
    (h : ∀ p, p < nProcesses → (parts p).nRows = mine.nRows ∧ (parts p).nCols = mine.nCols) :
    allReduce nProcesses parts mine
      = some ⟨mine.nRows, mine.nCols,
          fun a b => ∑ p in Finset.range nProcesses, (parts p).data a b⟩ := by
  unfold allReduce
  rw [if_pos]
  rw [List.all_eq_true]
  intro p hp
  rw [List.mem_range] at hp
  exact decide_eq_true (h p hp)

/-- The all-reduce is undefined as soon as one worker's buffer differs in shape from the
caller's. -/
theorem allReduce_of_shape_mismatch (nProcesses : Nat) (parts : Nat → matrix K)
    (mine : matrix K) (p : Nat) (hp : p < nProcesses)
    (h : ¬ ((parts p).nRows = mine.nRows ∧ (parts p).nCols = mine.nCols)) :
    allReduce nProcesses parts mine = none := by
  unfold allReduce
  rw [if_neg]
  intro hall
  rw [List.all_eq_true] at hall
  exact h (of_decide_eq_true (hall p (List.mem_range.mpr hp)))

/-- Hamiltonian interpolation when every worker owns a mesh point: if every mesh point is
owned by one of the workers, every worker owns at least one mesh point and every rotation
has `nCenters` columns, then the all-reduce is defined on every worker, the list of blocks
has one block per entry of `iCellMap`, in the order of `iCellMap`, every block has shape
`nCenters × nCenters`, and every entry of the block of `cell = (R, m)` is the sum over all
mesh points of `m * weight * cis(2 pi k.R)` times the entry of `dagger(U) * Hsub_eigs * U`;
the right-hand side does not mention the assignment of points to workers. -/
theorem interpolation_of_busy_workers (env : Collaborators K V R) (iProcess : Nat)
    (kMesh : List (KmeshEntry K V)) (nCenters : Nat)
    (hme : iProcess < env.nProcesses)
    (hown : ∀ i, i < kMesh.length → env.whose_q i < env.nProcesses)
    (hbusy : ∀ p, p < env.nProcesses → ∃ i, i < kMesh.length ∧ env.whose_q i = p)
    (hU : ∀ ke ∈ kMesh, ke.U.nCols = nCenters) :
    ∃ Hs : List (matrix K), Hwannier env iProcess kMesh = some Hs ∧
      Hs.length = env.iCellMap.length ∧
      ∀ (c : Nat) (cell : R × K), env.iCellMap[c]? = some cell →
        ∃ H : matrix K, Hs[c]? = some H ∧ H.nRows = nCenters ∧ H.nCols = nCenters ∧
          ∀ a b, a < nCenters → b < nCenters →
            H.data a b = ∑ i : Fin kMesh.length,
              (cell.2 * (kMesh.get i).weight * env.phase (kMesh.get i).k cell.1)
                * (Hsub (kMesh.get i)).data a b := by
  have hshape : ∀ p, p < env.nProcesses → ∀ c, c < env.iCellMap.length →
      ((localHwannier env p kMesh).getD c emptyMatrix).nRows = nCenters ∧
      ((localHwannier env p kMesh).getD c emptyMatrix).nCols = nCenters := by
    intro p hp c hc
    have hcell : env.iCellMap[c]? = some env.iCellMap[c] := List.getElem?_eq_getElem hc
    obtain ⟨acc, hacc, _, hb⟩ :=
      accumulate_fold_shape env p kMesh nCenters hU kMesh.length c _ hcell (le_refl _)
    have hacc' : (localHwannier env p kMesh)[c]? = some acc := hacc
    rw [List.getD_eq_getElem?_getD, hacc']
    exact hb (hbusy p hp)
  have hred : ∀ c ∈ List.range (localHwannier env iProcess kMesh).length,
      reduceCell env iProcess kMesh c
        = some ⟨((localHwannier env iProcess kMesh).getD c emptyMatrix).nRows,
            ((localHwannier env iProcess kMesh).getD c emptyMatrix).nCols,
            fun a b => ∑ p in Finset.range env.nProcesses,
              ((localHwannier env p kMesh).getD c emptyMatrix).data a b⟩ := by
    intro c hc
    rw [List.mem_range, length_localHwannier] at hc
    unfold reduceCell
    apply allReduce_of_same_shape
    intro p hp
    rw [(hshape p hp c hc).1, (hshape p hp c hc).2, (hshape iProcess hme c hc).1,
      (hshape iProcess hme c hc).2]
    exact ⟨rfl, rfl⟩
  refine ⟨_, mapM_option_eq_some _ _ _ hred, by simp [length_localHwannier], ?_⟩
  intro c cell hcell
  have hc : c < env.iCellMap.length := by
    by_contra hcon
    rw [List.getElem?_eq_none (by omega)] at hcell
    cases hcell
  refine ⟨⟨((localHwannier env iProcess kMesh).getD c emptyMatrix).nRows,
      ((localHwannier env iProcess kMesh).getD c emptyMatrix).nCols,
      fun a b => ∑ p in Finset.range env.nProcesses,
        ((localHwannier env p kMesh).getD c emptyMatrix).data a b⟩,
    by simp [length_localHwannier, List.getElem?_map, List.getElem?_range, hc],
    (hshape iProcess hme c hc).1, (hshape iProcess hme c hc).2, ?_⟩
  intro a b ha _
  have hpos : 0 < nCenters := by omega
  show (∑ p in Finset.range env.nProcesses,
    ((localHwannier env p kMesh).getD c emptyMatrix).data a b) = _
  have hlocal : ∀ p, ((localHwannier env p kMesh).getD c emptyMatrix).data a b
      = ∑ i in Finset.range kMesh.length,
        if env.whose_q i = p then termEntry env kMesh cell a b i else 0 := by
    intro p
    obtain ⟨acc, hacc, _, hdata⟩ :=
      accumulate_fold_spec env p kMesh nCenters hpos hU kMesh.length c cell hcell
    have hacc' : (localHwannier env p kMesh)[c]? = some acc := hacc
    rw [List.getD_eq_getElem?_getD, hacc']
    exact hdata a b
  simp only [hlocal]
  rw [sum_over_workers env.whose_q env.nProcesses kMesh.length hown
    (termEntry env kMesh cell a b)]
  rw [← Fin.sum_univ_eq_sum_range (termEntry env kMesh cell a b) kMesh.length]
  apply Finset.sum_congr rfl
  intro i _
  have hget : kMesh[i.val]? = some (kMesh.get i) := by
    simp [List.getElem?_eq_getElem i.isLt]
  simp only [termEntry, hget]
  rfl

/-- A worker that owns no mesh point reaches the all-reduce with empty accumulators: when
another worker owns a point with `nCenters > 0` columns, the all-reduce of every block is
undefined on every worker. -/
theorem Hwannier_none_of_idle_worker (env : Collaborators K V R) (iProcess : Nat)
    (kMesh : List (KmeshEntry K V)) (nCenters : Nat) (hpos : 0 < nCenters)
    (hU : ∀ ke ∈ kMesh, ke.U.nCols = nCenters)
    (pIdle pBusy : Nat) (hi : pIdle < env.nProcesses) (hb : pBusy < env.nProcesses)
    (hidle : ∀ i, i < kMesh.length → env.whose_q i ≠ pIdle)
    (hbusy : ∃ i, i < kMesh.length ∧ env.whose_q i = pBusy)
    (c : Nat) (hc : c < env.iCellMap.length) :
    reduceCell env iProcess kMesh c = none := by
  have hcell : env.iCellMap[c]? = some env.iCellMap[c] := List.getElem?_eq_getElem hc
  have hI : (localHwannier env pIdle kMesh).getD c emptyMatrix = emptyMatrix := by
    obtain ⟨acc, hacc, he, _⟩ :=
      accumulate_fold_shape env pIdle kMesh nCenters hU kMesh.length c _ hcell (le_refl _)
    have hacc' : (localHwannier env pIdle kMesh)[c]? = some acc := hacc
    rw [List.getD_eq_getElem?_getD, hacc']
    exact he hidle
  have hB : ((localHwannier env pBusy kMesh).getD c emptyMatrix).nRows = nCenters := by
    obtain ⟨acc, hacc, _, hs⟩ :=
      accumulate_fold_shape env pBusy kMesh nCenters hU kMesh.length c _ hcell (le_refl _)
    have hacc' : (localHwannier env pBusy kMesh)[c]? = some acc := hacc
    rw [List.getD_eq_getElem?_getD, hacc']
    exact (hs hbusy).1
  unfold reduceCell
  by_cases hmine : ((localHwannier env iProcess kMesh).getD c emptyMatrix).nRows = nCenters
  · apply allReduce_of_shape_mismatch _ _ _ pIdle hi
    show ¬ (((localHwannier env pIdle kMesh).getD c emptyMatrix).nRows = _ ∧ _)
    rw [hI, hmine]
    intro h
    have h0 : (0 : Nat) = nCenters := h.1
    omega
  · apply allReduce_of_shape_mismatch _ _ _ pBusy hb
    show ¬ (((localHwannier env pBusy kMesh).getD c emptyMatrix).nRows = _ ∧ _)
    rw [hB]
    intro h
    exact hmine h.1.symm

/-- The two `1 × 1` blocks `(160)` and `(828)` on either worker when the three mesh points
are dealt out alternately to two workers. -/
theorem interpolation_of_busy_workers_example :
    ((Hwannier envEx 0 meshEx).map (fun Hs => Hs.map (fun H => H.rows)))
      = some [[[160]], [[828]]] ∧
    ((Hwannier envEx 1 meshEx).map (fun Hs => Hs.map (fun H => H.rows)))
      = some [[[160]], [[828]]] ∧
    ∃ Hs : List (matrix ℤ), Hwannier envEx 0 meshEx = some Hs ∧
      Hs.length = envEx.iCellMap.length ∧
      ∀ (c : Nat) (cell : ℤ × ℤ), envEx.iCellMap[c]? = some cell →
        ∃ H : matrix ℤ, Hs[c]? = some H ∧ H.nRows = 1 ∧ H.nCols = 1 ∧
          ∀ a b, a < 1 → b < 1 →
            H.data a b = ∑ i : Fin meshEx.length,
              (cell.2 * (meshEx.get i).weight * envEx.phase (meshEx.get i).k cell.1)
                * (Hsub (meshEx.get i)).data a b :=
  have h1 : ∀ i, i < meshEx.length → envEx.whose_q i < envEx.nProcesses := by
    intro i _
    exact Nat.mod_lt i (by decide)
  have h2 : ∀ ke ∈ meshEx, ke.U.nCols = 1 := by
    intro ke hke
    simp only [meshEx, List.mem_cons, List.mem_singleton, List.not_mem_nil, or_false] at hke
    rcases hke with rfl | rfl | rfl <;> rfl
  have h3 : ∀ p, p < envEx.nProcesses → ∃ i, i < meshEx.length ∧ envEx.whose_q i = p := by
    intro p hp
    have hp2 : p < 2 := hp
    exact ⟨p, by simp only [meshEx, List.length_cons, List.length_nil]; omega,
      Nat.mod_eq_of_lt hp2⟩
  ⟨by decide, by decide,
    interpolation_of_busy_workers envEx 0 meshEx 1 (by decide) h1 h3 h2⟩

/-- C8 fails on a run in which one worker owns no mesh point.  With two workers, the two
cells of `envIdleEx` and the three mesh points of `meshEx` all owned by worker `1` (each
point is owned by exactly one worker), worker `1` accumulates the `1 × 1` blocks `(160)` and
`(828)`, which are the sums over all mesh points that C8 names, while worker `0` reaches
line 243 with its two accumulators still the empty `0 × 0` matrix; the all-reduce of either
block then has buffers of different shapes on the two workers and returns a block on
neither, so the list of reduced blocks does not exist although the claimed sums do. -/
theorem idle_worker_all_reduce_undefined :
    (∀ i, i < meshEx.length → envIdleEx.whose_q i < envIdleEx.nProcesses) ∧
    (∀ ke ∈ meshEx, ke.U.nCols = 1) ∧
    (localHwannier envIdleEx 0 meshEx).map (fun H => (H.nRows, H.nCols)) = [(0, 0), (0, 0)] ∧
    (localHwannier envIdleEx 1 meshEx).map (fun H => (H.nRows, H.nCols, H.rows))
      = [(1, 1, [[160]]), (1, 1, [[828]])] ∧
    (envIdleEx.iCellMap.map (fun cell => ∑ i : Fin meshEx.length,
        (cell.2 * (meshEx.get i).weight * envIdleEx.phase (meshEx.get i).k cell.1)
          * (Hsub (meshEx.get i)).data 0 0)) = [160, 828] ∧
    reduceCell envIdleEx 0 meshEx 0 = none ∧ reduceCell envIdleEx 0 meshEx 1 = none ∧
    reduceCell envIdleEx 1 meshEx 0 = none ∧ reduceCell envIdleEx 1 meshEx 1 = none ∧
    Hwannier envIdleEx 0 meshEx = none ∧ Hwannier envIdleEx 1 meshEx = none := by
  refine ⟨fun _ _ => (by decide : 1 < 2), ?_, by decide, by decide, by decide, rfl, rfl,
    rfl, rfl, rfl, rfl⟩
  intro ke hke
  simp only [meshEx, List.mem_cons, List.mem_singleton, List.not_mem_nil, or_false] at hke
  rcases hke with rfl | rfl | rfl <;> rfl

end InterpolationLemmas

end Hamiltonian

/-! ## Bounds of the disentanglement bookkeeping -/

section CheckedBlocks

variable {K : Type} [CommRing K] [StarRing K]

theorem subChecked_of_inRange (m : matrix K) (iStart iStop jStart jStop : Nat)
    (h : iStart < iStop ∧ iStop ≤ m.nRows ∧ jStart < jStop ∧ jStop ≤ m.nCols) :
    m.subChecked iStart iStop jStart jStop = some (m.sub iStart iStop jStart jStop) := by
  simp [matrix.subChecked, matrix.inRange, h]

theorem setChecked_of_inRange (m x : matrix K) (iStart iStop jStart jStop : Nat)
    (h : iStart < iStop ∧ iStop ≤ m.nRows ∧ jStart < jStop ∧ jStop ≤ m.nCols)
    (hr : x.nRows = iStop - iStart) (hc : x.nCols = jStop - jStart) :
    m.setChecked iStart iStop jStart jStop x = some (m.set iStart iStop jStart jStop x) := by
  simp [matrix.setChecked, matrix.inRange, h, hr, hc]

/-- The checked reads of lines 110-119 succeed when free bands remain, and `CdagGFree` has
shape `nBands × nFree`. -/
theorem CdagGFreeChecked_eq (svd : matrix K → SvdFactors K) (nBands nCenters : Nat)
    (r : BandRange) (CdagG : matrix K)
    (h4 : r.bFixedStop ≤ nBands) (hfree : r.nFree nCenters > 0)
    (hCr : CdagG.nRows = nBands) (hCc : CdagG.nCols = nCenters)
    (hsvd : ∀ m : matrix K, (svd m).U.nRows = m.nRows ∧ (svd m).U.nCols = m.nRows ∧
      (svd m).Vdag.nRows = m.nCols ∧ (svd m).Vdag.nCols = m.nCols) :
    CdagGFreeChecked svd nCenters r CdagG = some (CdagGFree svd nCenters r CdagG) ∧
    (CdagGFree svd nCenters r CdagG).nRows = nBands ∧
    (CdagGFree svd nCenters r CdagG).nCols = (r.nFree nCenters).toNat := by
  unfold BandRange.nFree at hfree
  unfold CdagGFreeChecked CdagGFree
  by_cases hfix : r.nFixed > 0
  · have hfix' := hfix
    unfold BandRange.nFixed at hfix'
    have e1 := subChecked_of_inRange CdagG r.bFixedStart r.bFixedStop 0 nCenters
      ⟨by omega, by omega, by omega, by omega⟩
    have hV := hsvd (CdagG.sub r.bFixedStart r.bFixedStop 0 nCenters)
    have e2 := subChecked_of_inRange
      (svd (CdagG.sub r.bFixedStart r.bFixedStop 0 nCenters)).Vdag r.nFixed nCenters 0 nCenters
      ⟨by omega, by rw [hV.2.2.1]; simp, by omega, by rw [hV.2.2.2]; simp⟩
    simp only [hfix, if_true, e1, e2]
    refine ⟨trivial, by simp [hCr], ?_⟩
    simp only [mul_nCols, dagger_nCols, sub_nRows, BandRange.nFree]
    omega
  · simp only [hfix, if_false]
    refine ⟨trivial, hCr, ?_⟩
    rw [hCc]
    unfold BandRange.nFree
    omega

/-- The checked reads and writes of lines 121-126 succeed when free bands remain and
`nFree ≤ nOuter`. -/
theorem CdagGFreeNZChecked_eq (svd : matrix K → SvdFactors K) (nBands nCenters : Nat)
    (r : BandRange) (CdagG : matrix K)
    (h1 : r.bStart ≤ r.bFixedStart) (h2 : r.bFixedStart ≤ r.bFixedStop)
    (h3 : r.bFixedStop ≤ r.bStop) (h4 : r.bStop ≤ nBands)
    (h6 : nCenters ≤ r.bStop - r.bStart) (hfree : r.nFree nCenters > 0)
    (hCr : CdagG.nRows = nBands) (hCc : CdagG.nCols = nCenters)
    (hsvd : ∀ m : matrix K, (svd m).U.nRows = m.nRows ∧ (svd m).U.nCols = m.nRows ∧
      (svd m).Vdag.nRows = m.nCols ∧ (svd m).Vdag.nCols = m.nCols) :
    CdagGFreeNZChecked svd nCenters r CdagG = some (CdagGFreeNZ svd nCenters r CdagG) := by
  obtain ⟨efree, hfr, hfc⟩ := CdagGFreeChecked_eq svd nBands nCenters r CdagG (by omega) hfree
    hCr hCc hsvd
  have hle : (r.nFree nCenters).toNat
      ≤ (r.bFixedStart - r.bStart) + (r.bStop - r.bFixedStop) := by
    unfold BandRange.nFree BandRange.nFixed
    omega
  have hpos : 0 < (r.nFree nCenters).toNat := by omega
  unfold CdagGFreeNZChecked CdagGFreeNZ
  simp only [efree]
  by_cases hlo : r.bFixedStart - r.bStart > 0
  · have s1 := subChecked_of_inRange (CdagGFree svd nCenters r CdagG) r.bStart r.bFixedStart 0
      (r.nFree nCenters).toNat ⟨by omega, by omega, hpos, by omega⟩
    have w1 := setChecked_of_inRange
      (zeroes ((r.bFixedStart - r.bStart) + (r.bStop - r.bFixedStop))
        ((r.bFixedStart - r.bStart) + (r.bStop - r.bFixedStop)) : matrix K)
      ((CdagGFree svd nCenters r CdagG).sub r.bStart r.bFixedStart 0 (r.nFree nCenters).toNat)
      0 (r.bFixedStart - r.bStart) 0 (r.nFree nCenters).toNat
      ⟨hlo, by simp, hpos, by simpa using hle⟩ (by simp) (by simp)
    simp only [hlo, if_true, s1, w1]
    by_cases hhi : r.bStop - r.bFixedStop > 0
    · have s2 := subChecked_of_inRange (CdagGFree svd nCenters r CdagG) r.bFixedStop r.bStop 0
        (r.nFree nCenters).toNat ⟨by omega, by omega, hpos, by omega⟩
      simp only [hhi, if_true, s2]
      apply setChecked_of_inRange
      · exact ⟨by omega, by simp, hpos, by simpa using hle⟩
      · simp
      · simp
    · simp only [hhi, if_false]
  · simp only [hlo, if_false]
    by_cases hhi : r.bStop - r.bFixedStop > 0
    · have s2 := subChecked_of_inRange (CdagGFree svd nCenters r CdagG) r.bFixedStop r.bStop 0
        (r.nFree nCenters).toNat ⟨by omega, by omega, hpos, by omega⟩
      simp only [hhi, if_true, s2]
      apply setChecked_of_inRange
      · exact ⟨by omega, by simp, hpos, by simpa using hle⟩
      · simp
      · simp
    · simp only [hhi, if_false]

/-- The checked reads and writes of lines 131-133 succeed for a square `U` of size
`nOuter`. -/
theorem UpadChecked_eq (nBands : Nat) (r : BandRange) (U : matrix K)
    (h1 : r.bStart ≤ r.bFixedStart) (h2 : r.bFixedStart ≤ r.bFixedStop)
    (h3 : r.bFixedStop ≤ r.bStop) (h4 : r.bStop ≤ nBands)
    (hUr : U.nRows = (r.bFixedStart - r.bStart) + (r.bStop - r.bFixedStop))
    (hUc : U.nCols = (r.bFixedStart - r.bStart) + (r.bStop - r.bFixedStop)) :
    UpadChecked nBands r U = some (Upad nBands r U) := by
  unfold UpadChecked Upad
  by_cases hlo : r.bFixedStart - r.bStart > 0
  · have s1 := subChecked_of_inRange U 0 (r.bFixedStart - r.bStart) 0
      ((r.bFixedStart - r.bStart) + (r.bStop - r.bFixedStop))
      ⟨hlo, by omega, by omega, by omega⟩
    have w1 := setChecked_of_inRange
      (zeroes nBands ((r.bFixedStart - r.bStart) + (r.bStop - r.bFixedStop)) : matrix K)
      (U.sub 0 (r.bFixedStart - r.bStart) 0
        ((r.bFixedStart - r.bStart) + (r.bStop - r.bFixedStop)))
      r.bStart r.bFixedStart 0 ((r.bFixedStart - r.bStart) + (r.bStop - r.bFixedStop))
      ⟨by omega, by simp; omega, by omega, by simp⟩ (by simp) (by simp)
    simp only [hlo, if_true, s1, w1]
    by_cases hhi : r.bStop - r.bFixedStop > 0
    · have s2 := subChecked_of_inRange U (r.bFixedStart - r.bStart)
        ((r.bFixedStart - r.bStart) + (r.bStop - r.bFixedStop)) 0
        ((r.bFixedStart - r.bStart) + (r.bStop - r.bFixedStop))
        ⟨by omega, by omega, by omega, by omega⟩
      simp only [hhi, if_true, s2]
      apply setChecked_of_inRange
      · exact ⟨by omega, by simp; omega, by omega, by simp⟩
      · simp
      · simp
    · simp only [hhi, if_false]
  · simp only [hlo, if_false]
    by_cases hhi : r.bStop - r.bFixedStop > 0
    · have s2 := subChecked_of_inRange U (r.bFixedStart - r.bStart)
        ((r.bFixedStart - r.bStart) + (r.bStop - r.bFixedStop)) 0
        ((r.bFixedStart - r.bStart) + (r.bStop - r.bFixedStop))
        ⟨by omega, by omega, by omega, by omega⟩
      simp only [hhi, if_true, s2]
      apply setChecked_of_inRange
      · exact ⟨by omega, by simp; omega, by omega, by simp⟩
      · simp
      · simp
    · simp only [hhi, if_false]

/-- Every checked read and write of lines 104-136 succeeds, and the checked run returns
the same `U1`. -/
theorem initU1Checked_eq (svd : matrix K → SvdFactors K) (nBands nCenters : Nat)
    (r : BandRange) (CdagG : matrix K)
    (h1 : r.bStart ≤ r.bFixedStart) (h2 : r.bFixedStart ≤ r.bFixedStop)
    (h3 : r.bFixedStop ≤ r.bStop) (h4 : r.bStop ≤ nBands)
    (h5 : r.nFixed ≤ nCenters) (h6 : nCenters ≤ r.bStop - r.bStart)
    (hCr : CdagG.nRows = nBands) (hCc : CdagG.nCols = nCenters)
    (hsvd : ∀ m : matrix K, (svd m).U.nRows = m.nRows ∧ (svd m).U.nCols = m.nRows ∧
      (svd m).Vdag.nRows = m.nCols ∧ (svd m).Vdag.nCols = m.nCols) :
    initU1Checked svd nBands nCenters r CdagG = some (initU1 svd nBands nCenters r CdagG) := by
  have hnIn : r.nFixed ≤ r.nIn nCenters := by
    unfold BandRange.nIn
    split
    · unfold BandRange.nFixed at *; omega
    · exact h5
  unfold initU1Checked initU1
  by_cases hfix : r.nFixed > 0
  · have hfix' := hfix
    unfold BandRange.nFixed at hfix'
    have w0 := setChecked_of_inRange (zeroes nBands (r.nIn nCenters) : matrix K)
      (eye r.nFixed) r.bFixedStart r.bFixedStop 0 r.nFixed
      ⟨by omega, by simp; omega, hfix, by simpa using hnIn⟩ rfl rfl
    simp only [hfix, if_true, w0]
    by_cases hfree : r.nFree nCenters > 0
    · have hnz := CdagGFreeNZChecked_eq svd nBands nCenters r CdagG h1 h2 h3 h4 h6 hfree
        hCr hCc hsvd
      have hS := hsvd (CdagGFreeNZ svd nCenters r CdagG)
      rw [CdagGFreeNZ_nRows, CdagGFreeNZ_nCols] at hS
      have hup := UpadChecked_eq nBands r (svd (CdagGFreeNZ svd nCenters r CdagG)).U
        h1 h2 h3 h4 hS.1 hS.2.1
      have hnIn' : r.nIn nCenters = r.bStop - r.bStart := by simp [BandRange.nIn, hfree]
      simp only [hfree, if_true, hnz, hup]
      apply setChecked_of_inRange
      · refine ⟨by omega, by simp, ?_, by simp⟩
        rw [hnIn']; unfold BandRange.nFree at hfree; omega
      · simp
      · rw [mul_nCols, hS.2.2.2, hnIn']
        unfold BandRange.nFixed
        omega
    · simp only [hfree, if_false]
  · simp only [hfix, if_false]
    by_cases hfree : r.nFree nCenters > 0
    · have hnz := CdagGFreeNZChecked_eq svd nBands nCenters r CdagG h1 h2 h3 h4 h6 hfree
        hCr hCc hsvd
      have hS := hsvd (CdagGFreeNZ svd nCenters r CdagG)
      rw [CdagGFreeNZ_nRows, CdagGFreeNZ_nCols] at hS
      have hup := UpadChecked_eq nBands r (svd (CdagGFreeNZ svd nCenters r CdagG)).U
        h1 h2 h3 h4 hS.1 hS.2.1
      have hnIn' : r.nIn nCenters = r.bStop - r.bStart := by simp [BandRange.nIn, hfree]
      simp only [hfree, if_true, hnz, hup]
      apply setChecked_of_inRange
      · refine ⟨?_, by simp, ?_, by simp⟩
        · unfold BandRange.nFree at hfree; omega
        · rw [hnIn']; unfold BandRange.nFree at hfree; omega
      · simp
      · rw [mul_nCols, hS.2.2.2, hnIn']
        unfold BandRange.nFixed
        omega
    · simp only [hfree, if_false]

/-- With `nBands` eigenvalues, a selection that does not die returns band ranges: no scan
reads `eigs` at an index `≥ nBands`. -/
theorem bandRanges_ok_of_not_dies {α : Type} [LinearOrder α] (w : Wannier α)
    (nBands nCenters : Nat) (eigs : List α) (hlen : eigs.length = nBands)
    (hnd : dies w nBands nCenters eigs = false) :
    ∃ r, bandRanges w nBands nCenters eigs = .ok r := by
  by_cases hw : w.outerWindow = true
  · obtain ⟨s, e, ho, hse, he⟩ := outerScan_total w nBands eigs hlen
    by_cases hd : e - s < nCenters
    · have : dies w nBands nCenters eigs = true := by simp [dies, bandRanges, hw, ho, hd]
      rw [this] at hnd
      cases hnd
    · by_cases hi : w.innerWindow = true
      · obtain ⟨fs, fe, hin, _, _, _⟩ := innerScan_total w eigs s e (by omega) hse
        by_cases hd2 : fe - fs > nCenters
        · have : dies w nBands nCenters eigs = true := by
            simp [dies, bandRanges, hw, ho, hd, hi, hin, hd2]
          rw [this] at hnd
          cases hnd
        · exact ⟨⟨s, e, fs, fe⟩, by simp [bandRanges, hw, ho, hd, hi, hin, hd2]⟩
      · exact ⟨⟨s, e, s, s⟩, by simp [bandRanges, hw, ho, hd, hi]⟩
  · exact ⟨_, by simp [bandRanges, hw]; rfl⟩

/-- C14. Bounds and shape consistency of the disentanglement bookkeeping: with an outer
window configured, `nBands` eigenvalues, a trial overlap of shape `nBands × nCenters` and
SVD factors of shapes `nRows × nRows` and `nCols × nCols`, a selection that does not die
returns band ranges (no scan reads `eigs` at an index `≥ nBands`) with
`bStart ≤ bFixedStart ≤ bFixedStop ≤ bStop ≤ nBands`; when `nFree > 0`, `nFree ≤ nOuter`
and `nIn - nFixed = nOuter` for `nOuter = nLo + nHi`; and every checked block read and
write of the construction of `U1` succeeds, the checked run returning the same `U1`. -/
theorem disentanglement_bounds {α : Type} [LinearOrder α] (w : Wannier α)
    (svd : matrix K → SvdFactors K) (nBands nCenters : Nat) (eigs : List α) (CdagG : matrix K)
    (hlen : eigs.length = nBands) (hw : w.outerWindow = true)
    (hnd : dies w nBands nCenters eigs = false)
    (hCr : CdagG.nRows = nBands) (hCc : CdagG.nCols = nCenters)
    (hsvd : ∀ m : matrix K, (svd m).U.nRows = m.nRows ∧ (svd m).U.nCols = m.nRows ∧
      (svd m).Vdag.nRows = m.nCols ∧ (svd m).Vdag.nCols = m.nCols) :
    ∃ r, bandRanges w nBands nCenters eigs = .ok r ∧
      (r.bStart ≤ r.bFixedStart ∧ r.bFixedStart ≤ r.bFixedStop ∧ r.bFixedStop ≤ r.bStop ∧
        r.bStop ≤ nBands) ∧
      (r.nFree nCenters > 0 →
        r.nFree nCenters ≤ ((r.bFixedStart - r.bStart) + (r.bStop - r.bFixedStop) : Nat) ∧
        r.nIn nCenters - r.nFixed = (r.bFixedStart - r.bStart) + (r.bStop - r.bFixedStop)) ∧
      (r.nFree nCenters > 0 →
        CdagGFreeNZChecked svd nCenters r CdagG = some (CdagGFreeNZ svd nCenters r CdagG)) ∧
      (r.nFree nCenters > 0 →
        UpadChecked nBands r (svd (CdagGFreeNZ svd nCenters r CdagG)).U
          = some (Upad nBands r (svd (CdagGFreeNZ svd nCenters r CdagG)).U)) ∧
      initU1Checked svd nBands nCenters r CdagG
        = some (initU1 svd nBands nCenters r CdagG) := by
  obtain ⟨r, hr⟩ := bandRanges_ok_of_not_dies w nBands nCenters eigs hlen hnd
  have hord := bandRanges_ordered w nBands nCenters eigs hlen r hr
  have hsize := subspace_size_bounds w nBands nCenters eigs hlen r hr
  have h4 := hord.2.2.2 hw
  refine ⟨r, hr, ⟨hord.1, hord.2.1, hord.2.2.1, h4⟩, ?_, ?_, ?_, ?_⟩
  · intro hfree
    have hnIn' : r.nIn nCenters = r.bStop - r.bStart := by simp [BandRange.nIn, hfree]
    have h5 := hsize.1
    have h6 := hsize.2
    rw [hnIn']
    unfold BandRange.nFree BandRange.nFixed at *
    omega
  · intro hfree
    exact CdagGFreeNZChecked_eq svd nBands nCenters r CdagG hord.1 hord.2.1 hord.2.2.1 h4
      hsize.2 hfree hCr hCc hsvd
  · intro _
    have hS := hsvd (CdagGFreeNZ svd nCenters r CdagG)
    rw [CdagGFreeNZ_nRows, CdagGFreeNZ_nCols] at hS
    exact UpadChecked_eq nBands r _ hord.1 hord.2.1 hord.2.2.1 h4 hS.1 hS.2.1
  · exact initU1Checked_eq svd nBands nCenters r CdagG hord.1 hord.2.1 hord.2.2.1 h4
      hsize.1 hsize.2 hCr hCc hsvd

/-- The stand-in `svdEye` returns factors of the shapes of a full SVD. -/
theorem svdEye_shapes (m : matrix K) :
    (svdEye m).U.nRows = m.nRows ∧ (svdEye m).U.nCols = m.nRows ∧
      (svdEye m).Vdag.nRows = m.nCols ∧ (svdEye m).Vdag.nCols = m.nCols :=
  ⟨rfl, rfl, rfl, rfl⟩

/-- C14 at `eigs = [-1, 0, 0.5, 1.2, 2.0]`, outer window `[-0.5, 1.5]`, inner window
`[-0.1, 0.1]`, `nCenters = 3` and a `5 × 3` trial overlap: the ranges are
`1 ≤ 1 ≤ 2 ≤ 4 ≤ 5`, `nFree = 2 = nOuter`, and every checked block access succeeds. -/
theorem disentanglement_bounds_witness :
    eigsEx.length = 5 ∧ wInnerEx.outerWindow = true ∧ dies wInnerEx 5 3 eigsEx = false ∧
    cdagEx.nRows = 5 ∧ cdagEx.nCols = 3 ∧
    bandRanges wInnerEx 5 3 eigsEx = .ok ⟨1, 4, 1, 2⟩ ∧
    BandRange.nFree ⟨1, 4, 1, 2⟩ 3 = 2 ∧
    ∃ r, bandRanges wInnerEx 5 3 eigsEx = .ok r ∧
      (r.bStart ≤ r.bFixedStart ∧ r.bFixedStart ≤ r.bFixedStop ∧ r.bFixedStop ≤ r.bStop ∧
        r.bStop ≤ 5) ∧
      (r.nFree 3 > 0 →
        r.nFree 3 ≤ ((r.bFixedStart - r.bStart) + (r.bStop - r.bFixedStop) : Nat) ∧
        r.nIn 3 - r.nFixed = (r.bFixedStart - r.bStart) + (r.bStop - r.bFixedStop)) ∧
      (r.nFree 3 > 0 →
        CdagGFreeNZChecked svdEye 3 r cdagEx = some (CdagGFreeNZ svdEye 3 r cdagEx)) ∧
      (r.nFree 3 > 0 →
        UpadChecked 5 r (svdEye (CdagGFreeNZ svdEye 3 r cdagEx)).U
          = some (Upad 5 r (svdEye (CdagGFreeNZ svdEye 3 r cdagEx)).U)) ∧
      initU1Checked svdEye 5 3 r cdagEx = some (initU1 svdEye 5 3 r cdagEx) :=
  have hnd : dies wInnerEx 5 3 eigsEx = false := by
    norm_num [dies, bandRanges, outerScan, innerScan, scan, scanFrom, wInnerEx, eigsEx]
  ⟨rfl, rfl, hnd, rfl, rfl,
    by norm_num [bandRanges, outerScan, innerScan, scan, scanFrom, wInnerEx, eigsEx],
    by decide,
    disentanglement_bounds wInnerEx svdEye 5 3 eigsEx cdagEx rfl rfl hnd rfl rfl svdEye_shapes⟩

end CheckedBlocks

/-! ## Fixed bands in `U1` -/

section FixedBands

variable {K : Type} [CommRing K] [StarRing K]

/-- The selected band range ends within the `nBands` bands when an outer window is
configured, or when the requested range `[bStart, bStart + nCenters)` fits. -/
theorem bandRanges_stop_le_of_fit {α : Type} [LinearOrder α] (w : Wannier α)
    (nBands nCenters : Nat) (eigs : List α) (hlen : eigs.length = nBands) (r : BandRange)
    (hr : bandRanges w nBands nCenters eigs = .ok r)
    (hfit : w.outerWindow = false → w.bStart + nCenters ≤ nBands) :
    r.bStop ≤ nBands := by
  by_cases hw : w.outerWindow = true
  · exact (bandRanges_ordered w nBands nCenters eigs hlen r hr).2.2.2 hw
  · have hw' : w.outerWindow = false := by simpa using hw
    have h0 : bandRanges w nBands nCenters eigs
        = .ok ⟨w.bStart, w.bStart + nCenters, w.bStart, w.bStart + nCenters⟩ := by
      simp [bandRanges, hw']
    have he := Except.ok.inj (h0.symm.trans hr)
    rw [← he]
    exact hfit hw'

/-- Without free bands the only block write is that of line 107, which is in range when
the fixed range ends within the `nBands` bands; the checked run then returns the same
`U1`, whatever the SVD routine and the trial overlap. -/
theorem initU1Checked_of_no_free (svd : matrix K → SvdFactors K) (nBands nCenters : Nat)
    (r : BandRange) (CdagG : matrix K) (h4 : r.bFixedStop ≤ nBands)
    (h5 : r.nFixed ≤ nCenters) (hfree : ¬ r.nFree nCenters > 0) :
    initU1Checked svd nBands nCenters r CdagG = some (initU1 svd nBands nCenters r CdagG) := by
  have hnIn : r.nIn nCenters = nCenters := by simp [BandRange.nIn, hfree]
  unfold initU1Checked initU1
  by_cases hfix : r.nFixed > 0
  · have hfix' := hfix
    unfold BandRange.nFixed at hfix'
    have w0 := setChecked_of_inRange (zeroes nBands (r.nIn nCenters) : matrix K)
      (eye r.nFixed) r.bFixedStart r.bFixedStop 0 r.nFixed
      ⟨by omega, by simp; omega, hfix, by simpa [hnIn] using h5⟩ rfl rfl
    simp only [hfix, if_true, w0, hfree, if_false]
  · simp only [hfix, if_false, hfree]

/-- C9 as stated fails: with no windows, `wannier.bStart = 1`, `nBands = 2` and
`nCenters = 2` the selection returns the band range `[1, 3)` for both the selected and the
fixed bands, which does not fit the two bands: band `bStart + 1 = 2` does not exist, the
block write `U1.set(1,3, 0,2, eye(2))` of line 107 is out of range so that the checked run
yields no `U1`, and taken without the check the `2 × 2` matrix has rows `(0, 0)`, `(1, 0)`,
whose column `1` is zero: it is not the selector matrix of the claim. -/
theorem no_window_selection_fails :
    wShiftEx.outerWindow = false ∧
    bandRanges wShiftEx 2 2 ([0, 1] : List ℚ) = .ok ⟨1, 3, 1, 3⟩ ∧
    ¬ (wShiftEx.bStart + 2 ≤ 2) ∧
    ¬ (∀ j, j < 2 → wShiftEx.bStart + j < 2) ∧
    (zeroes 2 2 : matrix ℚ).setChecked 1 3 0 2 (eye 2) = none ∧
    initU1Checked svdEye 2 2 ⟨1, 3, 1, 3⟩ cdagEx22 = none ∧
    (∃ ke, initKmeshEntry wShiftEx svdEye id 2 2 ([0, 1] : List ℚ) cdagEx22 = .ok ke ∧
      ke.U1.rows = [[0, 0], [1, 0]] ∧ ∀ b, b < 2 → ke.U1.data b 1 = 0) := by
  have hr : bandRanges wShiftEx 2 2 ([0, 1] : List ℚ) = .ok ⟨1, 3, 1, 3⟩ := by
    simp [bandRanges, wShiftEx]
  refine ⟨rfl, hr, by decide, ?_, rfl, rfl,
    initRotations svdEye id 2 2 ⟨1, 3, 1, 3⟩ cdagEx22, by simp only [initKmeshEntry, hr], ?_, ?_⟩
  · intro h
    exact absurd (h 1 (by decide)) (by decide)
  · simp [matrix.rows, initRotations, initU1, BandRange.nFixed, BandRange.nFree,
      BandRange.nIn, matrix.set, eye, zeroes, List.range_succ]
  · intro b hb
    show (initU1 svdEye 2 2 ⟨1, 3, 1, 3⟩ cdagEx22).data b 1 = 0
    rw [initU1_data]
    have h1 : ¬ (BandRange.nFree ⟨1, 3, 1, 3⟩ 2 > 0 ∧ b < 2 ∧
        BandRange.nFixed ⟨1, 3, 1, 3⟩ ≤ 1 ∧ 1 < BandRange.nIn ⟨1, 3, 1, 3⟩ 2) := by
      intro h
      exact absurd h.1 (by decide)
    have h2 : ¬ ((⟨1, 3, 1, 3⟩ : BandRange).bFixedStart ≤ b ∧
        b < (⟨1, 3, 1, 3⟩ : BandRange).bFixedStop ∧ 1 < BandRange.nFixed ⟨1, 3, 1, 3⟩ ∧
        b - (⟨1, 3, 1, 3⟩ : BandRange).bFixedStart = 1) := by
      intro h
      have ha : 1 ≤ b := h.1
      have hb1 : b - 1 = 1 := h.2.2.2
      omega
    rw [if_neg h1, if_neg h2]

/-- C9. No-window selection, provided the requested range fits
(`wannier.bStart + nCenters ≤ nBands`): when no outer window is configured the selection
returns normally with band range `[wannier.bStart, wannier.bStart + nCenters)` for both the
selected and the fixed bands, `nFree = 0`, `nFixed = nIn = nCenters`, the block write of
line 107 is in range (the checked run returns `U1`), every band `wannier.bStart + j` with
`j < nCenters` is one of the `nBands` bands, and `U1` is the `nBands × nCenters` selector
matrix with `U1[wannier.bStart + j, j] = 1` and every other entry `0`; the SVD routine has
no influence on `U1`. -/
theorem no_window_selection {α : Type} [LinearOrder α] (w : Wannier α)
    (svd : matrix K → SvdFactors K) (invsqrt : matrix K → matrix K)
    (nBands nCenters : Nat) (eigs : List α) (CdagG : matrix K)
    (hw : w.outerWindow = false) (hfit : w.bStart + nCenters ≤ nBands) :
    bandRanges w nBands nCenters eigs
      = .ok ⟨w.bStart, w.bStart + nCenters, w.bStart, w.bStart + nCenters⟩ ∧
    ∃ ke, initKmeshEntry w svd invsqrt nBands nCenters eigs CdagG = .ok ke ∧
      ke.nFixed = nCenters ∧ ke.nIn = nCenters ∧
      (⟨w.bStart, w.bStart + nCenters, w.bStart, w.bStart + nCenters⟩ : BandRange).nFree nCenters
        = 0 ∧
      initU1Checked svd nBands nCenters
        ⟨w.bStart, w.bStart + nCenters, w.bStart, w.bStart + nCenters⟩ CdagG = some ke.U1 ∧
      ke.U1.nRows = nBands ∧ ke.U1.nCols = nCenters ∧
      (∀ j, j < nCenters → w.bStart + j < nBands ∧ ke.U1.data (w.bStart + j) j = 1) ∧
      (∀ b j, b < nBands → j < nCenters →
        ke.U1.data b j = if b = w.bStart + j then 1 else 0) ∧
      (∀ (svd' : matrix K → SvdFactors K) (invsqrt' : matrix K → matrix K),
        ∃ ke', initKmeshEntry w svd' invsqrt' nBands nCenters eigs CdagG = .ok ke' ∧
          ke'.U1 = ke.U1 ∧
          initU1Checked svd' nBands nCenters
            ⟨w.bStart, w.bStart + nCenters, w.bStart, w.bStart + nCenters⟩ CdagG
              = some ke'.U1) := by
  have hr : bandRanges w nBands nCenters eigs
      = .ok ⟨w.bStart, w.bStart + nCenters, w.bStart, w.bStart + nCenters⟩ := by
    simp [bandRanges, hw]
  have hfix : (⟨w.bStart, w.bStart + nCenters, w.bStart, w.bStart + nCenters⟩ :
      BandRange).nFixed = nCenters := by simp [BandRange.nFixed]
  have hfree : (⟨w.bStart, w.bStart + nCenters, w.bStart, w.bStart + nCenters⟩ :
      BandRange).nFree nCenters = 0 := by simp [BandRange.nFree, hfix]
  have hin : (⟨w.bStart, w.bStart + nCenters, w.bStart, w.bStart + nCenters⟩ :
      BandRange).nIn nCenters = nCenters := by simp [BandRange.nIn, hfree]
  have hchk : ∀ svd' : matrix K → SvdFactors K, initU1Checked svd' nBands nCenters
      ⟨w.bStart, w.bStart + nCenters, w.bStart, w.bStart + nCenters⟩ CdagG
        = some (initU1 svd' nBands nCenters
          ⟨w.bStart, w.bStart + nCenters, w.bStart, w.bStart + nCenters⟩ CdagG) := by
    intro svd'
    apply initU1Checked_of_no_free
    · exact hfit
    · rw [hfix]
    · rw [hfree]; decide
  have hentry : ∀ b j, j < nCenters →
      (initU1 svd nBands nCenters
        ⟨w.bStart, w.bStart + nCenters, w.bStart, w.bStart + nCenters⟩ CdagG).data b j
        = if b = w.bStart + j then 1 else 0 := by
    intro b j hj
    rw [initU1_data]
    simp only [hfree, gt_iff_lt, lt_self_iff_false, false_and, if_false, hfix]
    by_cases hb : b = w.bStart + j
    · have : w.bStart ≤ b ∧ b < w.bStart + nCenters ∧ j < nCenters ∧ b - w.bStart = j := by
        omega
      simp [hb, hj]
    · have : ¬ (w.bStart ≤ b ∧ b < w.bStart + nCenters ∧ j < nCenters ∧ b - w.bStart = j) := by
        omega
      simp [hb, this]
  refine ⟨hr, initRotations svd invsqrt nBands nCenters
    ⟨w.bStart, w.bStart + nCenters, w.bStart, w.bStart + nCenters⟩ CdagG,
    by simp only [initKmeshEntry, hr], hfix, hin, hfree, hchk svd, ?_, ?_, ?_, ?_, ?_⟩
  · simp [initRotations]
  · simp [initRotations, hin]
  · intro j hj
    refine ⟨by omega, ?_⟩
    show (initU1 svd nBands nCenters _ CdagG).data (w.bStart + j) j = 1
    rw [hentry _ j hj, if_pos rfl]
  · intro b j _ hj
    exact hentry b j hj
  · intro svd' invsqrt'
    refine ⟨initRotations svd' invsqrt' nBands nCenters
      ⟨w.bStart, w.bStart + nCenters, w.bStart, w.bStart + nCenters⟩ CdagG,
      by simp only [initKmeshEntry, hr], ?_, hchk svd'⟩
    simp [initRotations, initU1, hfree]

/-- C9 at `nBands = 2`, `nCenters = 1`, `wannier.bStart = 0`: band range `[0, 1)` and `U1`
the column `(1, 0)`, also from the checked run. -/
theorem no_window_selection_witness :
    wFixedEx.outerWindow = false ∧ wFixedEx.bStart + 1 ≤ 2 ∧
    bandRanges wFixedEx 2 1 ([0, 1] : List ℚ) = .ok ⟨0, 1, 0, 1⟩ ∧
    (initRotations svdEye id 2 1 ⟨0, 1, 0, 1⟩ cdagEx1).U1.rows = [[1], [0]] ∧
    (initU1Checked svdEye 2 1 ⟨0, 1, 0, 1⟩ cdagEx1).map (fun U1 => U1.rows)
      = some [[1], [0]] ∧
    (bandRanges wFixedEx 2 1 ([0, 1] : List ℚ)
      = .ok ⟨wFixedEx.bStart, wFixedEx.bStart + 1, wFixedEx.bStart, wFixedEx.bStart + 1⟩ ∧
    ∃ ke, initKmeshEntry wFixedEx svdEye id 2 1 ([0, 1] : List ℚ) cdagEx1 = .ok ke ∧
      ke.nFixed = 1 ∧ ke.nIn = 1 ∧
      (⟨wFixedEx.bStart, wFixedEx.bStart + 1, wFixedEx.bStart, wFixedEx.bStart + 1⟩ :
        BandRange).nFree 1 = 0 ∧
      initU1Checked svdEye 2 1
        ⟨wFixedEx.bStart, wFixedEx.bStart + 1, wFixedEx.bStart, wFixedEx.bStart + 1⟩ cdagEx1
          = some ke.U1 ∧
      ke.U1.nRows = 2 ∧ ke.U1.nCols = 1 ∧
      (∀ j, j < 1 → wFixedEx.bStart + j < 2 ∧ ke.U1.data (wFixedEx.bStart + j) j = 1) ∧
      (∀ b j, b < 2 → j < 1 →
        ke.U1.data b j = if b = wFixedEx.bStart + j then 1 else 0) ∧
      (∀ (svd' : matrix ℚ → SvdFactors ℚ) (invsqrt' : matrix ℚ → matrix ℚ),
        ∃ ke', initKmeshEntry wFixedEx svd' invsqrt' 2 1 ([0, 1] : List ℚ) cdagEx1 = .ok ke' ∧
          ke'.U1 = ke.U1 ∧
          initU1Checked svd' 2 1
            ⟨wFixedEx.bStart, wFixedEx.bStart + 1, wFixedEx.bStart, wFixedEx.bStart + 1⟩
            cdagEx1 = some ke'.U1)) :=
  ⟨rfl, by decide, by simp [bandRanges, wFixedEx],
    by simp [matrix.rows, initRotations, initU1, BandRange.nFixed, BandRange.nFree,
      BandRange.nIn, matrix.set, eye, zeroes, List.range_succ],
    by
      rw [initU1Checked_of_no_free svdEye 2 1 ⟨0, 1, 0, 1⟩ cdagEx1 (by decide) (by decide)
        (by decide)]
      simp [matrix.rows, initU1, BandRange.nFixed, BandRange.nFree,
        BandRange.nIn, matrix.set, eye, zeroes, List.range_succ],
    no_window_selection wFixedEx svdEye id 2 1 ([0, 1] : List ℚ) cdagEx1 rfl (by decide)⟩

/-- C11 as stated fails: with no windows, `wannier.bStart = 1`, `nBands = 2` and
`nCenters = 3` the selection does not abort and returns the fixed range `[1, 4)` with
`nFixed = 3 > 0`, but only band `1` of the frozen bands `1, 2, 3` exists: the block write
`U1.set(1,4, 0,3, eye(3))` of line 107 is out of range, so that the checked run yields no
`U1`, and taken without the check the `2 × 3` matrix has rows `(0, 0, 0)`, `(1, 0, 0)`,
whose columns `1` and `2` (both `< nFixed`) are zero instead of unit vectors. -/
theorem frozen_bands_identity_fails :
    dies wShiftEx 2 3 ([0, 1] : List ℚ) = false ∧
    bandRanges wShiftEx 2 3 ([0, 1] : List ℚ) = .ok ⟨1, 4, 1, 4⟩ ∧
    BandRange.nFixed ⟨1, 4, 1, 4⟩ = 3 ∧
    ¬ ((⟨1, 4, 1, 4⟩ : BandRange).bFixedStop ≤ 2) ∧
    (zeroes 2 3 : matrix ℚ).setChecked 1 4 0 3 (eye 3) = none ∧
    initU1Checked svdEye 2 3 ⟨1, 4, 1, 4⟩ cdagEx23 = none ∧
    (∃ ke, initKmeshEntry wShiftEx svdEye id 2 3 ([0, 1] : List ℚ) cdagEx23 = .ok ke ∧
      ke.nFixed = 3 ∧ ke.U1.rows = [[0, 0, 0], [1, 0, 0]] ∧
      ¬ (∀ j, j < ke.nFixed → ∃ b, b < 2 ∧ ke.U1.data b j = 1)) := by
  have hr : bandRanges wShiftEx 2 3 ([0, 1] : List ℚ) = .ok ⟨1, 4, 1, 4⟩ := by
    simp [bandRanges, wShiftEx]
  have hrows : (initRotations svdEye id 2 3 ⟨1, 4, 1, 4⟩ cdagEx23).U1.rows
      = [[0, 0, 0], [1, 0, 0]] := by
    simp [matrix.rows, initRotations, initU1, BandRange.nFixed, BandRange.nFree,
      BandRange.nIn, matrix.set, eye, zeroes, List.range_succ]
  refine ⟨by simp [dies, hr], hr, rfl, by decide, rfl, rfl,
    initRotations svdEye id 2 3 ⟨1, 4, 1, 4⟩ cdagEx23, by simp only [initKmeshEntry, hr],
    rfl, hrows, ?_⟩
  intro h
  obtain ⟨b, hb, h1⟩ := h 1 (by decide)
  have hcol : ∀ b, b < 2 →
      (initRotations svdEye id 2 3 ⟨1, 4, 1, 4⟩ cdagEx23).U1.data b 1 = 0 := by
    intro b hb
    interval_cases b <;>
      simp [initRotations, initU1, BandRange.nFixed, BandRange.nFree, BandRange.nIn,
        matrix.set, eye, zeroes]
  rw [hcol b hb] at h1
  exact zero_ne_one h1

/-- C11. Frozen bands are copied identically into `U1`, provided the fixed range fits
(an outer window is configured, or `wannier.bStart + nCenters ≤ nBands`): at a mesh point
where the selection returns normally with band ranges `r` (and `nBands` eigenvalues),
whether or not `nFixed > 0`, the fixed range ends within the `nBands` bands, the block
write of line 107 is in range, every column `j < nFixed` of `U1` is a column of `U1` and is
the unit vector of the existing band `bFixedStart + j`, that is `U1[b, j] = 1` for
`b = bFixedStart + j` and `0` for every other `b`, and every column `j ≥ nFixed` is zero on
the frozen rows `[bFixedStart, bFixedStop)`; with a trial overlap of shape
`nBands × nCenters` and SVD factors of shapes `nRows × nRows` and `nCols × nCols` every
checked block read and write succeeds and the checked run returns the same `U1`. -/
theorem frozen_bands_identity {α : Type} [LinearOrder α] (w : Wannier α)
    (svd : matrix K → SvdFactors K) (invsqrt : matrix K → matrix K)
    (nBands nCenters : Nat) (eigs : List α) (CdagG : matrix K)
    (hlen : eigs.length = nBands) (r : BandRange)
    (hr : bandRanges w nBands nCenters eigs = .ok r)
    (hfit : w.outerWindow = false → w.bStart + nCenters ≤ nBands) :
    r.bFixedStart ≤ r.bFixedStop ∧ r.bFixedStop ≤ nBands ∧
    ∃ ke : KmeshEntry K, initKmeshEntry w svd invsqrt nBands nCenters eigs CdagG = .ok ke ∧
      ke.nFixed = r.nFixed ∧ ke.U1.nRows = nBands ∧ ke.nFixed ≤ ke.U1.nCols ∧
      (r.nFixed > 0 →
        (zeroes nBands (r.nIn nCenters) : matrix K).setChecked r.bFixedStart r.bFixedStop
            0 r.nFixed (eye r.nFixed)
          = some ((zeroes nBands (r.nIn nCenters) : matrix K).set r.bFixedStart r.bFixedStop
            0 r.nFixed (eye r.nFixed))) ∧
      (∀ j, j < ke.nFixed →
        r.bFixedStart + j < nBands ∧ ke.U1.data (r.bFixedStart + j) j = 1) ∧
      (∀ b j, j < ke.nFixed → ke.U1.data b j = if b = r.bFixedStart + j then 1 else 0) ∧
      (∀ b j, ke.nFixed ≤ j → r.bFixedStart ≤ b → b < r.bFixedStop → ke.U1.data b j = 0) ∧
      (CdagG.nRows = nBands → CdagG.nCols = nCenters →
        (∀ m : matrix K, (svd m).U.nRows = m.nRows ∧ (svd m).U.nCols = m.nRows ∧
          (svd m).Vdag.nRows = m.nCols ∧ (svd m).Vdag.nCols = m.nCols) →
        initU1Checked svd nBands nCenters r CdagG = some ke.U1) := by
  have hord := bandRanges_ordered w nBands nCenters eigs hlen r hr
  have hsize := subspace_size_bounds w nBands nCenters eigs hlen r hr
  have h4 := bandRanges_stop_le_of_fit w nBands nCenters eigs hlen r hr hfit
  have hstop : r.bFixedStop ≤ nBands := le_trans hord.2.2.1 h4
  have hnIn : r.nFixed ≤ r.nIn nCenters := by
    have h5 := hsize.1
    have h6 := hsize.2
    unfold BandRange.nIn
    split
    · unfold BandRange.nFixed at *; omega
    · exact h5
  have hentry : ∀ b j, j < r.nFixed →
      (initU1 svd nBands nCenters r CdagG).data b j
        = if b = r.bFixedStart + j then 1 else 0 := by
    intro b j hj'
    rw [initU1_data]
    have hc : ¬ (r.nFree nCenters > 0 ∧ b < nBands ∧ r.nFixed ≤ j ∧ j < r.nIn nCenters) := by
      omega
    rw [if_neg hc]
    unfold BandRange.nFixed at hj'
    by_cases hb : b = r.bFixedStart + j
    · have : r.bFixedStart ≤ b ∧ b < r.bFixedStop ∧ j < r.nFixed ∧ b - r.bFixedStart = j := by
        unfold BandRange.nFixed; omega
      rw [if_pos this, if_pos hb]
    · have : ¬ (r.bFixedStart ≤ b ∧ b < r.bFixedStop ∧ j < r.nFixed ∧
          b - r.bFixedStart = j) := by omega
      rw [if_neg this, if_neg hb]
  refine ⟨hord.2.1, hstop, initRotations svd invsqrt nBands nCenters r CdagG,
    by simp only [initKmeshEntry, hr], rfl, initU1_nRows svd nBands nCenters r CdagG, ?_, ?_,
    ?_, ?_, ?_, ?_⟩
  · show r.nFixed ≤ (initU1 svd nBands nCenters r CdagG).nCols
    rw [initU1_nCols]
    exact hnIn
  · intro hfix
    have hfix' := hfix
    unfold BandRange.nFixed at hfix'
    exact setChecked_of_inRange (zeroes nBands (r.nIn nCenters) : matrix K)
      (eye r.nFixed) r.bFixedStart r.bFixedStop 0 r.nFixed
      ⟨by omega, by simp; omega, hfix, by simpa using hnIn⟩ rfl rfl
  · intro j hj
    have hj' : j < r.nFixed := hj
    refine ⟨by unfold BandRange.nFixed at hj'; omega, ?_⟩
    show (initU1 svd nBands nCenters r CdagG).data (r.bFixedStart + j) j = 1
    rw [hentry _ j hj', if_pos rfl]
  · intro b j hj
    exact hentry b j hj
  · intro b j hj hb1 hb2
    show (initU1 svd nBands nCenters r CdagG).data b j = _
    have hj' : r.nFixed ≤ j := hj
    rw [initU1_data]
    split
    · exact Upad_mul_Vdag_frozen_row nBands r _ _ hord.2.1 b _ (by omega) (by omega)
    · have : ¬ (r.bFixedStart ≤ b ∧ b < r.bFixedStop ∧ j < r.nFixed ∧
          b - r.bFixedStart = j) := by omega
      rw [if_neg this]
  · intro hCr hCc hsvd
    exact initU1Checked_eq svd nBands nCenters r CdagG hord.1 hord.2.1 hord.2.2.1 h4
      hsize.1 hsize.2 hCr hCc hsvd

/-- C11 at `eigs = [-1, 0, 0.5, 1.2, 2.0]`, outer window `[-0.5, 1.5]`, inner window
`[-0.1, 0.1]`, `nCenters = 3`: `U1[1, 0] = 1` is the only non-zero entry in row 1 and in
column 0, and the checked run returns the same `U1`. -/
theorem frozen_bands_identity_witness :
    eigsEx.length = 5 ∧ bandRanges wInnerEx 5 3 eigsEx = .ok ⟨1, 4, 1, 2⟩ ∧
    (wInnerEx.outerWindow = false → wInnerEx.bStart + 3 ≤ 5) ∧
    BandRange.nFixed ⟨1, 4, 1, 2⟩ > 0 ∧
    (initRotations svdEye id 5 3 ⟨1, 4, 1, 2⟩ cdagEx).U1.rows
      = [[0, 0, 0], [1, 0, 0], [0, 1, 0], [0, 0, 1], [0, 0, 0]] ∧
    initU1Checked svdEye 5 3 ⟨1, 4, 1, 2⟩ cdagEx
      = some (initRotations svdEye id 5 3 ⟨1, 4, 1, 2⟩ cdagEx).U1 ∧
    ((⟨1, 4, 1, 2⟩ : BandRange).bFixedStart ≤ (⟨1, 4, 1, 2⟩ : BandRange).bFixedStop ∧
    (⟨1, 4, 1, 2⟩ : BandRange).bFixedStop ≤ 5 ∧
    ∃ ke : KmeshEntry ℚ, initKmeshEntry wInnerEx svdEye id 5 3 eigsEx cdagEx = .ok ke ∧
      ke.nFixed = BandRange.nFixed ⟨1, 4, 1, 2⟩ ∧ ke.U1.nRows = 5 ∧
      ke.nFixed ≤ ke.U1.nCols ∧
      (BandRange.nFixed ⟨1, 4, 1, 2⟩ > 0 →
        (zeroes 5 (BandRange.nIn ⟨1, 4, 1, 2⟩ 3) : matrix ℚ).setChecked
            (⟨1, 4, 1, 2⟩ : BandRange).bFixedStart (⟨1, 4, 1, 2⟩ : BandRange).bFixedStop
            0 (BandRange.nFixed ⟨1, 4, 1, 2⟩) (eye (BandRange.nFixed ⟨1, 4, 1, 2⟩))
          = some ((zeroes 5 (BandRange.nIn ⟨1, 4, 1, 2⟩ 3) : matrix ℚ).set
            (⟨1, 4, 1, 2⟩ : BandRange).bFixedStart (⟨1, 4, 1, 2⟩ : BandRange).bFixedStop
            0 (BandRange.nFixed ⟨1, 4, 1, 2⟩) (eye (BandRange.nFixed ⟨1, 4, 1, 2⟩)))) ∧
      (∀ j, j < ke.nFixed →
        (⟨1, 4, 1, 2⟩ : BandRange).bFixedStart + j < 5 ∧
          ke.U1.data ((⟨1, 4, 1, 2⟩ : BandRange).bFixedStart + j) j = 1) ∧
      (∀ b j, j < ke.nFixed →
        ke.U1.data b j = if b = (⟨1, 4, 1, 2⟩ : BandRange).bFixedStart + j then 1 else 0) ∧
      (∀ b j, ke.nFixed ≤ j → (⟨1, 4, 1, 2⟩ : BandRange).bFixedStart ≤ b →
        b < (⟨1, 4, 1, 2⟩ : BandRange).bFixedStop → ke.U1.data b j = 0) ∧
      (cdagEx.nRows = 5 → cdagEx.nCols = 3 →
        (∀ m : matrix ℚ, (svdEye m).U.nRows = m.nRows ∧ (svdEye m).U.nCols = m.nRows ∧
          (svdEye m).Vdag.nRows = m.nCols ∧ (svdEye m).Vdag.nCols = m.nCols) →
        initU1Checked svdEye 5 3 ⟨1, 4, 1, 2⟩ cdagEx = some ke.U1)) :=
  have hr : bandRanges wInnerEx 5 3 eigsEx = .ok ⟨1, 4, 1, 2⟩ := by
    norm_num [bandRanges, outerScan, innerScan, scan, scanFrom, wInnerEx, eigsEx]
  ⟨rfl, hr, fun h => absurd h (by decide), by decide,
    by
      simp [matrix.rows, initRotations, initU1, Upad, CdagGFreeNZ, CdagGFree, svdEye,
        BandRange.nFixed, BandRange.nFree, BandRange.nIn, matrix.set, matrix.sub, matrix.mul,
        eye, zeroes, List.range_succ, Finset.sum_range_succ],
    initU1Checked_eq svdEye 5 3 ⟨1, 4, 1, 2⟩ cdagEx (by decide) (by decide) (by decide)
      (by decide) (by decide) (by decide) rfl rfl svdEye_shapes,
    frozen_bands_identity wInnerEx svdEye id 5 3 eigsEx cdagEx rfl ⟨1, 4, 1, 2⟩ hr
      (fun h => absurd h (by decide))⟩

end FixedBands

end WannierMinimizer

/-! ## Molecule site theorems -/

namespace Fluid1D

section Sites

variable {P V : Type}

/-- Continuing a symmetry class: trailing positions are appended with the index and
properties of the current last site. -/
theorem add_site_positions (c : Nat) (p : P) (vs : List V) :
    ∀ (site : List (Site P V)) (back : Site P V) (rest : List (Arg P V)),
      site.getLast? = some back → back.index = c → back.prop = p →
      add_site site (vs.map Arg.pos ++ rest)
        = add_site (site ++ vs.map (fun v => ⟨c, p, v⟩)) rest := by
  induction vs with
  | nil => intro site back rest _ _ _; simp
  | cons v vs ih =>
    intro site back rest hb hc hp
    simp only [List.map_cons, List.cons_append, add_site, hb, List.append_eq]
    rw [ih (site ++ [(⟨back.index, back.prop, v⟩ : Site P V)]) ⟨back.index, back.prop, v⟩ rest
      (List.getLast?_concat site) hc hp]
    simp [hc, hp]

/-- The last site of a group is a site of index `c`. -/
theorem getLast?_groupSites (c : Nat) (g : P × V × List V) (site : List (Site P V)) :
    ∃ back, (site ++ groupSites c g).getLast? = some back ∧ back.index = c ∧ back.prop = g.1 := by
  unfold groupSites
  rcases List.eq_nil_or_concat g.2.2 with h | ⟨vs, v, h⟩
  · refine ⟨⟨c, g.1, g.2.1⟩, ?_, rfl, rfl⟩
    rw [h]
    exact List.getLast?_concat site
  · refine ⟨⟨c, g.1, v⟩, ?_, rfl, rfl⟩
    rw [h, List.concat_eq_append]
    have hsplit : site ++ (⟨c, g.1, g.2.1⟩ :: (vs ++ [v]).map (fun v => (⟨c, g.1, v⟩ : Site P V)))
        = (site ++ ⟨c, g.1, g.2.1⟩ :: vs.map (fun v => ⟨c, g.1, v⟩)) ++ [⟨c, g.1, v⟩] := by
      simp
    rw [hsplit]
    exact List.getLast?_concat _

/-- Processing the arguments of further groups after a site of index `c` appends their
sites, numbered from `c + 1`. -/
theorem add_site_groups (groups : List (P × V × List V)) :
    ∀ (c : Nat) (site : List (Site P V)) (back : Site P V),
      site.getLast? = some back → back.index = c →
      add_site site (groupArgs groups) = some (site ++ groupedSites (c + 1) groups) := by
  induction groups with
  | nil => intro c site back _ _; simp [groupArgs, groupedSites, add_site]
  | cons g groups ih =>
    intro c site back hb hc
    have hargs : groupArgs (g :: groups)
        = Arg.prop g.1 :: Arg.pos g.2.1 :: (g.2.2.map Arg.pos ++ groupArgs groups) := by
      simp [groupArgs]
    rw [hargs]
    simp only [add_site, hb]
    rw [add_site_positions (c + 1) g.1 g.2.2
      (site ++ [(⟨back.index + 1, g.1, g.2.1⟩ : Site P V)]) ⟨back.index + 1, g.1, g.2.1⟩ _
      (List.getLast?_concat site) (by simp [hc]) rfl]
    have hsite : site ++ [⟨back.index + 1, g.1, g.2.1⟩] ++ g.2.2.map (fun v => ⟨c + 1, g.1, v⟩)
        = site ++ groupSites (c + 1) g := by
      simp [groupSites, hc]
    rw [hsite]
    obtain ⟨back', hb', hc', _⟩ := getLast?_groupSites (c + 1) g site
    rw [ih (c + 1) _ back' hb' hc']
    simp [groupedSites]

/-- For a well-formed argument list `make_site` returns the grouped sites, numbered from
`0`. -/
theorem make_site_groups (g : P × V × List V) (groups : List (P × V × List V)) :
    make_site (groupArgs (g :: groups)) = some (groupedSites 0 (g :: groups)) := by
  have hargs : groupArgs (g :: groups)
      = Arg.prop g.1 :: Arg.pos g.2.1 :: (g.2.2.map Arg.pos ++ groupArgs groups) := by
    simp [groupArgs]
  rw [hargs]
  simp only [make_site]
  rw [add_site_positions 0 g.1 g.2.2 [(⟨0, g.1, g.2.1⟩ : Site P V)] ⟨0, g.1, g.2.1⟩ _
    rfl rfl rfl]
  obtain ⟨back, hb, hc, _⟩ := getLast?_groupSites 0 g ([] : List (Site P V))
  have hsite : [(⟨0, g.1, g.2.1⟩ : Site P V)] ++ g.2.2.map (fun v => ⟨0, g.1, v⟩)
      = [] ++ groupSites 0 g := by
    simp [groupSites]
  rw [hsite, add_site_groups groups 0 _ back hb hc]
  simp [groupedSites]

/-- The last of the grouped sites carries the index of the last group. -/
theorem getLast?_groupedSites (groups : List (P × V × List V)) :
    ∀ (c : Nat) (site : List (Site P V)), groups ≠ [] →
      ∃ back, (site ++ groupedSites c groups).getLast? = some back ∧
        back.index + 1 = c + groups.length := by
  induction groups with
  | nil => intro c site h; exact absurd rfl h
  | cons g groups ih =>
    intro c site _
    by_cases hnil : groups = []
    · subst hnil
      obtain ⟨back, hb, hc, _⟩ := getLast?_groupSites c g site
      refine ⟨back, ?_, by simp [hc]⟩
      simpa [groupedSites] using hb
    · obtain ⟨back, hb, hc⟩ := ih (c + 1) (site ++ groupSites c g) hnil
      refine ⟨back, ?_, by simp only [List.length_cons]; omega⟩
      simpa [groupedSites] using hb

/-- The positions of the grouped sites are the position arguments in argument order. -/
theorem groupedSites_pos (groups : List (P × V × List V)) :
    ∀ c : Nat, (groupedSites c groups).map (fun s => s.pos)
      = (groups.map (fun g => g.2.1 :: g.2.2)).flatten := by
  induction groups with
  | nil => intro c; rfl
  | cons g groups ih =>
    intro c
    simp [groupedSites, groupSites, ih (c + 1), Function.comp_def]

/-- The number of grouped sites is `m_1 + ... + m_k`. -/
theorem length_groupedSites (groups : List (P × V × List V)) :
    ∀ c : Nat, (groupedSites c groups).length
      = (groups.map (fun g => g.2.2.length + 1)).sum := by
  induction groups with
  | nil => intro c; rfl
  | cons g groups ih =>
    intro c
    simp [groupedSites, groupSites, ih (c + 1)]
    omega

/-- The sites of group number `t` are among the grouped sites, with index `c + t` and the
properties of that group; and every grouped site arises this way. -/
theorem mem_groupedSites (groups : List (P × V × List V)) :
    ∀ (c : Nat) (s : Site P V), s ∈ groupedSites c groups ↔
      ∃ t g, groups[t]? = some g ∧ s.index = c + t ∧ s.prop = g.1 ∧ s.pos ∈ g.2.1 :: g.2.2 := by
  induction groups with
  | nil => intro c s; simp [groupedSites]
  | cons g groups ih =>
    intro c s
    simp only [groupedSites, List.mem_append, ih (c + 1) s]
    constructor
    · rintro (h | ⟨t, g', hg, hi, hp, hv⟩)
      · refine ⟨0, g, by simp, ?_⟩
        simp only [groupSites, List.mem_cons, List.mem_map] at h
        rcases h with rfl | ⟨v, hv, rfl⟩
        · simp
        · simp [hv]
      · exact ⟨t + 1, g', by simpa using hg, by omega, hp, hv⟩
    · rintro ⟨t, g', hg, hi, hp, hv⟩
      cases t with
      | zero =>
        left
        simp only [List.getElem?_cons_zero, Option.some.injEq] at hg
        subst hg
        obtain ⟨i, p, v⟩ := s
        simp only at hi hp hv
        subst hp
        simp only [groupSites, List.mem_cons, List.mem_map, Site.mk.injEq]
        have hi' : i = c := by omega
        subst hi'
        rcases List.mem_cons.mp hv with rfl | hv'
        · left; simp
        · right; exact ⟨v, hv', by simp⟩
      | succ t =>
        right
        exact ⟨t, g', by simpa using hg, by omega, hp, hv⟩

/-- The indices of the grouped sites are non-decreasing. -/
theorem sorted_groupedSites (groups : List (P × V × List V)) :
    ∀ c : Nat, ((groupedSites c groups).map (fun s => s.index)).Sorted (· ≤ ·) := by
  induction groups with
  | nil => intro c; simp [groupedSites]
  | cons g groups ih =>
    intro c
    simp only [groupedSites, List.map_append, List.Sorted, List.pairwise_append]
    refine ⟨?_, ih (c + 1), ?_⟩
    · rw [List.pairwise_iff_forall_sublist]
      intro a b hab
      have ha : a ∈ (groupSites c g).map (fun s => s.index) := hab.subset (by simp)
      have hb : b ∈ (groupSites c g).map (fun s => s.index) := hab.subset (by simp)
      simp only [groupSites, List.map_cons, List.map_map, List.mem_cons, List.mem_map,
        Function.comp] at ha hb
      rcases ha with rfl | ⟨_, _, rfl⟩ <;> rcases hb with rfl | ⟨_, _, rfl⟩ <;> exact le_refl _
    · intro a ha b hb
      simp only [groupSites, List.map_cons, List.map_map, List.mem_cons, List.mem_map,
        Function.comp] at ha
      obtain ⟨s, hs, rfl⟩ := List.mem_map.mp hb
      obtain ⟨t, _, _, hi, _, _⟩ := (mem_groupedSites groups (c + 1) s).mp hs
      rcases ha with rfl | ⟨_, _, rfl⟩ <;> omega

/-- C12. Molecule site-index assignment: for an argument list of the form
`prop_1, pos_{1,1..m_1}, ..., prop_k, pos_{k,1..m_k}` with `k ≥ 1` and every `m_c ≥ 1`, the
constructor succeeds; the sites are in argument order, the site of `pos_{c,j}` has index
`c - 1` (the 0-based number of its group) and `prop = prop_c`; `nSites` is `site.size()`,
which is `m_1 + ... + m_k`, and `nIndices = k`; hence the indices start at `0`, are
non-decreasing, and take every value below `nIndices`. -/
theorem molecule_site_indices (name : String) (groups : List (P × V × List V))
    (hk : groups ≠ []) :
    ∃ mol : Molecule P V, Molecule.construct name (groupArgs groups) = some mol ∧
      make_site (groupArgs groups) = some mol.site ∧
      mol.site = groupedSites 0 groups ∧
      mol.site.map (fun s => s.pos) = (groups.map (fun g => g.2.1 :: g.2.2)).flatten ∧
      (∀ s : Site P V, s ∈ mol.site ↔
        ∃ c g, groups[c]? = some g ∧ s.index = c ∧ s.prop = g.1 ∧ s.pos ∈ g.2.1 :: g.2.2) ∧
      mol.nSites = mol.site.length ∧
      mol.nSites = (groups.map (fun g => g.2.2.length + 1)).sum ∧
      mol.nIndices = groups.length ∧
      mol.site.head?.map (fun s => s.index) = some 0 ∧
      (mol.site.map (fun s => s.index)).Sorted (· ≤ ·) ∧
      (∀ v, v < mol.nIndices → ∃ s ∈ mol.site, s.index = v) := by
  obtain ⟨g, rest, rfl⟩ := List.exists_cons_of_ne_nil hk
  have hmake := make_site_groups g rest
  obtain ⟨back, hb, hc⟩ := getLast?_groupedSites (g :: rest) 0 ([] : List (Site P V)) hk
  simp only [List.nil_append, Nat.zero_add] at hb hc
  have hmem : ∀ s : Site P V, s ∈ groupedSites 0 (g :: rest) ↔
      ∃ c g', (g :: rest)[c]? = some g' ∧ s.index = c ∧ s.prop = g'.1 ∧
        s.pos ∈ g'.2.1 :: g'.2.2 := by
    intro s
    simpa using mem_groupedSites (g :: rest) 0 s
  refine ⟨⟨name, groupedSites 0 (g :: rest), (groupedSites 0 (g :: rest)).length,
      back.index + 1⟩, ?_, hmake, rfl, groupedSites_pos _ 0, hmem, rfl,
    length_groupedSites _ 0, hc, ?_, sorted_groupedSites _ 0, ?_⟩
  · simp only [Molecule.construct, hmake, hb]
  · simp [groupedSites, groupSites]
  · intro v hv
    have hv' : v < (g :: rest).length := by
      have h1 : back.index + 1 = (g :: rest).length := hc
      have h2 : v < back.index + 1 := hv
      omega
    refine ⟨⟨v, ((g :: rest).get ⟨v, hv'⟩).1, ((g :: rest).get ⟨v, hv'⟩).2.1⟩, ?_, rfl⟩
    rw [hmem]
    exact ⟨v, (g :: rest).get ⟨v, hv'⟩, by simp [List.getElem?_eq_getElem hv'], rfl, rfl,
      by simp⟩

/-- C12 on `Molecule(&siteO,posO, &siteH,posH1,posH2, &siteV,posV1,posV2)`: the indices are
`[0, 1, 1, 2, 2]`, `nSites = 5`, `nIndices = 3`. -/
theorem molecule_site_indices_witness :
    bondedVoidGroups ≠ [] ∧
    groupArgs bondedVoidGroups
      = [Arg.prop 0, Arg.pos 10, Arg.prop 1, Arg.pos 11, Arg.pos 12,
          Arg.prop 2, Arg.pos 13, Arg.pos 14] ∧
    Molecule.construct "bondedVoid" (groupArgs bondedVoidGroups)
      = some ⟨"bondedVoid",
          [⟨0, 0, 10⟩, ⟨1, 1, 11⟩, ⟨1, 1, 12⟩, ⟨2, 2, 13⟩, ⟨2, 2, 14⟩], 5, 3⟩ ∧
    ([⟨0, 0, 10⟩, ⟨1, 1, 11⟩, ⟨1, 1, 12⟩, ⟨2, 2, 13⟩, ⟨2, 2, 14⟩] :
      List (Site Nat Nat)).map (fun s => s.index) = [0, 1, 1, 2, 2] ∧
    ∃ mol : Molecule Nat Nat,
      Molecule.construct "bondedVoid" (groupArgs bondedVoidGroups) = some mol ∧
      make_site (groupArgs bondedVoidGroups) = some mol.site ∧
      mol.site = groupedSites 0 bondedVoidGroups ∧
      mol.site.map (fun s => s.pos)
        = (bondedVoidGroups.map (fun g => g.2.1 :: g.2.2)).flatten ∧
      (∀ s : Site Nat Nat, s ∈ mol.site ↔
        ∃ c g, bondedVoidGroups[c]? = some g ∧ s.index = c ∧ s.prop = g.1 ∧
          s.pos ∈ g.2.1 :: g.2.2) ∧
      mol.nSites = mol.site.length ∧
      mol.nSites = (bondedVoidGroups.map (fun g => g.2.2.length + 1)).sum ∧
      mol.nIndices = bondedVoidGroups.length ∧
      mol.site.head?.map (fun s => s.index) = some 0 ∧
      (mol.site.map (fun s => s.index)).Sorted (· ≤ ·) ∧
      (∀ v, v < mol.nIndices → ∃ s ∈ mol.site, s.index = v) :=
  ⟨by decide, rfl, rfl, rfl, molecule_site_indices "bondedVoid" bondedVoidGroups (by decide)⟩

end Sites

end Fluid1D
